import Mathlib

/-!
# Dependency harvester (`harvester.go`)

A shallow embedding of the dependency-graph collector of `harvester.go`.

* A `*dylib` is an index into `harvester.heap`, the list of the `dylib` objects
  allocated so far; `addDep` updates the object in place, so every alias of the
  pointer (the visit stack, `h.libs`, `h.deps`, other dependency lists) sees it.
* A Go `map[string]*dylib` is an association list with unique keys, new keys
  being appended at the end.
* The recursion of `collectFile` through `collectLib` is bounded by a fuel
  argument; `none` means that the fuel ran out.
* `oToolExec`, `oToolParse`, `dylib.absolutePath` and `path.Dir` are not part of
  `harvester.go`; they are the fields of `Tools`.
-/

set_option autoImplicit false

/-! ## Definitions -/

/-- A `*dylib`: the index of the object in `harvester.heap`. -/
abbrev Ptr := Nat

/-- Modelled from the spec: the parser `oToolParse` and its result type are
declared outside `harvester.go`. One record of an inspector report as the
parser hands it over carries the derived name and the declared path. -/
structure record where
  name : String
  path : String
deriving DecidableEq, Repr

/-- Modelled from the spec: the `dylib` struct is declared outside
`harvester.go`. Its fields are the ones `harvester.go` reads: `name`, `path`
and `deps` (a `[]*dylib`, the direct dependencies in order). -/
structure dylib where
  name : String
  path : String
  deps : List Ptr
deriving DecidableEq, Repr

/-- Go's `error` result of the collector, with the run-time panic of an
out-of-range index as a third outcome. -/
inductive status where
  | nil
  | err (msg : String)
  | panic
deriving DecidableEq, Repr

/-- The collaborators that `harvester.go` calls but does not define.
`oToolExec path` is the inspector run on `path` (its output, or its error);
`oToolParse out` turns an output into the ordered records, or fails;
`absolutePath name path dir` is `lib.absolutePath(dir)` for a library with that
name and declared path; `pathDir` is `path.Dir`. -/
structure Tools where
  oToolExec : String → Except String String
  oToolParse : String → Except String (List record)
  absolutePath : String → String → String → String
  pathDir : String → String

/-- The `harvester` struct, together with the memory holding the `dylib`
objects its pointers refer to and the log of the `oToolExec` invocations. -/
structure harvester where
  root : String
  deps : List (String × Ptr)
  libs : List (String × Ptr)
  libStack : List Ptr
  heap : List dylib
  calls : List String
deriving DecidableEq, Repr

/-- What a call returns: the state it leaves behind and its `error`. -/
structure Result where
  h : harvester
  st : status
deriving DecidableEq, Repr

/-- Map lookup `m[k]`; `none` is Go's `nil` for a missing key. -/
def mapGet : List (String × Ptr) → String → Option Ptr
  | [], _ => none
  | (k', v) :: m, k => if k' = k then some v else mapGet m k

/-- Map store `m[k] = v`: replaces the value of an existing key, otherwise adds
the key. -/
def mapSet : List (String × Ptr) → String → Ptr → List (String × Ptr)
  | [], k, v => [(k, v)]
  | (k', v') :: m, k, v => if k' = k then (k', v) :: m else (k', v') :: mapSet m k v

/-- The keys of a map. -/
def mapKeys (m : List (String × Ptr)) : List String := m.map Prod.fst

/-- Dereference of a `*dylib`. -/
def cell (h : harvester) (p : Ptr) : dylib := h.heap.getD p ⟨"", "", []⟩

/-- `newHarvester(root)`. -/
def newHarvester (root : String) : harvester :=
  { root := root, deps := [], libs := [], libStack := [], heap := [], calls := [] }

/-- Modelled from the spec: the allocation done by the parser `oToolParse`,
which is outside `harvester.go`. Its result is placed in memory as one fresh
`dylib` per record, in report order, with no dependencies yet (a dependency
list is populated only when the library is traversed). -/
def alloc (h : harvester) (recs : List record) : harvester :=
  { h with heap := h.heap ++ recs.map (fun r => ⟨r.name, r.path, []⟩) }

/-- The call `oToolExec(path)` noted in the log. -/
def logCall (h : harvester) (path : String) : harvester :=
  { h with calls := h.calls ++ [path] }

/-- Modelled from the spec: the method `dylib.addDep` is defined outside
`harvester.go`. `cur.addDep(lib)` attaches `lib` as a direct-dependency edge of
`cur`, one edge per occurrence: it appends `lib` to the list `cur.deps`. -/
def addDep (h : harvester) (cur lib : Ptr) : harvester :=
  { h with heap := h.heap.set cur { cell h cur with deps := (cell h cur).deps ++ [lib] } }

/-- `h.pushLib(lib)`. -/
def pushLib (h : harvester) (lib : Ptr) : harvester :=
  { h with libStack := h.libStack ++ [lib] }

/-- `h.popLib()`: the last element and the stack without it; `none` on an
empty stack, where the index `len-1` is out of range. -/
def popLib (h : harvester) : Option (Ptr × harvester) :=
  match h.libStack.getLast? with
  | none => none
  | some p => some (p, { h with libStack := h.libStack.dropLast })

/-- `h.curLib()`: the top of the visit stack, `none` (Go's `nil`) when empty. -/
def curLib (h : harvester) : Option Ptr := h.libStack.getLast?

/-- The first statement of the loop body: `if curLib := h.curLib(); curLib != nil
{ curLib.addDep(lib) }`. -/
def attach (h : harvester) (lib : Ptr) : harvester :=
  match curLib h with
  | some cur => addDep h cur lib
  | none => h

/-- The statement `if isRoot { h.deps[lib.name] = lib }`. -/
def noteRoot (isRoot : Bool) (h : harvester) (lib : Ptr) : harvester :=
  if isRoot then { h with deps := mapSet h.deps (cell h lib).name lib } else h

/-- The statement `h.libs[lib.name] = lib`. -/
def register (h : harvester) (lib : Ptr) : harvester :=
  { h with libs := mapSet h.libs (cell h lib).name lib }

/-- The path at which `collectLib` inspects `lib`:
`lib.absolutePath(path.Dir(h.root))`. -/
def libPath (t : Tools) (h : harvester) (lib : Ptr) : String :=
  t.absolutePath (cell h lib).name (cell h lib).path (t.pathDir h.root)

/-- `collectLib`, over the recursive call `collectFile(_, false)` it makes. -/
def collectLib (t : Tools) (file : String → harvester → Option Result)
    (lib : Ptr) (h : harvester) : Option Result :=
  match file (libPath t (pushLib h lib) lib) (pushLib h lib) with
  | none => none
  | some ⟨h1, status.nil⟩ =>
    match popLib h1 with
    | none => some ⟨h1, status.panic⟩
    | some (_, h2) => some ⟨h2, status.nil⟩
  | some ⟨h1, e⟩ => some ⟨h1, e⟩

/-- The `for _, lib := range libs` loop of `collectFile`, over the remaining
records. -/
def collectLoop (t : Tools) (file : String → harvester → Option Result)
    (path : String) (isRoot : Bool) : List Ptr → harvester → Option Result
  | [], h => some ⟨h, status.nil⟩
  | lib :: rest, h =>
    if (cell (attach h lib) lib).path = path then
      collectLoop t file path isRoot rest (attach h lib)
    else if mapGet (noteRoot isRoot (attach h lib) lib).libs
        (cell (noteRoot isRoot (attach h lib) lib) lib).name = none then
      match collectLib t file lib (register (noteRoot isRoot (attach h lib) lib) lib) with
      | none => none
      | some ⟨h1, status.nil⟩ => collectLoop t file path isRoot rest h1
      | some ⟨h1, e⟩ => some ⟨h1, e⟩
    else
      collectLoop t file path isRoot rest (noteRoot isRoot (attach h lib) lib)

/-- `collectFile(path, isRoot)`. The records of the report are allocated at the
end of the memory and the loop runs over their addresses. -/
def collectFile (t : Tools) : Nat → String → Bool → harvester → Option Result
  | 0, _, _, _ => none
  | fuel + 1, path, isRoot, h =>
    match t.oToolExec path with
    | Except.error e => some ⟨logCall h path, status.err e⟩
    | Except.ok out =>
      match t.oToolParse out with
      | Except.error e => some ⟨logCall h path, status.err e⟩
      | Except.ok recs =>
        collectLoop t (fun p h1 => collectFile t fuel p false h1) path isRoot
          (List.range' (logCall h path).heap.length recs.length)
          (alloc (logCall h path) recs)

/-- `collect()`. -/
def collect (t : Tools) (fuel : Nat) (h : harvester) : Option Result :=
  collectFile t fuel h.root true h

/-- The records of the report of `path`, when both the inspector and the
parser succeed on it. -/
def report (t : Tools) (path : String) : Option (List record) :=
  match t.oToolExec path with
  | Except.error _ => none
  | Except.ok out =>
    match t.oToolParse out with
    | Except.error _ => none
    | Except.ok recs => some recs

/-- A call `collectFile(path, isRoot)` from state `h` returns `r` within `fuel`
nested calls. -/
def fileRun (t : Tools) (fuel : Nat) (path : String) (isRoot : Bool) (h : harvester)
    (r : Result) : Prop :=
  collectFile t fuel path isRoot h = some r

/-- The loop of `collectFile(path, isRoot)` over the records `ptrs`, entered in
state `h`, ends in `r`, its nested calls staying within `fuel`. -/
def loopRun (t : Tools) (fuel : Nat) (path : String) (isRoot : Bool) (ptrs : List Ptr)
    (h : harvester) (r : Result) : Prop :=
  collectLoop t (fun p h1 => collectFile t fuel p false h1) path isRoot ptrs h = some r

/-- The state after the `popLib` that follows a nested call. -/
def popped (h1 : harvester) (stack : List Ptr) : harvester := { h1 with libStack := stack }

/-- The state in which `collectLib(lib)` enters the nested `collectFile`: the
record has been attached, noted for the root, registered and pushed. -/
def entered (isRoot : Bool) (h : harvester) (lib : Ptr) : harvester :=
  pushLib (register (noteRoot isRoot (attach h lib) lib) lib) lib

/-- State `h'` is a later state of `h`: same root, the memory has only grown,
the objects present keep their name and path, and the entries of `libs` are
still there. -/
structure Extends (h h' : harvester) : Prop where
  root : h'.root = h.root
  len : h.heap.length ≤ h'.heap.length
  name : ∀ p, p < h.heap.length → (cell h' p).name = (cell h p).name
  path : ∀ p, p < h.heap.length → (cell h' p).path = (cell h p).path
  libs : ∀ n p, mapGet h.libs n = some p → mapGet h'.libs n = some p

/-- The pointers held by the harvester refer to allocated objects, map keys are
unique, and each map entry is filed under the name of its object. -/
structure WF (h : harvester) : Prop where
  libs : ∀ n p, mapGet h.libs n = some p → p < h.heap.length ∧ (cell h p).name = n
  deps : ∀ n p, mapGet h.deps n = some p → p < h.heap.length ∧ (cell h p).name = n
  stack : ∀ p ∈ h.libStack, p < h.heap.length
  libsKeys : (mapKeys h.libs).Nodup
  depsKeys : (mapKeys h.deps).Nodup

/-- The names of `U` not yet registered in `libs`: the measure that bounds the
depth of the recursion. -/
def unseen (U : List String) (h : harvester) : Nat :=
  (U.toFinset \ (mapKeys h.libs).toFinset).card

/-- The inspector's reports mention only the names of `U`. -/
def namesWithin (t : Tools) (U : List String) : Prop :=
  ∀ path recs r, report t path = some recs → r ∈ recs → r.name ∈ U

/-- Every record of the report of `path` that is not a self-reference has its
name among the keys of `libs`. -/
def closedAt (t : Tools) (h : harvester) (path : String) : Prop :=
  ∀ recs r, report t path = some recs → r ∈ recs → r.path ≠ path → r.name ∈ mapKeys h.libs

/-- The map that the statement `h.deps[lib.name] = lib` builds from `m` over the
records `ptrs` of the report of `path`: every record that is not a
self-reference is stored under its name, a later one overwriting an earlier. -/
def noted (h : harvester) (path : String) : List Ptr → List (String × Ptr) → List (String × Ptr)
  | [], m => m
  | p :: rest, m =>
    if (cell h p).path = path then noted h path rest m
    else noted h path rest (mapSet m (cell h p).name p)

/-- The precondition of the loop for the dependency lists: its records are
allocated, distinct, and none of them is the library on top of the stack. -/
def loopReady (h : harvester) (ptrs : List Ptr) : Prop :=
  ptrs.Nodup ∧ ∀ p ∈ ptrs, p < h.heap.length ∧ curLib h ≠ some p

/-- The record (name and declared path) of the object at `q`. -/
def recordOf (h : harvester) (q : Ptr) : record := ⟨(cell h q).name, (cell h q).path⟩

/-- The dependency list of the library at `p` is its report: one entry per
record, in report order, each entry an allocated object holding that record. -/
def Full (t : Tools) (h : harvester) (p : Ptr) : Prop :=
  (∀ q ∈ (cell h p).deps, q < h.heap.length) ∧
  report t (libPath t h p) = some ((cell h p).deps.map (recordOf h))

/-- Name `n` is reachable from the root executable in one or more steps. A step
goes from a binary to the name of a record of its report that is not a
self-reference; the report of a library is the one of the path at which the
record registered under its name is inspected. -/
inductive Reach (t : Tools) (h : harvester) : String → Prop
  | root (recs : List record) (r : record) :
      report t h.root = some recs → r ∈ recs → r.path ≠ h.root → Reach t h r.name
  | step (a : String) (p : Ptr) (recs : List record) (r : record) :
      Reach t h a → mapGet h.libs a = some p → report t (libPath t h p) = some recs →
      r ∈ recs → r.path ≠ libPath t h p → Reach t h r.name

/-- Every registered name is reachable. -/
def Sound (t : Tools) (h : harvester) : Prop := ∀ n, n ∈ mapKeys h.libs → Reach t h n

/-- The paths at which the registered libraries are inspected, in the order of
their registration. -/
def libPaths (t : Tools) (h : harvester) : List String :=
  h.libs.map (fun e => libPath t h e.2)

/-- The log holds the root, then the path of every registered library. -/
def Logged (t : Tools) (h : harvester) : Prop := h.calls = h.root :: libPaths t h

/-- The state in which the loop of the root call starts. -/
def rootLoopState (root : String) (recs : List record) : harvester :=
  alloc (logCall (newHarvester root) root) recs

/-- Collaborators given by a table from paths to reports: the inspector echoes
the path of a binary it knows and fails on any other, the parser looks the
report up, every library is resolved next to the root (`dir/name`), and
`path.Dir` of the root is `dir`. -/
def toolsOf (table : List (String × List record)) (dir : String) : Tools where
  oToolExec := fun p =>
    match table.lookup p with
    | some _ => Except.ok p
    | none => Except.error ("cannot inspect " ++ p)
  oToolParse := fun out =>
    match table.lookup out with
    | some recs => Except.ok recs
    | none => Except.error "malformed report"
  absolutePath := fun name _ dir => dir ++ "/" ++ name
  pathDir := fun _ => dir

/-- The end-to-end scenario: `app` declares itself and `libfoo.dylib` (declared
path `@rpath/libfoo.dylib`), which declares itself and `libbar.dylib`, which
declares only itself. The record with which a binary declares itself carries
the path at which that binary is inspected. -/
def e2eTable : List (String × List record) :=
  [("/opt/app/app", [⟨"app", "/opt/app/app"⟩, ⟨"libfoo.dylib", "@rpath/libfoo.dylib"⟩]),
   ("/opt/app/libfoo.dylib",
      [⟨"libfoo.dylib", "/opt/app/libfoo.dylib"⟩, ⟨"libbar.dylib", "@rpath/libbar.dylib"⟩]),
   ("/opt/app/libbar.dylib", [⟨"libbar.dylib", "/opt/app/libbar.dylib"⟩])]

/-- The state that `collect` reaches in the end-to-end scenario. -/
def e2eFinal : harvester :=
  { root := "/opt/app/app",
    deps := [("libfoo.dylib", 1)],
    libs := [("libfoo.dylib", 1), ("libbar.dylib", 3)],
    libStack := [],
    heap := [⟨"app", "/opt/app/app", []⟩,
             ⟨"libfoo.dylib", "@rpath/libfoo.dylib", [2, 3]⟩,
             ⟨"libfoo.dylib", "/opt/app/libfoo.dylib", []⟩,
             ⟨"libbar.dylib", "@rpath/libbar.dylib", [4]⟩,
             ⟨"libbar.dylib", "/opt/app/libbar.dylib", []⟩],
    calls := ["/opt/app/app", "/opt/app/libfoo.dylib", "/opt/app/libbar.dylib"] }

/-- A cycle: the root depends on `libA`, `libA` on `libB`, and `libB` on `libA`. -/
def cycTable : List (String × List record) :=
  [("/opt/app/app", [⟨"app", "/opt/app/app"⟩, ⟨"libA.dylib", "/usr/lib/libA.dylib"⟩]),
   ("/opt/app/libA.dylib",
      [⟨"libA.dylib", "/opt/app/libA.dylib"⟩, ⟨"libB.dylib", "/usr/lib/libB.dylib"⟩]),
   ("/opt/app/libB.dylib",
      [⟨"libB.dylib", "/opt/app/libB.dylib"⟩, ⟨"libA.dylib", "/usr/lib/libA.dylib"⟩])]

/-- The state that `collect` reaches on the cycle. -/
def cycFinal : harvester :=
  { root := "/opt/app/app",
    deps := [("libA.dylib", 1)],
    libs := [("libA.dylib", 1), ("libB.dylib", 3)],
    libStack := [],
    heap := [⟨"app", "/opt/app/app", []⟩,
             ⟨"libA.dylib", "/usr/lib/libA.dylib", [2, 3]⟩,
             ⟨"libA.dylib", "/opt/app/libA.dylib", []⟩,
             ⟨"libB.dylib", "/usr/lib/libB.dylib", [4, 5]⟩,
             ⟨"libB.dylib", "/opt/app/libB.dylib", []⟩,
             ⟨"libA.dylib", "/usr/lib/libA.dylib", []⟩],
    calls := ["/opt/app/app", "/opt/app/libA.dylib", "/opt/app/libB.dylib"] }

/-- A diamond: the root depends on `libA` and `libC`, and `libA` on `libC`
under another declared path. -/
def diamondTable : List (String × List record) :=
  [("/opt/app/app",
      [⟨"libA.dylib", "/usr/lib/libA.dylib"⟩, ⟨"libC.dylib", "/usr/lib/libC.dylib"⟩]),
   ("/opt/app/libA.dylib", [⟨"libC.dylib", "/usr/local/lib/libC.dylib"⟩]),
   ("/opt/app/libC.dylib", [])]

/-- The state that `collect` reaches on the diamond. -/
def diamondFinal : harvester :=
  { root := "/opt/app/app",
    deps := [("libA.dylib", 0), ("libC.dylib", 1)],
    libs := [("libA.dylib", 0), ("libC.dylib", 2)],
    libStack := [],
    heap := [⟨"libA.dylib", "/usr/lib/libA.dylib", [2]⟩,
             ⟨"libC.dylib", "/usr/lib/libC.dylib", []⟩,
             ⟨"libC.dylib", "/usr/local/lib/libC.dylib", []⟩],
    calls := ["/opt/app/app", "/opt/app/libA.dylib", "/opt/app/libC.dylib"] }

/-- A root whose report names `libC.dylib` twice, with two declared paths. -/
def dupTable : List (String × List record) :=
  [("/opt/app/app",
      [⟨"libC.dylib", "/usr/lib/libC.dylib"⟩, ⟨"libC.dylib", "/usr/local/lib/libC.dylib"⟩]),
   ("/opt/app/libC.dylib", [])]

/-- A root that depends on `libA.dylib`, which the inspector cannot open. -/
def failTable : List (String × List record) :=
  [("/opt/app/app", [⟨"libA.dylib", "/usr/lib/libA.dylib"⟩])]

/-- The report of the library registered under `a` (whichever record that is),
read at the path at which that library is inspected, has a record named `b`
that is not a self-reference. -/
def declares (t : Tools) (h : harvester) (a b : String) : Prop :=
  ∀ p, mapGet h.libs a = some p →
    ∃ recs rec, report t (libPath t h p) = some recs ∧ rec ∈ recs ∧ rec.name = b ∧
      rec.path ≠ libPath t h p

/-- No entry of the dependency list of the library at `p` that is a
self-reference of that library is registered in `libs`. -/
def NoSelfIn (t : Tools) (h : harvester) (p : Ptr) : Prop :=
  ∀ m q, mapGet h.libs m = some q → q ∈ (cell h p).deps → (cell h q).path ≠ libPath t h p

/-- The contents of a file. -/
abbrev Bytes := List Nat

/-- The file system as `copy` sees it: the contents of the file at each path,
`none` where there is no file. Two paths name the same file exactly when they
are the same string. -/
abbrev Files := String → Option Bytes

/-- The flags and the collaborators of `copy` and `fixReferences` that
`harvester.go` uses but does not define. `isExecutablePath name path` is
`lib.isExecutablePath()` for a library of that name and declared path;
`pathJoin` is `path.Join`; `osCreate to` is the error of `os.Create(to)`, `none`
when the file can be created; `installNameChange target name path` is the error
of `installNameChange(target, lib)` for a library of that name and declared
path, `none` when the rewrite command succeeds. -/
structure Sys where
  flagDest : String
  flagForce : Bool
  flagNoop : Bool
  isExecutablePath : String → String → Bool
  pathJoin : String → String → String
  osCreate : String → Option String
  installNameChange : String → String → String → Option String

/-- The file system together with the log of the calls of `copyFile`, as pairs
of source and destination. -/
structure Disk where
  files : Files
  copies : List (String × String)

/-- A file system in which `p` holds `b` and every other path is as in `f`. -/
def writeFile (f : Files) (p : String) (b : Bytes) : Files :=
  fun q => if q = p then some b else f q

/-- `h.destDir()`. -/
def destDir (t : Tools) (s : Sys) (h : harvester) : String :=
  if s.flagDest ≠ "" then s.flagDest else t.pathDir h.root

/-- `h.destLibPath(lib)`. -/
def destLibPath (t : Tools) (s : Sys) (h : harvester) (lib : Ptr) : String :=
  s.pathJoin (destDir t s h) (cell h lib).name

/-- `lib.isExecutablePath()` for the object at `lib`. -/
def isExec (s : Sys) (h : harvester) (lib : Ptr) : Bool :=
  s.isExecutablePath (cell h lib).name (cell h lib).path

/-- `copyFile(from, to)`. In a dry run nothing is touched. Otherwise `os.Open`
fails when there is no source file, `os.Create` creates or truncates the
destination, and `io.Copy` then writes to the destination what the source
holds at that moment (nothing, when the source is the file just truncated). -/
def copyFile (s : Sys) (src dst : String) (d : Disk) : Disk × status :=
  if s.flagNoop then (⟨d.files, d.copies ++ [(src, dst)]⟩, status.nil)
  else
    match d.files src with
    | none =>
      (⟨d.files, d.copies ++ [(src, dst)]⟩,
        status.err ("open " ++ src ++ ": no such file or directory"))
    | some _ =>
      match s.osCreate dst with
      | some e => (⟨d.files, d.copies ++ [(src, dst)]⟩, status.err e)
      | none =>
        (⟨writeFile (writeFile d.files dst []) dst ((writeFile d.files dst [] src).getD []),
          d.copies ++ [(src, dst)]⟩, status.nil)

/-- The loop of `copy` over the libraries in the order `ptrs`. -/
def copyLoop (t : Tools) (s : Sys) (h : harvester) : List Ptr → Disk → Disk × status
  | [], d => (d, status.nil)
  | lib :: rest, d =>
    if isExec s h lib then copyLoop t s h rest d
    else if (d.files (destLibPath t s h lib)).isSome ∧ s.flagForce = false then
      (d, status.err ("-force flag not set and destination file already exists: "
        ++ destLibPath t s h lib))
    else
      match copyFile s (cell h lib).path (destLibPath t s h lib) d with
      | (d1, status.nil) => copyLoop t s h rest d1
      | (d1, e) => (d1, e)

/-- `h.copy()`. Go visits the entries of the map `h.libs` in an unspecified
order; `order` is the order of this run, a permutation of `h.libs`. -/
def copy (t : Tools) (s : Sys) (h : harvester) (order : List (String × Ptr)) (d : Disk) :
    Disk × status :=
  copyLoop t s h (order.map Prod.snd) d

/-- The loops `for _, dep := range ...` of `fixReferences`: every dependency
that is not an executable path is rewritten in `target`; `log` collects the
calls of `installNameChange` as pairs of target and dependency. -/
def fixList (s : Sys) (h : harvester) (target : String) :
    List Ptr → List (String × Ptr) → List (String × Ptr) × status
  | [], log => (log, status.nil)
  | dep :: rest, log =>
    if isExec s h dep then fixList s h target rest log
    else
      match s.installNameChange target (cell h dep).name (cell h dep).path with
      | some e => (log ++ [(target, dep)], status.err e)
      | none => fixList s h target rest (log ++ [(target, dep)])

/-- The second loop of `fixReferences`, over the libraries in the order `ptrs`. -/
def fixLibs (t : Tools) (s : Sys) (h : harvester) :
    List Ptr → List (String × Ptr) → List (String × Ptr) × status
  | [], log => (log, status.nil)
  | lib :: rest, log =>
    match fixList s h (destLibPath t s h lib) (cell h lib).deps log with
    | (log1, status.nil) => fixLibs t s h rest log1
    | (log1, e) => (log1, e)

/-- `h.fixReferences()`, with the orders in which this run visits the entries
of `h.deps` and of `h.libs`; the result is the log of the rewrite calls and
the error. -/
def fixReferences (t : Tools) (s : Sys) (h : harvester)
    (orderDeps orderLibs : List (String × Ptr)) : List (String × Ptr) × status :=
  match fixList s h h.root (orderDeps.map Prod.snd) [] with
  | (log1, status.nil) => fixLibs t s h (orderLibs.map Prod.snd) log1
  | (log1, e) => (log1, e)

/-- The inspection of `path` fails with `msg`: the inspector returns that
error, or the parser does on the inspector's output. -/
def failure (t : Tools) (path msg : String) : Prop :=
  t.oToolExec path = Except.error msg ∨
  ∃ out, t.oToolExec path = Except.ok out ∧ t.oToolParse out = Except.error msg

/-- Every call in the log was of a binary whose report could be read. -/
def callsOk (t : Tools) (h : harvester) : Prop := ∀ p ∈ h.calls, report t p ≠ none

/-- Every key of `deps` is a key of `libs`. -/
def depsInLibs (h : harvester) : Prop := ∀ n, n ∈ mapKeys h.deps → n ∈ mapKeys h.libs

/-- The state that `collect` returns when the inspector cannot open
`libA.dylib`. -/
def failFinal : harvester :=
  { root := "/opt/app/app",
    deps := [("libA.dylib", 0)],
    libs := [("libA.dylib", 0)],
    libStack := [0],
    heap := [⟨"libA.dylib", "/usr/lib/libA.dylib", []⟩],
    calls := ["/opt/app/app", "/opt/app/libA.dylib"] }

/-- Modelled from the spec: the method `dylib.isExecutablePath` is defined
outside `harvester.go`. It holds when the declared path denotes the token for
the running executable itself, `@executable_path`, rather than a library
file. -/
def hasExecToken (path : String) : Bool := "@executable_path".data.isPrefixOf path.data

/-- Flags and collaborators for the scenarios: destination directory `dest`
(empty for the directory of the root), `path.Join` putting a slash between its
arguments, and `os.Create` and the rewrite command always succeeding. -/
def plainSys (dest : String) (force noop : Bool) : Sys where
  flagDest := dest
  flagForce := force
  flagNoop := noop
  isExecutablePath := fun _ path => hasExecToken path
  pathJoin := fun d n => d ++ "/" ++ n
  osCreate := fun _ => none
  installNameChange := fun _ _ _ => none

/-- A root whose library `libfoo.dylib` already lies next to it and is declared
by that very path. -/
def bundledTable : List (String × List record) :=
  [("/opt/app/app", [⟨"libfoo.dylib", "/opt/app/libfoo.dylib"⟩]),
   ("/opt/app/libfoo.dylib", [⟨"libfoo.dylib", "/opt/app/libfoo.dylib"⟩])]

/-- The state that `collect` reaches for the library next to the root. -/
def bundledFinal : harvester :=
  { root := "/opt/app/app",
    deps := [("libfoo.dylib", 0)],
    libs := [("libfoo.dylib", 0)],
    libStack := [],
    heap := [⟨"libfoo.dylib", "/opt/app/libfoo.dylib", [1]⟩,
             ⟨"libfoo.dylib", "/opt/app/libfoo.dylib", []⟩],
    calls := ["/opt/app/app", "/opt/app/libfoo.dylib"] }

/-- The files of that scenario: the executable and its library of three bytes. -/
def bundledFiles : Files := fun p =>
  if p = "/opt/app/app" then some [7]
  else if p = "/opt/app/libfoo.dylib" then some [1, 2, 3]
  else none

/-- Files for the end-to-end scenario: the two libraries at their declared
paths, and a file already present at the destination of `libbar.dylib`. -/
def e2eFiles : Files := fun p =>
  if p = "@rpath/libfoo.dylib" then some [1, 1]
  else if p = "@rpath/libbar.dylib" then some [2, 2]
  else if p = "/opt/app/libbar.dylib" then some [9]
  else none

/-- Files for the diamond: the two libraries at the paths under which `libs`
knows them, and nothing at their destinations. -/
def diamondFiles : Files := fun p =>
  if p = "/usr/lib/libA.dylib" then some [1]
  else if p = "/usr/local/lib/libC.dylib" then some [3]
  else none

/-- Copying the library at `a` changes nothing in the file system `f`: its
source exists, its destination can be created and already holds what a copy
would put there (nothing, when the source is the destination itself). -/
def settled (t : Tools) (s : Sys) (h : harvester) (f : Files) (a : Ptr) : Prop :=
  (f (cell h a).path).isSome ∧ s.osCreate (destLibPath t s h a) = none ∧
  f (destLibPath t s h a) =
    some (if (cell h a).path = destLibPath t s h a then [] else (f (cell h a).path).getD [])

/-- No destination of a library of `ptrs` is the destination or the source of
another library of `ptrs`. -/
def noClash (t : Tools) (s : Sys) (h : harvester) (ptrs : List Ptr) : Prop :=
  ∀ a ∈ ptrs, ∀ b ∈ ptrs,
    (destLibPath t s h b = destLibPath t s h a ∨ destLibPath t s h b = (cell h a).path) → b = a

/-- Modelled from the spec: `path.Base` of Go's standard library, for paths that
do not end in a slash: what follows the last slash. -/
def baseName (p : String) : String :=
  String.mk (p.data.reverse.takeWhile (fun c => c ≠ '/')).reverse

/-- The rewrite calls against `target` for the dependencies `deps`: one per
entry that is not an executable path, in order. -/
def rewritesOf (s : Sys) (h : harvester) (target : String) (deps : List Ptr) :
    List (String × Ptr) :=
  (deps.filter (fun d => !isExec s h d)).map (fun d => (target, d))

/-- The rewrite calls of a whole run of `fixReferences`: against the root for
the entries of `deps`, then against the destination of each library for the
entries of its dependency list. -/
def expectedRewrites (t : Tools) (s : Sys) (h : harvester)
    (orderDeps orderLibs : List (String × Ptr)) : List (String × Ptr) :=
  rewritesOf s h h.root (orderDeps.map Prod.snd) ++
    (orderLibs.map Prod.snd).flatMap
      (fun lib => rewritesOf s h (destLibPath t s h lib) (cell h lib).deps)

/-- A root that reaches `libx.dylib` through the executable-path token;
`libx.dylib` depends on `liby.dylib`. -/
def frameworkTable : List (String × List record) :=
  [("/opt/app/app", [⟨"libx.dylib", "@executable_path/libx.dylib"⟩]),
   ("/opt/app/libx.dylib", [⟨"liby.dylib", "/usr/lib/liby.dylib"⟩]),
   ("/opt/app/liby.dylib", [])]

/-- The state that `collect` reaches in that scenario. -/
def frameworkFinal : harvester :=
  { root := "/opt/app/app",
    deps := [("libx.dylib", 0)],
    libs := [("libx.dylib", 0), ("liby.dylib", 1)],
    libStack := [],
    heap := [⟨"libx.dylib", "@executable_path/libx.dylib", [1]⟩,
             ⟨"liby.dylib", "/usr/lib/liby.dylib", []⟩],
    calls := ["/opt/app/app", "/opt/app/libx.dylib", "/opt/app/liby.dylib"] }

/-- The files of that scenario: the executable, `libx.dylib` next to it and
`liby.dylib` in the system directory; the destination directory is empty. -/
def frameworkFiles : Files := fun p =>
  if p = "/opt/app/app" then some [7]
  else if p = "/opt/app/libx.dylib" then some [4]
  else if p = "/usr/lib/liby.dylib" then some [5]
  else none

/-- Modelled from the spec: the executable-reference flag of a record as the
parser, which is outside `harvester.go`, is to set it: on the record by which
a binary identifies itself, here the record whose declared path is the place
`dir/name` where the library of that name is resolved and inspected, and on a
declared path that starts with the token for the executable. -/
def selfOrExecToken (dir name path : String) : Bool :=
  hasExecToken path || decide (path = dir ++ "/" ++ name)

/-- Flags and collaborators as in `plainSys`, with the executable-reference
flag set on self-identification records too. -/
def flagSys (dir dest : String) (force noop : Bool) : Sys where
  flagDest := dest
  flagForce := force
  flagNoop := noop
  isExecutablePath := fun name path => selfOrExecToken dir name path
  pathJoin := fun d n => d ++ "/" ++ n
  osCreate := fun _ => none
  installNameChange := fun _ _ _ => none

/-! ## Field projections of the primitive steps -/

section projections

variable (h : harvester) (lib cur : Ptr) (path : String) (recs : List record) (isRoot : Bool)

@[simp] theorem logCall_root : (logCall h path).root = h.root := rfl
@[simp] theorem logCall_deps : (logCall h path).deps = h.deps := rfl
@[simp] theorem logCall_libs : (logCall h path).libs = h.libs := rfl
@[simp] theorem logCall_libStack : (logCall h path).libStack = h.libStack := rfl
@[simp] theorem logCall_heap : (logCall h path).heap = h.heap := rfl
@[simp] theorem logCall_calls : (logCall h path).calls = h.calls ++ [path] := rfl

@[simp] theorem alloc_root : (alloc h recs).root = h.root := rfl
@[simp] theorem alloc_deps : (alloc h recs).deps = h.deps := rfl
@[simp] theorem alloc_libs : (alloc h recs).libs = h.libs := rfl
@[simp] theorem alloc_libStack : (alloc h recs).libStack = h.libStack := rfl
@[simp] theorem alloc_calls : (alloc h recs).calls = h.calls := rfl
theorem alloc_heap :
    (alloc h recs).heap = h.heap ++ recs.map (fun r => ⟨r.name, r.path, []⟩) := rfl

@[simp] theorem addDep_root : (addDep h cur lib).root = h.root := rfl
@[simp] theorem addDep_deps : (addDep h cur lib).deps = h.deps := rfl
@[simp] theorem addDep_libs : (addDep h cur lib).libs = h.libs := rfl
@[simp] theorem addDep_libStack : (addDep h cur lib).libStack = h.libStack := rfl
@[simp] theorem addDep_calls : (addDep h cur lib).calls = h.calls := rfl

@[simp] theorem pushLib_root : (pushLib h lib).root = h.root := rfl
@[simp] theorem pushLib_deps : (pushLib h lib).deps = h.deps := rfl
@[simp] theorem pushLib_libs : (pushLib h lib).libs = h.libs := rfl
@[simp] theorem pushLib_libStack : (pushLib h lib).libStack = h.libStack ++ [lib] := rfl
@[simp] theorem pushLib_heap : (pushLib h lib).heap = h.heap := rfl
@[simp] theorem pushLib_calls : (pushLib h lib).calls = h.calls := rfl

@[simp] theorem attach_root : (attach h lib).root = h.root := by
  unfold attach; split <;> rfl
@[simp] theorem attach_deps : (attach h lib).deps = h.deps := by
  unfold attach; split <;> rfl
@[simp] theorem attach_libs : (attach h lib).libs = h.libs := by
  unfold attach; split <;> rfl
@[simp] theorem attach_libStack : (attach h lib).libStack = h.libStack := by
  unfold attach; split <;> rfl
@[simp] theorem attach_calls : (attach h lib).calls = h.calls := by
  unfold attach; split <;> rfl

@[simp] theorem noteRoot_root : (noteRoot isRoot h lib).root = h.root := by
  unfold noteRoot; split <;> rfl
@[simp] theorem noteRoot_libs : (noteRoot isRoot h lib).libs = h.libs := by
  unfold noteRoot; split <;> rfl
@[simp] theorem noteRoot_libStack : (noteRoot isRoot h lib).libStack = h.libStack := by
  unfold noteRoot; split <;> rfl
@[simp] theorem noteRoot_heap : (noteRoot isRoot h lib).heap = h.heap := by
  unfold noteRoot; split <;> rfl
@[simp] theorem noteRoot_calls : (noteRoot isRoot h lib).calls = h.calls := by
  unfold noteRoot; split <;> rfl
@[simp] theorem noteRoot_false : noteRoot false h lib = h := rfl
theorem noteRoot_true_deps :
    (noteRoot true h lib).deps = mapSet h.deps (cell h lib).name lib := rfl

@[simp] theorem register_root : (register h lib).root = h.root := rfl
@[simp] theorem register_deps : (register h lib).deps = h.deps := rfl
@[simp] theorem register_libs :
    (register h lib).libs = mapSet h.libs (cell h lib).name lib := rfl
@[simp] theorem register_libStack : (register h lib).libStack = h.libStack := rfl
@[simp] theorem register_heap : (register h lib).heap = h.heap := rfl
@[simp] theorem register_calls : (register h lib).calls = h.calls := rfl

@[simp] theorem cell_logCall (p : Ptr) : cell (logCall h path) p = cell h p := rfl
@[simp] theorem cell_pushLib (p : Ptr) : cell (pushLib h lib) p = cell h p := rfl
@[simp] theorem cell_register (p : Ptr) : cell (register h lib) p = cell h p := rfl
@[simp] theorem cell_noteRoot (p : Ptr) : cell (noteRoot isRoot h lib) p = cell h p := by
  unfold cell; rw [noteRoot_heap]

end projections

/-! ## Maps -/

theorem mapGet_mapSet_self (m : List (String × Ptr)) (k : String) (v : Ptr) :
    mapGet (mapSet m k v) k = some v := by
  induction m with
  | nil => simp [mapSet, mapGet]
  | cons a m ih =>
    obtain ⟨k', v'⟩ := a
    by_cases hk : k' = k
    · simp [mapSet, mapGet, hk]
    · simp [mapSet, mapGet, hk, ih]

theorem mapGet_mapSet_ne (m : List (String × Ptr)) (k k' : String) (v : Ptr) (hne : k ≠ k') :
    mapGet (mapSet m k v) k' = mapGet m k' := by
  induction m with
  | nil => simp [mapSet, mapGet, hne]
  | cons a m ih =>
    obtain ⟨k0, v0⟩ := a
    by_cases hk : k0 = k
    · subst hk; simp [mapSet, mapGet, hne]
    · by_cases hk' : k0 = k'
      · subst hk'
        simp [mapSet, mapGet, hk]
      · simp [mapSet, mapGet, hk, hk', ih]

theorem mapSet_of_none (m : List (String × Ptr)) (k : String) (v : Ptr)
    (hnone : mapGet m k = none) : mapSet m k v = m ++ [(k, v)] := by
  induction m with
  | nil => rfl
  | cons a m ih =>
    obtain ⟨k0, v0⟩ := a
    by_cases hk : k0 = k
    · simp [mapGet, hk] at hnone
    · simp only [mapGet, hk, if_false] at hnone
      simp [mapSet, hk, ih hnone]

theorem mapGet_eq_none_iff (m : List (String × Ptr)) (k : String) :
    mapGet m k = none ↔ k ∉ mapKeys m := by
  induction m with
  | nil => simp [mapGet, mapKeys]
  | cons a m ih =>
    obtain ⟨k0, v0⟩ := a
    by_cases hk : k0 = k
    · simp [mapGet, mapKeys, hk]
    · have hk' : ¬ k = k0 := fun e => hk e.symm
      simp only [mapGet, hk, if_false, ih]
      simp [mapKeys, hk']

theorem mem_mapKeys_iff (m : List (String × Ptr)) (k : String) :
    k ∈ mapKeys m ↔ ∃ v, mapGet m k = some v := by
  rw [← not_iff_not, ← mapGet_eq_none_iff]
  cases mapGet m k <;> simp

theorem mapKeys_mapSet_of_mem (m : List (String × Ptr)) (k : String) (v : Ptr)
    (hmem : k ∈ mapKeys m) : mapKeys (mapSet m k v) = mapKeys m := by
  induction m with
  | nil => simp [mapKeys] at hmem
  | cons a m ih =>
    obtain ⟨k0, v0⟩ := a
    by_cases hk : k0 = k
    · simp [mapSet, mapKeys, hk]
    · have hk' : ¬ k = k0 := fun e => hk e.symm
      have hm : k ∈ mapKeys m := by simpa [mapKeys, hk'] using hmem
      have := ih hm
      simp only [mapKeys] at this
      simp [mapSet, mapKeys, hk, this]

theorem mem_mapKeys_mapSet (m : List (String × Ptr)) (k k' : String) (v : Ptr) :
    k' ∈ mapKeys (mapSet m k v) ↔ k' = k ∨ k' ∈ mapKeys m := by
  rw [mem_mapKeys_iff, mem_mapKeys_iff]
  by_cases hk : k = k'
  · subst hk; simp [mapGet_mapSet_self]
  · have hk' : ¬ k' = k := fun e => hk e.symm
    simp [mapGet_mapSet_ne m k k' v hk, hk']

theorem mapKeys_nodup_mapSet (m : List (String × Ptr)) (k : String) (v : Ptr)
    (hnd : (mapKeys m).Nodup) : (mapKeys (mapSet m k v)).Nodup := by
  by_cases hmem : k ∈ mapKeys m
  · rw [mapKeys_mapSet_of_mem m k v hmem]; exact hnd
  · rw [mapSet_of_none m k v ((mapGet_eq_none_iff m k).2 hmem)]
    simp only [mapKeys, List.map_append, List.map_cons, List.map_nil]
    rw [List.nodup_append]
    refine ⟨hnd, by simp, ?_⟩
    intro a ha hb
    simp only [List.mem_singleton] at hb
    subst hb
    exact hmem ha

theorem mapGet_mem (m : List (String × Ptr)) (k : String) (v : Ptr)
    (hget : mapGet m k = some v) : (k, v) ∈ m := by
  induction m with
  | nil => simp [mapGet] at hget
  | cons a m ih =>
    obtain ⟨k0, v0⟩ := a
    by_cases hk : k0 = k
    · simp [mapGet, hk] at hget; simp [hk, hget]
    · simp only [mapGet, hk, if_false] at hget
      exact List.mem_cons_of_mem _ (ih hget)

theorem mapGet_of_mem (m : List (String × Ptr)) (k : String) (v : Ptr)
    (hnd : (mapKeys m).Nodup) (hmem : (k, v) ∈ m) : mapGet m k = some v := by
  induction m with
  | nil => simp at hmem
  | cons a m ih =>
    obtain ⟨k0, v0⟩ := a
    simp only [mapKeys, List.map_cons, List.nodup_cons] at hnd
    rcases List.mem_cons.1 hmem with heq | hin
    · simp only [Prod.mk.injEq] at heq
      simp [mapGet, heq.1, heq.2]
    · have hk : k0 ≠ k := by
        intro e
        apply hnd.1
        rw [e]
        exact List.mem_map.2 ⟨(k, v), hin, rfl⟩
      simp only [mapGet, hk, if_false]
      exact ih hnd.2 hin

/-! ## Memory -/

theorem cell_eq (h : harvester) (p : Ptr) : cell h p = h.heap[p]?.getD ⟨"", "", []⟩ := by
  unfold cell; rw [List.getD_eq_getElem?_getD]

@[simp] theorem addDep_heap_length (h : harvester) (cur lib : Ptr) :
    (addDep h cur lib).heap.length = h.heap.length := by
  simp [addDep]

theorem cell_addDep (h : harvester) (cur lib p : Ptr) :
    cell (addDep h cur lib) p =
      if p = cur ∧ cur < h.heap.length then
        { cell h cur with deps := (cell h cur).deps ++ [lib] }
      else cell h p := by
  simp only [cell_eq, addDep, List.getElem?_set]
  by_cases hp : cur = p
  · subst hp
    by_cases hlt : cur < h.heap.length
    · simp [hlt]
    · simp [hlt, List.getElem?_eq_none (Nat.le_of_not_lt hlt)]
  · have hp' : ¬ p = cur := fun e => hp e.symm
    simp [hp, hp']

@[simp] theorem cell_addDep_name (h : harvester) (cur lib p : Ptr) :
    (cell (addDep h cur lib) p).name = (cell h p).name := by
  rw [cell_addDep]; split
  · next hc => rw [hc.1]
  · rfl

@[simp] theorem cell_addDep_path (h : harvester) (cur lib p : Ptr) :
    (cell (addDep h cur lib) p).path = (cell h p).path := by
  rw [cell_addDep]; split
  · next hc => rw [hc.1]
  · rfl

@[simp] theorem attach_heap_length (h : harvester) (lib : Ptr) :
    (attach h lib).heap.length = h.heap.length := by
  unfold attach; split
  · simp
  · rfl

@[simp] theorem cell_attach_name (h : harvester) (lib p : Ptr) :
    (cell (attach h lib) p).name = (cell h p).name := by
  unfold attach; split
  · simp
  · rfl

@[simp] theorem cell_attach_path (h : harvester) (lib p : Ptr) :
    (cell (attach h lib) p).path = (cell h p).path := by
  unfold attach; split
  · simp
  · rfl

@[simp] theorem alloc_heap_length (h : harvester) (recs : List record) :
    (alloc h recs).heap.length = h.heap.length + recs.length := by
  simp [alloc]

theorem cell_alloc_lt (h : harvester) (recs : List record) (p : Ptr)
    (hp : p < h.heap.length) : cell (alloc h recs) p = cell h p := by
  unfold cell alloc
  exact List.getD_append _ _ _ _ hp

theorem cell_alloc_ge (h : harvester) (recs : List record) (i : Nat) (r : record)
    (hi : recs[i]? = some r) :
    cell (alloc h recs) (h.heap.length + i) = ⟨r.name, r.path, []⟩ := by
  rw [cell_eq]
  simp only [alloc]
  rw [List.getElem?_append_right (by omega)]
  simp [List.getElem?_map, hi]

@[simp] theorem libPath_attach (t : Tools) (h : harvester) (lib p : Ptr) :
    libPath t (attach h lib) p = libPath t h p := by
  simp [libPath]

@[simp] theorem libPath_noteRoot (t : Tools) (isRoot : Bool) (h : harvester) (lib p : Ptr) :
    libPath t (noteRoot isRoot h lib) p = libPath t h p := by
  simp [libPath]

@[simp] theorem libPath_register (t : Tools) (h : harvester) (lib p : Ptr) :
    libPath t (register h lib) p = libPath t h p := by
  simp [libPath]

@[simp] theorem libPath_pushLib (t : Tools) (h : harvester) (lib p : Ptr) :
    libPath t (pushLib h lib) p = libPath t h p := by
  simp [libPath]

@[simp] theorem libPath_logCall (t : Tools) (h : harvester) (path : String) (p : Ptr) :
    libPath t (logCall h path) p = libPath t h p := by
  simp [libPath]

theorem popLib_of_stack (h : harvester) (s : List Ptr) (lib : Ptr)
    (hs : h.libStack = s ++ [lib]) : popLib h = some (lib, { h with libStack := s }) := by
  simp [popLib, hs]

/-! ## The induction principle of the traversal -/

/-- Rule induction over a run of `collectFile`: `PF` is the property of a call
of `collectFile`, `PL` that of the loop over the remaining records. -/
theorem collectFile_rules (t : Tools)
    (PF : String → Bool → harvester → Result → Prop)
    (PL : String → Bool → List Ptr → harvester → Result → Prop)
    (exec_err : ∀ path isRoot h e, t.oToolExec path = Except.error e →
      PF path isRoot h ⟨logCall h path, status.err e⟩)
    (parse_err : ∀ path isRoot h out e, t.oToolExec path = Except.ok out →
      t.oToolParse out = Except.error e → PF path isRoot h ⟨logCall h path, status.err e⟩)
    (file : ∀ fuel path isRoot h out recs r, t.oToolExec path = Except.ok out →
      t.oToolParse out = Except.ok recs →
      loopRun t fuel path isRoot (List.range' h.heap.length recs.length)
        (alloc (logCall h path) recs) r →
      PL path isRoot (List.range' h.heap.length recs.length) (alloc (logCall h path) recs) r →
      PF path isRoot h r)
    (done : ∀ path isRoot h, PL path isRoot [] h ⟨h, status.nil⟩)
    (self : ∀ fuel path isRoot lib rest h r, (cell h lib).path = path →
      loopRun t fuel path isRoot rest (attach h lib) r →
      PL path isRoot rest (attach h lib) r → PL path isRoot (lib :: rest) h r)
    (seen : ∀ fuel path isRoot lib rest h r, (cell h lib).path ≠ path →
      mapGet h.libs (cell h lib).name ≠ none →
      loopRun t fuel path isRoot rest (noteRoot isRoot (attach h lib) lib) r →
      PL path isRoot rest (noteRoot isRoot (attach h lib) lib) r →
      PL path isRoot (lib :: rest) h r)
    (fresh : ∀ fuel path isRoot lib rest h h1 q h2 r, (cell h lib).path ≠ path →
      mapGet h.libs (cell h lib).name = none →
      fileRun t fuel (libPath t h lib) false
        (pushLib (register (noteRoot isRoot (attach h lib) lib) lib) lib) ⟨h1, status.nil⟩ →
      PF (libPath t h lib) false
        (pushLib (register (noteRoot isRoot (attach h lib) lib) lib) lib) ⟨h1, status.nil⟩ →
      popLib h1 = some (q, h2) →
      loopRun t fuel path isRoot rest h2 r →
      PL path isRoot rest h2 r → PL path isRoot (lib :: rest) h r)
    (underflow : ∀ fuel path isRoot lib rest h h1, (cell h lib).path ≠ path →
      mapGet h.libs (cell h lib).name = none →
      fileRun t fuel (libPath t h lib) false
        (pushLib (register (noteRoot isRoot (attach h lib) lib) lib) lib) ⟨h1, status.nil⟩ →
      PF (libPath t h lib) false
        (pushLib (register (noteRoot isRoot (attach h lib) lib) lib) lib) ⟨h1, status.nil⟩ →
      popLib h1 = none →
      PL path isRoot (lib :: rest) h ⟨h1, status.panic⟩)
    (abort : ∀ fuel path isRoot lib rest h h1 e, (cell h lib).path ≠ path →
      mapGet h.libs (cell h lib).name = none →
      fileRun t fuel (libPath t h lib) false
        (pushLib (register (noteRoot isRoot (attach h lib) lib) lib) lib) ⟨h1, e⟩ →
      PF (libPath t h lib) false
        (pushLib (register (noteRoot isRoot (attach h lib) lib) lib) lib) ⟨h1, e⟩ →
      e ≠ status.nil →
      PL path isRoot (lib :: rest) h ⟨h1, e⟩) :
    ∀ fuel, (∀ path isRoot h r, fileRun t fuel path isRoot h r → PF path isRoot h r) ∧
      (∀ path isRoot ptrs h r, loopRun t fuel path isRoot ptrs h r → PL path isRoot ptrs h r) := by
  have loop : ∀ fuel, (∀ path h r, fileRun t fuel path false h r → PF path false h r) →
      ∀ path isRoot ptrs h r, loopRun t fuel path isRoot ptrs h r → PL path isRoot ptrs h r := by
    intro fuel ih path isRoot ptrs
    induction ptrs with
    | nil =>
      intro h r hr
      simp only [loopRun, collectLoop, Option.some.injEq] at hr
      subst hr
      exact done path isRoot h
    | cons lib rest ihl =>
      intro h r hr
      unfold loopRun at hr
      rw [collectLoop] at hr
      simp only [cell_attach_path, cell_attach_name, noteRoot_libs, attach_libs,
        cell_noteRoot] at hr
      by_cases hself : (cell h lib).path = path
      · rw [if_pos hself] at hr
        exact self fuel path isRoot lib rest h r hself hr (ihl _ _ hr)
      · rw [if_neg hself] at hr
        by_cases hnew : mapGet h.libs (cell h lib).name = none
        · rw [if_pos hnew] at hr
          simp only [collectLib, libPath_pushLib, libPath_register, libPath_noteRoot,
            libPath_attach] at hr
          cases hc : collectFile t fuel (libPath t h lib) false
              (pushLib (register (noteRoot isRoot (attach h lib) lib) lib) lib) with
          | none => rw [hc] at hr; simp at hr
          | some c =>
            obtain ⟨h1, e⟩ := c
            rw [hc] at hr
            have hPF := ih _ _ _ hc
            cases e with
            | nil =>
              simp only at hr
              cases hp : popLib h1 with
              | none =>
                rw [hp] at hr
                simp only [Option.some.injEq] at hr
                subst hr
                exact underflow fuel path isRoot lib rest h h1 hself hnew hc hPF hp
              | some qh =>
                obtain ⟨q, h2⟩ := qh
                rw [hp] at hr
                simp only at hr
                exact fresh fuel path isRoot lib rest h h1 q h2 r hself hnew hc hPF hp hr
                  (ihl _ _ hr)
            | err msg =>
              simp only [Option.some.injEq] at hr
              subst hr
              exact abort fuel path isRoot lib rest h h1 _ hself hnew hc hPF (by simp)
            | panic =>
              simp only [Option.some.injEq] at hr
              subst hr
              exact abort fuel path isRoot lib rest h h1 _ hself hnew hc hPF (by simp)
        · rw [if_neg hnew] at hr
          exact seen fuel path isRoot lib rest h r hself hnew hr (ihl _ _ hr)
  have filep : ∀ fuel path isRoot h r, fileRun t fuel path isRoot h r → PF path isRoot h r := by
    intro fuel
    induction fuel with
    | zero => intro path isRoot h r hr; simp [fileRun, collectFile] at hr
    | succ fuel ih =>
      intro path isRoot h r hr
      unfold fileRun at hr
      rw [collectFile] at hr
      cases hx : t.oToolExec path with
      | error e =>
        rw [hx] at hr
        simp only [Option.some.injEq] at hr
        subst hr
        exact exec_err path isRoot h e hx
      | ok out =>
        rw [hx] at hr
        simp only at hr
        cases hy : t.oToolParse out with
        | error e =>
          rw [hy] at hr
          simp only [Option.some.injEq] at hr
          subst hr
          exact parse_err path isRoot h out e hx hy
        | ok recs =>
          rw [hy] at hr
          simp only [logCall_heap] at hr
          exact file fuel path isRoot h out recs r hx hy hr
            (loop fuel (fun p h1 r1 => ih p false h1 r1) _ _ _ _ _ hr)
  intro fuel
  exact ⟨filep fuel, loop fuel (fun p h1 r1 => filep fuel p false h1 r1)⟩

/-! ## Balance of the visit stack -/

/-- A run never ends in a panic, and one that ends without error leaves the
visit stack as it found it. -/
theorem stack_balance (t : Tools) (fuel : Nat) :
    (∀ path isRoot h r, fileRun t fuel path isRoot h r →
      r.st ≠ status.panic ∧ (r.st = status.nil → r.h.libStack = h.libStack)) ∧
    (∀ path isRoot ptrs h r, loopRun t fuel path isRoot ptrs h r →
      r.st ≠ status.panic ∧ (r.st = status.nil → r.h.libStack = h.libStack)) := by
  refine collectFile_rules t
    (fun _ _ h r => r.st ≠ status.panic ∧ (r.st = status.nil → r.h.libStack = h.libStack))
    (fun _ _ _ h r => r.st ≠ status.panic ∧ (r.st = status.nil → r.h.libStack = h.libStack))
    ?_ ?_ ?_ ?_ ?_ ?_ ?_ ?_ ?_ fuel
  · intro path isRoot h e _; simp
  · intro path isRoot h out e _ _; simp
  · intro fuel path isRoot h out recs r _ _ _ hl
    simpa using hl
  · intro path isRoot h; simp
  · intro fuel path isRoot lib rest h r _ _ hl
    simpa using hl
  · intro fuel path isRoot lib rest h r _ _ _ hl
    simpa using hl
  · intro fuel path isRoot lib rest h h1 q h2 r _ _ _ hf hp _ hl
    have hs : h1.libStack = h.libStack ++ [lib] := by simpa using hf.2 rfl
    rw [popLib_of_stack h1 _ _ hs] at hp
    simp only [Option.some.injEq, Prod.mk.injEq] at hp
    refine ⟨hl.1, fun hn => ?_⟩
    rw [hl.2 hn, ← hp.2]
  · intro fuel path isRoot lib rest h h1 _ _ _ hf hp
    have hs : h1.libStack = h.libStack ++ [lib] := by simpa using hf.2 rfl
    rw [popLib_of_stack h1 _ _ hs] at hp
    simp at hp
  · intro fuel path isRoot lib rest h h1 e _ _ _ hf he
    exact ⟨hf.1, fun hn => absurd hn he⟩

@[simp] theorem popped_root (h1 : harvester) (s : List Ptr) : (popped h1 s).root = h1.root := rfl

@[simp] theorem popped_deps (h1 : harvester) (s : List Ptr) : (popped h1 s).deps = h1.deps := rfl

@[simp] theorem popped_libs (h1 : harvester) (s : List Ptr) : (popped h1 s).libs = h1.libs := rfl

@[simp] theorem popped_libStack (h1 : harvester) (s : List Ptr) :
    (popped h1 s).libStack = s := rfl

@[simp] theorem popped_heap (h1 : harvester) (s : List Ptr) : (popped h1 s).heap = h1.heap := rfl

@[simp] theorem popped_calls (h1 : harvester) (s : List Ptr) :
    (popped h1 s).calls = h1.calls := rfl

@[simp] theorem cell_popped (h1 : harvester) (s : List Ptr) (p : Ptr) :
    cell (popped h1 s) p = cell h1 p := rfl

@[simp] theorem libPath_popped (t : Tools) (h1 : harvester) (s : List Ptr) (p : Ptr) :
    libPath t (popped h1 s) p = libPath t h1 p := rfl

/-- Rule induction with the stack discipline built in: the nested call of a
fresh library returns with that library on top of the stack, and the only
failures are errors. -/
theorem collectFile_induct (t : Tools)
    (PF : String → Bool → harvester → Result → Prop)
    (PL : String → Bool → List Ptr → harvester → Result → Prop)
    (exec_err : ∀ path isRoot h e, t.oToolExec path = Except.error e →
      PF path isRoot h ⟨logCall h path, status.err e⟩)
    (parse_err : ∀ path isRoot h out e, t.oToolExec path = Except.ok out →
      t.oToolParse out = Except.error e → PF path isRoot h ⟨logCall h path, status.err e⟩)
    (file : ∀ fuel path isRoot h recs r, report t path = some recs →
      loopRun t fuel path isRoot (List.range' h.heap.length recs.length)
        (alloc (logCall h path) recs) r →
      PL path isRoot (List.range' h.heap.length recs.length) (alloc (logCall h path) recs) r →
      PF path isRoot h r)
    (done : ∀ path isRoot h, PL path isRoot [] h ⟨h, status.nil⟩)
    (self : ∀ fuel path isRoot lib rest h r, (cell h lib).path = path →
      loopRun t fuel path isRoot rest (attach h lib) r →
      PL path isRoot rest (attach h lib) r → PL path isRoot (lib :: rest) h r)
    (seen : ∀ fuel path isRoot lib rest h r, (cell h lib).path ≠ path →
      mapGet h.libs (cell h lib).name ≠ none →
      loopRun t fuel path isRoot rest (noteRoot isRoot (attach h lib) lib) r →
      PL path isRoot rest (noteRoot isRoot (attach h lib) lib) r →
      PL path isRoot (lib :: rest) h r)
    (fresh : ∀ fuel path isRoot lib rest h h1 r, (cell h lib).path ≠ path →
      mapGet h.libs (cell h lib).name = none →
      fileRun t fuel (libPath t h lib) false (entered isRoot h lib) ⟨h1, status.nil⟩ →
      PF (libPath t h lib) false (entered isRoot h lib) ⟨h1, status.nil⟩ →
      h1.libStack = h.libStack ++ [lib] →
      loopRun t fuel path isRoot rest (popped h1 h.libStack) r →
      PL path isRoot rest (popped h1 h.libStack) r → PL path isRoot (lib :: rest) h r)
    (abort : ∀ fuel path isRoot lib rest h h1 msg, (cell h lib).path ≠ path →
      mapGet h.libs (cell h lib).name = none →
      fileRun t fuel (libPath t h lib) false (entered isRoot h lib) ⟨h1, status.err msg⟩ →
      PF (libPath t h lib) false (entered isRoot h lib) ⟨h1, status.err msg⟩ →
      PL path isRoot (lib :: rest) h ⟨h1, status.err msg⟩) :
    ∀ fuel, (∀ path isRoot h r, fileRun t fuel path isRoot h r → PF path isRoot h r) ∧
      (∀ path isRoot ptrs h r, loopRun t fuel path isRoot ptrs h r → PL path isRoot ptrs h r) := by
  refine collectFile_rules t PF PL exec_err parse_err ?_ done self seen ?_ ?_ ?_
  · intro fuel path isRoot h out recs r hx hy hrun hl
    exact file fuel path isRoot h recs r (by simp [report, hx, hy]) hrun hl
  · intro fuel path isRoot lib rest h h1 q h2 r hself hnew hrun hf hp hlrun hl
    have hs : h1.libStack = h.libStack ++ [lib] := by
      simpa using ((stack_balance t fuel).1 _ _ _ _ hrun).2 rfl
    rw [popLib_of_stack h1 _ _ hs] at hp
    simp only [Option.some.injEq, Prod.mk.injEq] at hp
    have h2e : h2 = popped h1 h.libStack := hp.2.symm
    subst h2e
    exact fresh fuel path isRoot lib rest h h1 r hself hnew hrun hf hs hlrun hl
  · intro fuel path isRoot lib rest h h1 hself hnew hrun hf hp
    have hs : h1.libStack = h.libStack ++ [lib] := by
      simpa using ((stack_balance t fuel).1 _ _ _ _ hrun).2 rfl
    rw [popLib_of_stack h1 _ _ hs] at hp
    simp at hp
  · intro fuel path isRoot lib rest h h1 e hself hnew hrun hf he
    have hnp := ((stack_balance t fuel).1 _ _ _ _ hrun).1
    cases e with
    | nil => exact absurd rfl he
    | err msg => exact abort fuel path isRoot lib rest h h1 msg hself hnew hrun hf
    | panic => exact absurd rfl hnp

/-! ## What a run leaves untouched -/

theorem Extends.refl (h : harvester) : Extends h h :=
  ⟨rfl, Nat.le_refl _, fun _ _ => rfl, fun _ _ => rfl, fun _ _ hp => hp⟩

theorem Extends.trans {h1 h2 h3 : harvester} (a : Extends h1 h2) (b : Extends h2 h3) :
    Extends h1 h3 :=
  ⟨b.root.trans a.root, Nat.le_trans a.len b.len,
    fun p hp => (b.name p (Nat.lt_of_lt_of_le hp a.len)).trans (a.name p hp),
    fun p hp => (b.path p (Nat.lt_of_lt_of_le hp a.len)).trans (a.path p hp),
    fun n p hp => b.libs n p (a.libs n p hp)⟩

theorem Extends.libPath_eq {h h' : harvester} (e : Extends h h') (t : Tools) (p : Ptr)
    (hp : p < h.heap.length) : libPath t h' p = libPath t h p := by
  simp [libPath, e.name p hp, e.path p hp, e.root]

theorem Extends.keys {h h' : harvester} (e : Extends h h') (n : String)
    (hn : n ∈ mapKeys h.libs) : n ∈ mapKeys h'.libs := by
  rw [mem_mapKeys_iff] at hn ⊢
  obtain ⟨v, hv⟩ := hn
  exact ⟨v, e.libs n v hv⟩

theorem extends_logCall (h : harvester) (path : String) : Extends h (logCall h path) :=
  ⟨rfl, Nat.le_refl _, fun _ _ => rfl, fun _ _ => rfl, fun _ _ hp => hp⟩

theorem extends_alloc (h : harvester) (recs : List record) : Extends h (alloc h recs) :=
  ⟨rfl, by simp, fun p hp => by rw [cell_alloc_lt h recs p hp],
    fun p hp => by rw [cell_alloc_lt h recs p hp], fun _ _ hp => hp⟩

theorem extends_attach (h : harvester) (lib : Ptr) : Extends h (attach h lib) :=
  ⟨by simp, by simp, fun p _ => by simp, fun p _ => by simp, fun _ _ hp => by simpa using hp⟩

theorem extends_noteRoot (isRoot : Bool) (h : harvester) (lib : Ptr) :
    Extends h (noteRoot isRoot h lib) :=
  ⟨by simp, by simp, fun p _ => by simp, fun p _ => by simp, fun _ _ hp => by simpa using hp⟩

theorem extends_register (h : harvester) (lib : Ptr)
    (hnew : mapGet h.libs (cell h lib).name = none) : Extends h (register h lib) := by
  refine ⟨by simp, by simp, fun p _ => by simp, fun p _ => by simp, fun n p hp => ?_⟩
  have hne : (cell h lib).name ≠ n := by
    intro e
    rw [e, hp] at hnew
    cases hnew
  simpa [mapGet_mapSet_ne _ _ _ _ hne] using hp

theorem extends_pushLib (h : harvester) (lib : Ptr) : Extends h (pushLib h lib) :=
  ⟨rfl, Nat.le_refl _, fun _ _ => rfl, fun _ _ => rfl, fun _ _ hp => hp⟩

theorem extends_popped (h : harvester) (s : List Ptr) : Extends h (popped h s) :=
  ⟨rfl, Nat.le_refl _, fun _ _ => rfl, fun _ _ => rfl, fun _ _ hp => hp⟩

theorem extends_entered (isRoot : Bool) (h : harvester) (lib : Ptr)
    (hnew : mapGet h.libs (cell h lib).name = none) : Extends h (entered isRoot h lib) := by
  refine ((extends_attach h lib).trans (extends_noteRoot isRoot _ lib)).trans
    ((extends_register _ lib ?_).trans (extends_pushLib _ lib))
  simpa using hnew

/-- Every run extends the state it starts from. -/
theorem run_extends (t : Tools) (fuel : Nat) :
    (∀ path isRoot h r, fileRun t fuel path isRoot h r → Extends h r.h) ∧
    (∀ path isRoot ptrs h r, loopRun t fuel path isRoot ptrs h r → Extends h r.h) := by
  refine collectFile_induct t (fun _ _ h r => Extends h r.h) (fun _ _ _ h r => Extends h r.h)
    ?_ ?_ ?_ ?_ ?_ ?_ ?_ ?_ fuel
  · intro path isRoot h e _; exact extends_logCall h path
  · intro path isRoot h out e _ _; exact extends_logCall h path
  · intro fuel path isRoot h recs r _ _ hl
    exact ((extends_logCall h path).trans (extends_alloc _ recs)).trans hl
  · intro path isRoot h; exact Extends.refl h
  · intro fuel path isRoot lib rest h r _ _ hl
    exact (extends_attach h lib).trans hl
  · intro fuel path isRoot lib rest h r _ _ _ hl
    exact ((extends_attach h lib).trans (extends_noteRoot isRoot _ lib)).trans hl
  · intro fuel path isRoot lib rest h h1 r _ hnew _ hf _ _ hl
    exact ((extends_entered isRoot h lib hnew).trans hf).trans ((extends_popped h1 _).trans hl)
  · intro fuel path isRoot lib rest h h1 msg _ hnew _ hf
    exact (extends_entered isRoot h lib hnew).trans hf

/-- A nested call (`isRoot = false`) never writes to `deps`. -/
theorem run_deps_frame (t : Tools) (fuel : Nat) :
    (∀ path isRoot h r, fileRun t fuel path isRoot h r → isRoot = false → r.h.deps = h.deps) ∧
    (∀ path isRoot ptrs h r, loopRun t fuel path isRoot ptrs h r → isRoot = false →
      r.h.deps = h.deps) := by
  refine collectFile_induct t (fun _ isRoot h r => isRoot = false → r.h.deps = h.deps)
    (fun _ isRoot _ h r => isRoot = false → r.h.deps = h.deps)
    ?_ ?_ ?_ ?_ ?_ ?_ ?_ ?_ fuel
  · intro path isRoot h e _ _; rfl
  · intro path isRoot h out e _ _ _; rfl
  · intro fuel path isRoot h recs r _ _ hl hr
    simpa using hl hr
  · intro path isRoot h _; rfl
  · intro fuel path isRoot lib rest h r _ _ hl hr
    simpa using hl hr
  · intro fuel path isRoot lib rest h r _ _ _ hl hr
    subst hr
    simpa using hl rfl
  · intro fuel path isRoot lib rest h h1 r _ _ _ hf _ _ hl hr
    subst hr
    have := hf rfl
    simp only [entered, noteRoot_false, pushLib_deps, register_deps, attach_deps] at this
    rw [hl rfl, popped_deps, this]
  · intro fuel path isRoot lib rest h h1 msg _ _ _ hf hr
    subst hr
    simpa [entered] using hf rfl

/-! ## Well-formed states -/

theorem WF_newHarvester (root : String) : WF (newHarvester root) := by
  refine ⟨?_, ?_, ?_, ?_, ?_⟩ <;> simp [newHarvester, mapGet, mapKeys]

theorem WF_of_frame {h h' : harvester} (w : WF h) (e : Extends h h')
    (hlibs : h'.libs = h.libs) (hdeps : h'.deps = h.deps) (hstack : h'.libStack = h.libStack) :
    WF h' := by
  refine ⟨fun n p hp => ?_, fun n p hp => ?_, fun p hp => ?_, ?_, ?_⟩
  · rw [hlibs] at hp
    have := w.libs n p hp
    exact ⟨Nat.lt_of_lt_of_le this.1 e.len, (e.name p this.1).trans this.2⟩
  · rw [hdeps] at hp
    have := w.deps n p hp
    exact ⟨Nat.lt_of_lt_of_le this.1 e.len, (e.name p this.1).trans this.2⟩
  · rw [hstack] at hp
    exact Nat.lt_of_lt_of_le (w.stack p hp) e.len
  · rw [hlibs]; exact w.libsKeys
  · rw [hdeps]; exact w.depsKeys

theorem WF_logCall {h : harvester} (w : WF h) (path : String) : WF (logCall h path) :=
  WF_of_frame w (extends_logCall h path) rfl rfl rfl

theorem WF_alloc {h : harvester} (w : WF h) (recs : List record) : WF (alloc h recs) :=
  WF_of_frame w (extends_alloc h recs) rfl rfl rfl

theorem WF_attach {h : harvester} (w : WF h) (lib : Ptr) : WF (attach h lib) :=
  WF_of_frame w (extends_attach h lib) (by simp) (by simp) (by simp)

theorem WF_noteRoot {h : harvester} (w : WF h) (isRoot : Bool) (lib : Ptr)
    (hlib : lib < h.heap.length) : WF (noteRoot isRoot h lib) := by
  cases isRoot with
  | false => simpa using w
  | true =>
    refine ⟨fun n p hp => ?_, fun n p hp => ?_, fun p hp => ?_, ?_, ?_⟩
    · simpa using w.libs n p (by simpa using hp)
    · rw [noteRoot_true_deps] at hp
      simp only [noteRoot_heap, cell_noteRoot]
      by_cases hn : (cell h lib).name = n
      · rw [hn, mapGet_mapSet_self] at hp
        cases hp
        exact ⟨hlib, hn⟩
      · rw [mapGet_mapSet_ne _ _ _ _ hn] at hp
        exact w.deps n p hp
    · simpa using w.stack p (by simpa using hp)
    · simpa using w.libsKeys
    · rw [noteRoot_true_deps]; exact mapKeys_nodup_mapSet _ _ _ w.depsKeys

theorem WF_register {h : harvester} (w : WF h) (lib : Ptr) (hlib : lib < h.heap.length) :
    WF (register h lib) := by
  refine ⟨fun n p hp => ?_, fun n p hp => ?_, fun p hp => ?_, ?_, ?_⟩
  · simp only [register_libs] at hp
    simp only [register_heap, cell_register]
    by_cases hn : (cell h lib).name = n
    · rw [hn, mapGet_mapSet_self] at hp
      cases hp
      exact ⟨hlib, hn⟩
    · rw [mapGet_mapSet_ne _ _ _ _ hn] at hp
      exact w.libs n p hp
  · exact w.deps n p hp
  · exact w.stack p hp
  · exact mapKeys_nodup_mapSet _ _ _ w.libsKeys
  · exact w.depsKeys

theorem WF_pushLib {h : harvester} (w : WF h) (lib : Ptr) (hlib : lib < h.heap.length) :
    WF (pushLib h lib) := by
  refine ⟨w.libs, w.deps, fun p hp => ?_, w.libsKeys, w.depsKeys⟩
  simp only [pushLib_libStack, List.mem_append, List.mem_singleton] at hp
  rcases hp with hp | hp
  · exact w.stack p hp
  · rw [hp]; exact hlib

theorem WF_entered {h : harvester} (w : WF h) (isRoot : Bool) (lib : Ptr)
    (hlib : lib < h.heap.length) : WF (entered isRoot h lib) := by
  have w1 := WF_attach w lib
  have w2 := WF_noteRoot w1 isRoot lib (by simpa using hlib)
  have w3 := WF_register w2 lib (by simpa using hlib)
  exact WF_pushLib w3 lib (by simpa using hlib)

theorem WF_popped {h1 : harvester} (w : WF h1) (s : List Ptr) (lib : Ptr)
    (hs : h1.libStack = s ++ [lib]) : WF (popped h1 s) := by
  refine ⟨w.libs, w.deps, fun p hp => ?_, w.libsKeys, w.depsKeys⟩
  apply w.stack
  rw [hs]
  exact List.mem_append_left _ hp

/-- Runs keep the state well formed. -/
theorem run_WF (t : Tools) (fuel : Nat) :
    (∀ path isRoot h r, fileRun t fuel path isRoot h r → WF h → WF r.h) ∧
    (∀ path isRoot ptrs h r, loopRun t fuel path isRoot ptrs h r → WF h →
      (∀ p ∈ ptrs, p < h.heap.length) → WF r.h) := by
  refine collectFile_induct t (fun _ _ h r => WF h → WF r.h)
    (fun _ _ ptrs h r => WF h → (∀ p ∈ ptrs, p < h.heap.length) → WF r.h)
    ?_ ?_ ?_ ?_ ?_ ?_ ?_ ?_ fuel
  · intro path isRoot h e _ w; exact WF_logCall w path
  · intro path isRoot h out e _ _ w; exact WF_logCall w path
  · intro fuel path isRoot h recs r _ _ hl w
    refine hl (WF_alloc (WF_logCall w path) recs) ?_
    intro p hp
    rw [List.mem_range'] at hp
    obtain ⟨i, hi, rfl⟩ := hp
    simp only [alloc_heap_length, logCall_heap, Nat.one_mul]
    exact Nat.add_lt_add_left hi _
  · intro path isRoot h w _; exact w
  · intro fuel path isRoot lib rest h r _ _ hl w hp
    exact hl (WF_attach w lib) (fun p hm => by simpa using hp p (List.mem_cons_of_mem _ hm))
  · intro fuel path isRoot lib rest h r _ _ _ hl w hp
    refine hl (WF_noteRoot (WF_attach w lib) isRoot lib ?_) ?_
    · simpa using hp lib (List.mem_cons_self _ _)
    · intro p hm; simpa using hp p (List.mem_cons_of_mem _ hm)
  · intro fuel path isRoot lib rest h h1 r _ hnew hrun hf hs hlrun hl w hp
    have w1 := hf (WF_entered w isRoot lib (hp lib (List.mem_cons_self _ _)))
    refine hl (WF_popped w1 _ lib hs) ?_
    intro p hm
    have e := (extends_entered isRoot h lib hnew).trans ((run_extends t fuel).1 _ _ _ _ hrun)
    exact Nat.lt_of_lt_of_le (hp p (List.mem_cons_of_mem _ hm)) e.len
  · intro fuel path isRoot lib rest h h1 msg _ _ _ hf w hp
    exact hf (WF_entered w isRoot lib (hp lib (List.mem_cons_self _ _)))

/-! ## Unfolding the loop -/

section unfolding

variable (t : Tools) (file : String → harvester → Option Result) (path : String)
  (isRoot : Bool) (lib : Ptr) (rest : List Ptr) (h : harvester)

theorem collectLoop_self (hself : (cell h lib).path = path) :
    collectLoop t file path isRoot (lib :: rest) h =
      collectLoop t file path isRoot rest (attach h lib) := by
  rw [collectLoop]
  simp only [cell_attach_path, if_pos hself]

theorem collectLoop_seen (hself : (cell h lib).path ≠ path)
    (hseen : mapGet h.libs (cell h lib).name ≠ none) :
    collectLoop t file path isRoot (lib :: rest) h =
      collectLoop t file path isRoot rest (noteRoot isRoot (attach h lib) lib) := by
  rw [collectLoop]
  simp only [cell_attach_path, cell_attach_name, noteRoot_libs, attach_libs, cell_noteRoot,
    if_neg hself, if_neg hseen]

theorem collectLoop_fresh (hself : (cell h lib).path ≠ path)
    (hnew : mapGet h.libs (cell h lib).name = none) (h1 : harvester)
    (hcall : file (libPath t h lib) (entered isRoot h lib) = some ⟨h1, status.nil⟩)
    (hs : h1.libStack = h.libStack ++ [lib]) :
    collectLoop t file path isRoot (lib :: rest) h =
      collectLoop t file path isRoot rest (popped h1 h.libStack) := by
  rw [collectLoop]
  simp only [cell_attach_path, cell_attach_name, noteRoot_libs, attach_libs, cell_noteRoot,
    if_neg hself, if_pos hnew, collectLib, libPath_pushLib, libPath_register, libPath_noteRoot,
    libPath_attach]
  unfold entered at hcall
  rw [hcall]
  simp only [popLib_of_stack h1 _ _ hs]
  rfl

theorem collectLoop_abort (hself : (cell h lib).path ≠ path)
    (hnew : mapGet h.libs (cell h lib).name = none) (h1 : harvester) (msg : String)
    (hcall : file (libPath t h lib) (entered isRoot h lib) = some ⟨h1, status.err msg⟩) :
    collectLoop t file path isRoot (lib :: rest) h = some ⟨h1, status.err msg⟩ := by
  rw [collectLoop]
  simp only [cell_attach_path, cell_attach_name, noteRoot_libs, attach_libs, cell_noteRoot,
    if_neg hself, if_pos hnew, collectLib, libPath_pushLib, libPath_register, libPath_noteRoot,
    libPath_attach]
  unfold entered at hcall
  rw [hcall]

end unfolding

theorem collectFile_succ (t : Tools) (fuel : Nat) (path : String) (isRoot : Bool)
    (h : harvester) (recs : List record) (hrep : report t path = some recs) :
    collectFile t (fuel + 1) path isRoot h =
      collectLoop t (fun p h1 => collectFile t fuel p false h1) path isRoot
        (List.range' h.heap.length recs.length) (alloc (logCall h path) recs) := by
  rw [collectFile]
  unfold report at hrep
  cases hx : t.oToolExec path with
  | error e => rw [hx] at hrep; simp at hrep
  | ok out =>
    rw [hx] at hrep
    simp only at hrep ⊢
    cases hy : t.oToolParse out with
    | error e => rw [hy] at hrep; simp at hrep
    | ok recs1 =>
      rw [hy] at hrep
      simp only [Option.some.injEq] at hrep
      subst hrep
      rfl

theorem collectFile_succ_none (t : Tools) (fuel : Nat) (path : String) (isRoot : Bool)
    (h : harvester) (hrep : report t path = none) :
    ∃ msg, collectFile t (fuel + 1) path isRoot h = some ⟨logCall h path, status.err msg⟩ := by
  rw [collectFile]
  unfold report at hrep
  cases hx : t.oToolExec path with
  | error e => exact ⟨e, rfl⟩
  | ok out =>
    rw [hx] at hrep
    simp only at hrep ⊢
    cases hy : t.oToolParse out with
    | error e => exact ⟨e, rfl⟩
    | ok recs1 => rw [hy] at hrep; simp at hrep

/-- The cells that `collectFile` allocates for a report hold its records. -/
theorem cell_alloc_range (h : harvester) (path : String) (recs : List record) (p : Ptr)
    (hp : p ∈ List.range' h.heap.length recs.length) :
    ∃ r ∈ recs, (cell (alloc (logCall h path) recs) p).name = r.name ∧
      (cell (alloc (logCall h path) recs) p).path = r.path := by
  rw [List.mem_range'] at hp
  obtain ⟨i, hi, rfl⟩ := hp
  have hget : recs[i]? = some recs[i] := List.getElem?_eq_getElem hi
  refine ⟨recs[i], List.getElem_mem hi, ?_⟩
  have := cell_alloc_ge (logCall h path) recs i recs[i] hget
  simp only [logCall_heap] at this
  rw [Nat.one_mul, this]
  exact ⟨rfl, rfl⟩

/-! ## Termination -/

theorem unseen_mono (U : List String) {h h' : harvester} (e : Extends h h') :
    unseen U h' ≤ unseen U h := by
  unfold unseen
  apply Finset.card_le_card
  apply Finset.sdiff_subset_sdiff (Finset.Subset.refl _)
  intro n hn
  rw [List.mem_toFinset] at hn ⊢
  exact e.keys n hn

theorem unseen_entered (U : List String) (isRoot : Bool) (h : harvester) (lib : Ptr)
    (hU : (cell h lib).name ∈ U) (hnew : mapGet h.libs (cell h lib).name = none) :
    unseen U (entered isRoot h lib) < unseen U h := by
  unfold unseen
  apply Finset.card_lt_card
  rw [Finset.ssubset_iff_of_subset]
  · refine ⟨(cell h lib).name, ?_, ?_⟩
    · rw [Finset.mem_sdiff, List.mem_toFinset, List.mem_toFinset]
      exact ⟨hU, (mapGet_eq_none_iff _ _).1 hnew⟩
    · rw [Finset.mem_sdiff, List.mem_toFinset, List.mem_toFinset]
      intro hc
      apply hc.2
      simp [entered, mem_mapKeys_mapSet]
  · apply Finset.sdiff_subset_sdiff (Finset.Subset.refl _)
    intro n hn
    rw [List.mem_toFinset] at hn ⊢
    exact (extends_entered isRoot h lib hnew).keys n hn

/-- With more fuel than there are unregistered names, `collectFile` returns. -/
theorem collectFile_returns (t : Tools) (U : List String) (hU : namesWithin t U) :
    ∀ fuel path isRoot h, unseen U h < fuel → ∃ r, collectFile t fuel path isRoot h = some r := by
  intro fuel
  induction fuel with
  | zero => intro path isRoot h hlt; exact absurd hlt (Nat.not_lt_zero _)
  | succ fuel ih =>
    have loop : ∀ path isRoot ptrs h, unseen U h ≤ fuel →
        (∀ p ∈ ptrs, p < h.heap.length ∧ (cell h p).name ∈ U) →
        ∃ r, collectLoop t (fun p h1 => collectFile t fuel p false h1) path isRoot ptrs h
          = some r := by
      intro path isRoot ptrs
      induction ptrs with
      | nil => intro h _ _; exact ⟨_, rfl⟩
      | cons lib rest ihl =>
        intro h hm hp
        have hlib := hp lib (List.mem_cons_self _ _)
        by_cases hself : (cell h lib).path = path
        · rw [collectLoop_self t _ path isRoot lib rest h hself]
          refine ihl _ (Nat.le_trans (unseen_mono U (extends_attach h lib)) hm) ?_
          intro p hmem
          simpa using hp p (List.mem_cons_of_mem _ hmem)
        · by_cases hnew : mapGet h.libs (cell h lib).name = none
          · have hlt : unseen U (entered isRoot h lib) < fuel :=
              Nat.lt_of_lt_of_le (unseen_entered U isRoot h lib hlib.2 hnew) hm
            obtain ⟨⟨h1, e⟩, hc⟩ := ih (libPath t h lib) false (entered isRoot h lib) hlt
            have hbal := (stack_balance t fuel).1 _ _ _ _ hc
            have hext := (extends_entered isRoot h lib hnew).trans
              ((run_extends t fuel).1 _ _ _ _ hc)
            cases e with
            | nil =>
              have hs : h1.libStack = h.libStack ++ [lib] := by simpa [entered] using hbal.2 rfl
              rw [collectLoop_fresh t _ path isRoot lib rest h hself hnew h1 hc hs]
              refine ihl _ ?_ ?_
              · exact Nat.le_trans (unseen_mono U (hext.trans (extends_popped h1 _))) hm
              · intro p hmem
                have hq := hp p (List.mem_cons_of_mem _ hmem)
                refine ⟨Nat.lt_of_lt_of_le hq.1 hext.len, ?_⟩
                rw [cell_popped, hext.name p hq.1]
                exact hq.2
            | err msg =>
              exact ⟨_, collectLoop_abort t _ path isRoot lib rest h hself hnew h1 msg hc⟩
            | panic => exact absurd rfl hbal.1
          · rw [collectLoop_seen t _ path isRoot lib rest h hself hnew]
            refine ihl _ (Nat.le_trans (unseen_mono U ((extends_attach h lib).trans
              (extends_noteRoot isRoot _ lib))) hm) ?_
            intro p hmem
            simpa using hp p (List.mem_cons_of_mem _ hmem)
    intro path isRoot h hlt
    cases hrep : report t path with
    | none =>
      obtain ⟨msg, hm⟩ := collectFile_succ_none t fuel path isRoot h hrep
      exact ⟨_, hm⟩
    | some recs =>
      rw [collectFile_succ t fuel path isRoot h recs hrep]
      refine loop _ _ _ _ ?_ ?_
      · exact Nat.le_trans (unseen_mono U ((extends_logCall h path).trans (extends_alloc _ recs)))
          (Nat.le_of_lt_succ hlt)
      · intro p hp
        obtain ⟨r, hr, hn, _⟩ := cell_alloc_range h path recs p hp
        refine ⟨?_, ?_⟩
        · rw [List.mem_range'] at hp
          obtain ⟨i, hi, rfl⟩ := hp
          simp only [alloc_heap_length, logCall_heap, Nat.one_mul]
          exact Nat.add_lt_add_left hi _
        · rw [hn]; exact hU path recs r hrep hr

/-! ## Closure: everything declared gets registered -/

theorem closedAt_mono (t : Tools) {h h' : harvester} (e : Extends h h') (path : String)
    (hc : closedAt t h path) : closedAt t h' path :=
  fun recs r hrep hr hne => e.keys _ (hc recs r hrep hr hne)

/-- Every record has a cell among those allocated for its report. -/
theorem cell_alloc_mem (h : harvester) (path : String) (recs : List record) (r : record)
    (hr : r ∈ recs) :
    ∃ p ∈ List.range' h.heap.length recs.length,
      (cell (alloc (logCall h path) recs) p).name = r.name ∧
      (cell (alloc (logCall h path) recs) p).path = r.path := by
  obtain ⟨i, hi, hget⟩ := List.getElem_of_mem hr
  refine ⟨h.heap.length + i, ?_, ?_⟩
  · rw [List.mem_range']
    exact ⟨i, hi, by rw [Nat.one_mul]⟩
  · have hget2 : recs[i]? = some r := by rw [List.getElem?_eq_getElem hi, hget]
    have := cell_alloc_ge (logCall h path) recs i r hget2
    simp only [logCall_heap] at this
    rw [this]
    exact ⟨rfl, rfl⟩

theorem range_lt_alloc (h : harvester) (path : String) (recs : List record) (p : Ptr)
    (hp : p ∈ List.range' h.heap.length recs.length) :
    p < (alloc (logCall h path) recs).heap.length := by
  rw [List.mem_range'] at hp
  obtain ⟨i, hi, rfl⟩ := hp
  simp only [alloc_heap_length, logCall_heap, Nat.one_mul]
  exact Nat.add_lt_add_left hi _

/-- After a run without error, the inspected report is closed, and so is the
report of every library that the run registered. -/
theorem run_closed (t : Tools) (fuel : Nat) :
    (∀ path isRoot h r, fileRun t fuel path isRoot h r → WF h → r.st = status.nil →
      closedAt t r.h path ∧
      ∀ n p, mapGet r.h.libs n = some p → mapGet h.libs n = none →
        closedAt t r.h (libPath t r.h p)) ∧
    (∀ path isRoot ptrs h r, loopRun t fuel path isRoot ptrs h r → WF h →
      (∀ p ∈ ptrs, p < h.heap.length) → r.st = status.nil →
      (∀ p ∈ ptrs, (cell h p).path ≠ path → (cell h p).name ∈ mapKeys r.h.libs) ∧
      ∀ n p, mapGet r.h.libs n = some p → mapGet h.libs n = none →
        closedAt t r.h (libPath t r.h p)) := by
  refine collectFile_induct t
    (fun path _ h r => WF h → r.st = status.nil →
      closedAt t r.h path ∧
      ∀ n p, mapGet r.h.libs n = some p → mapGet h.libs n = none →
        closedAt t r.h (libPath t r.h p))
    (fun path _ ptrs h r => WF h →
      (∀ p ∈ ptrs, p < h.heap.length) → r.st = status.nil →
      (∀ p ∈ ptrs, (cell h p).path ≠ path → (cell h p).name ∈ mapKeys r.h.libs) ∧
      ∀ n p, mapGet r.h.libs n = some p → mapGet h.libs n = none →
        closedAt t r.h (libPath t r.h p))
    ?_ ?_ ?_ ?_ ?_ ?_ ?_ ?_ fuel
  · intro path isRoot h e _ _ hst; cases hst
  · intro path isRoot h out e _ _ _ hst; cases hst
  · intro fuel path isRoot h recs r hrep _ hl w hst
    have hl' := hl (WF_alloc (WF_logCall w path) recs) (range_lt_alloc h path recs) hst
    refine ⟨?_, fun n p hp hn => hl'.2 n p hp (by simpa using hn)⟩
    intro recs' r' hrep' hr' hne
    rw [hrep] at hrep'
    cases hrep'
    obtain ⟨p, hp, hname, hpath⟩ := cell_alloc_mem h path recs r' hr'
    rw [← hname]
    exact hl'.1 p hp (by rw [hpath]; exact hne)
  · intro path isRoot h _ _ _
    refine ⟨fun p hp => absurd hp (List.not_mem_nil p), fun n p hp hn => ?_⟩
    rw [hn] at hp
    cases hp
  · intro fuel path isRoot lib rest h r hself _ hl w hp hst
    have hl' := hl (WF_attach w lib)
      (fun p hm => by simpa using hp p (List.mem_cons_of_mem _ hm)) hst
    refine ⟨fun p hm hne => ?_, fun n p hq hn => hl'.2 n p hq (by simpa using hn)⟩
    rcases List.mem_cons.1 hm with heq | hm'
    · rw [heq] at hne; exact absurd hself hne
    · simpa using hl'.1 p hm' (by simpa using hne)
  · intro fuel path isRoot lib rest h r _ hseen hlrun hl w hp hst
    have hl' := hl (WF_noteRoot (WF_attach w lib) isRoot lib
      (by simpa using hp lib (List.mem_cons_self _ _)))
      (fun p hm => by simpa using hp p (List.mem_cons_of_mem _ hm)) hst
    refine ⟨fun p hm hne => ?_, fun n p hq hn => hl'.2 n p hq (by simpa using hn)⟩
    rcases List.mem_cons.1 hm with heq | hm'
    · rw [heq]
      have hk : (cell h lib).name ∈ mapKeys h.libs := by
        by_contra hc
        exact hseen ((mapGet_eq_none_iff _ _).2 hc)
      have e := ((extends_attach h lib).trans (extends_noteRoot isRoot _ lib)).trans
        ((run_extends t fuel).2 _ _ _ _ _ hlrun)
      exact e.keys _ hk
    · simpa using hl'.1 p hm' (by simpa using hne)
  · intro fuel path isRoot lib rest h h1 r _ hnew hrun hf hs hlrun hl w hp hst
    have hlib := hp lib (List.mem_cons_self _ _)
    have we := WF_entered w isRoot lib hlib
    have w1 := (run_WF t fuel).1 _ _ _ _ hrun we
    have e0 := extends_entered isRoot h lib hnew
    have e1 := (run_extends t fuel).1 _ _ _ _ hrun
    have e2 := (run_extends t fuel).2 _ _ _ _ _ hlrun
    have hf' := hf we rfl
    have hl' := hl (WF_popped w1 _ lib hs)
      (fun p hm => Nat.lt_of_lt_of_le (hp p (List.mem_cons_of_mem _ hm)) (e0.trans e1).len) hst
    have hreg : mapGet (entered isRoot h lib).libs (cell h lib).name = some lib := by
      simp [entered, mapGet_mapSet_self]
    refine ⟨fun p hm hne => ?_, fun n p hq hn => ?_⟩
    · rcases List.mem_cons.1 hm with heq | hm'
      · rw [heq, mem_mapKeys_iff]
        exact ⟨lib, e2.libs _ _ (e1.libs _ _ hreg)⟩
      · have hplt := hp p (List.mem_cons_of_mem _ hm')
        have hnm := (e0.trans e1).name p hplt
        have hpt := (e0.trans e1).path p hplt
        have := hl'.1 p hm' (by rw [cell_popped, hpt]; exact hne)
        rw [cell_popped, hnm] at this
        exact this
    · cases h2n : mapGet h1.libs n with
      | none => exact hl'.2 n p hq (by simpa using h2n)
      | some p' =>
        have hpp : p' = p := by
          have := e2.libs n p' (by simpa using h2n)
          rw [hq] at this
          exact (Option.some.inj this).symm
        subst hpp
        have hplt := (w1.libs n p' h2n).1
        have hpath : libPath t r.h p' = libPath t h1 p' :=
          ((extends_popped h1 h.libStack).trans e2).libPath_eq t p' hplt
        rw [hpath]
        apply closedAt_mono t ((extends_popped h1 h.libStack).trans e2)
        cases hen : mapGet (entered isRoot h lib).libs n with
        | none => exact hf'.2 n p' h2n hen
        | some p'' =>
          by_cases hname : (cell h lib).name = n
          · rw [← hname, hreg] at hen
            have h1lib := e1.libs _ _ hreg
            rw [hname, h2n] at h1lib
            have hpl : p' = lib := Option.some.inj h1lib
            rw [hpl, (e0.trans e1).libPath_eq t lib hlib]
            exact hf'.1
          · have : mapGet (entered isRoot h lib).libs n = mapGet h.libs n := by
              simp [entered, mapGet_mapSet_ne _ _ _ _ hname]
            rw [this, hn] at hen
            cases hen
  · intro fuel path isRoot lib rest h h1 msg _ _ _ _ _ _ hst
    cases hst

/-! ## The root's dependency map -/

theorem noted_congr (h h' : harvester) (path : String) (ptrs : List Ptr)
    (hsame : ∀ p ∈ ptrs, (cell h' p).name = (cell h p).name ∧ (cell h' p).path = (cell h p).path) :
    ∀ m, noted h' path ptrs m = noted h path ptrs m := by
  induction ptrs with
  | nil => intro m; rfl
  | cons p rest ih =>
    intro m
    have hp := hsame p (List.mem_cons_self _ _)
    have ih' := ih (fun q hq => hsame q (List.mem_cons_of_mem _ hq))
    simp only [noted, hp.1, hp.2, ih']

theorem noted_of_extends {h h' : harvester} (e : Extends h h') (path : String) (ptrs : List Ptr)
    (hlt : ∀ p ∈ ptrs, p < h.heap.length) (m : List (String × Ptr)) :
    noted h' path ptrs m = noted h path ptrs m :=
  noted_congr h h' path ptrs (fun p hp => ⟨e.name p (hlt p hp), e.path p (hlt p hp)⟩) m

/-- The loop of the root call leaves in `deps` exactly what `noted` computes. -/
theorem run_deps_root (t : Tools) (fuel : Nat) :
    (∀ path isRoot h r, fileRun t fuel path isRoot h r → True) ∧
    (∀ path isRoot ptrs h r, loopRun t fuel path isRoot ptrs h r → isRoot = true →
      (∀ p ∈ ptrs, p < h.heap.length) → r.st = status.nil →
      r.h.deps = noted h path ptrs h.deps) := by
  refine collectFile_induct t (fun _ _ _ _ => True)
    (fun path isRoot ptrs h r => isRoot = true →
      (∀ p ∈ ptrs, p < h.heap.length) → r.st = status.nil →
      r.h.deps = noted h path ptrs h.deps)
    ?_ ?_ ?_ ?_ ?_ ?_ ?_ ?_ fuel
  · intros; trivial
  · intros; trivial
  · intros; trivial
  · intro path isRoot h _ _ _; rfl
  · intro fuel path isRoot lib rest h r hself _ hl hroot hp hst
    have := hl hroot (fun p hm => by simpa using hp p (List.mem_cons_of_mem _ hm)) hst
    rw [this, noted_of_extends (extends_attach h lib) path rest
      (fun p hm => hp p (List.mem_cons_of_mem _ hm))]
    simp [noted, hself]
  · intro fuel path isRoot lib rest h r hself _ _ hl hroot hp hst
    subst hroot
    have := hl rfl (fun p hm => by simpa using hp p (List.mem_cons_of_mem _ hm)) hst
    rw [this, noted_of_extends ((extends_attach h lib).trans (extends_noteRoot true _ lib))
      path rest (fun p hm => hp p (List.mem_cons_of_mem _ hm))]
    simp [noted, hself, noteRoot_true_deps]
  · intro fuel path isRoot lib rest h h1 r hself hnew hrun _ _ _ hl hroot hp hst
    subst hroot
    have e := (extends_entered true h lib hnew).trans ((run_extends t fuel).1 _ _ _ _ hrun)
    have hd : h1.deps = (entered true h lib).deps := (run_deps_frame t fuel).1 _ _ _ _ hrun rfl
    have := hl rfl
      (fun p hm => Nat.lt_of_lt_of_le (hp p (List.mem_cons_of_mem _ hm)) e.len) hst
    rw [this, noted_of_extends (e.trans (extends_popped h1 _)) path rest
      (fun p hm => hp p (List.mem_cons_of_mem _ hm))]
    simp [noted, hself, hd, entered, noteRoot_true_deps]
  · intro fuel path isRoot lib rest h h1 msg _ _ _ _ _ _ hst
    cases hst

theorem mem_mapKeys_noted (h : harvester) (path : String) (ptrs : List Ptr) :
    ∀ (m : List (String × Ptr)) (n : String), n ∈ mapKeys (noted h path ptrs m) ↔
      n ∈ mapKeys m ∨ ∃ p ∈ ptrs, (cell h p).path ≠ path ∧ (cell h p).name = n := by
  induction ptrs with
  | nil => intro m n; simp [noted]
  | cons p rest ih =>
    intro m n
    by_cases hself : (cell h p).path = path
    · simp only [noted, if_pos hself, ih, List.mem_cons]
      constructor
      · rintro (hm | ⟨q, hq, hne, hname⟩)
        · exact Or.inl hm
        · exact Or.inr ⟨q, Or.inr hq, hne, hname⟩
      · rintro (hm | ⟨q, hq | hq, hne, hname⟩)
        · exact Or.inl hm
        · rw [hq] at hne; exact absurd hself hne
        · exact Or.inr ⟨q, hq, hne, hname⟩
    · simp only [noted, if_neg hself, ih, List.mem_cons, mem_mapKeys_mapSet]
      constructor
      · rintro ((hn | hm) | ⟨q, hq, hne, hname⟩)
        · exact Or.inr ⟨p, Or.inl rfl, hself, hn.symm⟩
        · exact Or.inl hm
        · exact Or.inr ⟨q, Or.inr hq, hne, hname⟩
      · rintro (hm | ⟨q, hq | hq, hne, hname⟩)
        · exact Or.inl (Or.inr hm)
        · rw [hq] at hname; exact Or.inl (Or.inl hname.symm)
        · exact Or.inr ⟨q, hq, hne, hname⟩

/-- The entry of `n` after `noted` is the last record of that name that is not a
self-reference, or the old entry when there is none. -/
theorem mapGet_noted (h : harvester) (path : String) (ptrs : List Ptr) :
    ∀ (m : List (String × Ptr)) (n : String) (q : Ptr), mapGet (noted h path ptrs m) n = some q →
      (mapGet m n = some q ∧ ∀ p ∈ ptrs, (cell h p).name = n → (cell h p).path = path) ∨
      ∃ before after, ptrs = before ++ q :: after ∧ (cell h q).name = n ∧
        (cell h q).path ≠ path ∧ ∀ p ∈ after, (cell h p).name = n → (cell h p).path = path := by
  induction ptrs with
  | nil =>
    intro m n q hq
    exact Or.inl ⟨hq, fun p hp => absurd hp (List.not_mem_nil p)⟩
  | cons p rest ih =>
    intro m n q hq
    by_cases hself : (cell h p).path = path
    · simp only [noted, if_pos hself] at hq
      rcases ih m n q hq with ⟨hm, hall⟩ | ⟨before, after, hsplit, hname, hne, hall⟩
      · refine Or.inl ⟨hm, fun p' hp' hn => ?_⟩
        rcases List.mem_cons.1 hp' with heq | hin
        · rw [heq]; exact hself
        · exact hall p' hin hn
      · exact Or.inr ⟨p :: before, after, by rw [hsplit]; rfl, hname, hne, hall⟩
    · simp only [noted, if_neg hself] at hq
      rcases ih _ n q hq with ⟨hm, hall⟩ | ⟨before, after, hsplit, hname, hne, hall⟩
      · by_cases hn : (cell h p).name = n
        · rw [hn, mapGet_mapSet_self] at hm
          cases hm
          exact Or.inr ⟨[], rest, rfl, hn, hself, hall⟩
        · rw [mapGet_mapSet_ne _ _ _ _ hn] at hm
          refine Or.inl ⟨hm, fun p' hp' hn' => ?_⟩
          rcases List.mem_cons.1 hp' with heq | hin
          · rw [heq] at hn'; exact absurd hn' hn
          · exact hall p' hin hn'
      · exact Or.inr ⟨p :: before, after, by rw [hsplit]; rfl, hname, hne, hall⟩

/-! ## Where the registered libraries live -/

@[simp] theorem entered_heap_length (isRoot : Bool) (h : harvester) (lib : Ptr) :
    (entered isRoot h lib).heap.length = h.heap.length := by
  simp [entered]

@[simp] theorem entered_libs (isRoot : Bool) (h : harvester) (lib : Ptr) :
    (entered isRoot h lib).libs = mapSet h.libs (cell h lib).name lib := by
  simp [entered]

@[simp] theorem entered_libStack (isRoot : Bool) (h : harvester) (lib : Ptr) :
    (entered isRoot h lib).libStack = h.libStack ++ [lib] := by
  simp [entered]

@[simp] theorem entered_root (isRoot : Bool) (h : harvester) (lib : Ptr) :
    (entered isRoot h lib).root = h.root := by
  simp [entered]

@[simp] theorem entered_calls (isRoot : Bool) (h : harvester) (lib : Ptr) :
    (entered isRoot h lib).calls = h.calls := by
  simp [entered]

@[simp] theorem cell_entered (isRoot : Bool) (h : harvester) (lib p : Ptr) :
    cell (entered isRoot h lib) p = cell (attach h lib) p := by
  simp [entered]

@[simp] theorem curLib_entered (isRoot : Bool) (h : harvester) (lib : Ptr) :
    curLib (entered isRoot h lib) = some lib := by
  simp [curLib]

/-- A library registered between `h` and the end of an iteration that entered
`lib` was registered after the nested call, during it, or is `lib` itself. -/
theorem fresh_entry_cases (isRoot : Bool) (h h1 h' : harvester) (lib : Ptr) (s : List Ptr)
    (e1 : Extends (entered isRoot h lib) h1) (e2 : Extends (popped h1 s) h')
    (n : String) (p : Ptr) (hq : mapGet h'.libs n = some p) (hn : mapGet h.libs n = none) :
    mapGet h1.libs n = none ∨
    (mapGet h1.libs n = some p ∧ mapGet (entered isRoot h lib).libs n = none) ∨
    (mapGet h1.libs n = some p ∧ n = (cell h lib).name ∧ p = lib) := by
  cases h1n : mapGet h1.libs n with
  | none => exact Or.inl rfl
  | some p' =>
    have hpp : p' = p := by
      have := e2.libs n p' (by simpa using h1n)
      rw [hq] at this
      exact (Option.some.inj this).symm
    subst hpp
    cases hen : mapGet (entered isRoot h lib).libs n with
    | none => exact Or.inr (Or.inl ⟨rfl, rfl⟩)
    | some p'' =>
      by_cases hname : (cell h lib).name = n
      · have hreg : mapGet (entered isRoot h lib).libs (cell h lib).name = some lib := by
          simp [mapGet_mapSet_self]
        have h1lib := e1.libs _ _ hreg
        rw [hname, h1n] at h1lib
        exact Or.inr (Or.inr ⟨rfl, hname.symm, Option.some.inj h1lib⟩)
      · rw [entered_libs, mapGet_mapSet_ne _ _ _ _ hname, hn] at hen
        cases hen

/-- The libraries that a call registers are objects it allocated; those that a
loop registers are its own records or objects allocated later. -/
theorem run_fresh_ptrs (t : Tools) (fuel : Nat) :
    (∀ path isRoot h r, fileRun t fuel path isRoot h r →
      ∀ n p, mapGet r.h.libs n = some p → mapGet h.libs n = none → h.heap.length ≤ p) ∧
    (∀ path isRoot ptrs h r, loopRun t fuel path isRoot ptrs h r →
      ∀ n p, mapGet r.h.libs n = some p → mapGet h.libs n = none →
        p ∈ ptrs ∨ h.heap.length ≤ p) := by
  refine collectFile_induct t
    (fun _ _ h r => ∀ n p, mapGet r.h.libs n = some p → mapGet h.libs n = none →
      h.heap.length ≤ p)
    (fun _ _ ptrs h r => ∀ n p, mapGet r.h.libs n = some p → mapGet h.libs n = none →
      p ∈ ptrs ∨ h.heap.length ≤ p)
    ?_ ?_ ?_ ?_ ?_ ?_ ?_ ?_ fuel
  · intro path isRoot h e _ n p hq hn
    rw [logCall_libs, hn] at hq; cases hq
  · intro path isRoot h out e _ _ n p hq hn
    rw [logCall_libs, hn] at hq; cases hq
  · intro fuel path isRoot h recs r _ _ hl n p hq hn
    rcases hl n p hq (by simpa using hn) with hm | hge
    · rw [List.mem_range'] at hm
      obtain ⟨i, _, rfl⟩ := hm
      exact Nat.le_add_right _ _
    · simp only [alloc_heap_length, logCall_heap] at hge
      exact Nat.le_trans (Nat.le_add_right _ _) hge
  · intro path isRoot h n p hq hn
    rw [hn] at hq; cases hq
  · intro fuel path isRoot lib rest h r _ _ hl n p hq hn
    rcases hl n p hq (by simpa using hn) with hm | hge
    · exact Or.inl (List.mem_cons_of_mem _ hm)
    · exact Or.inr (by simpa using hge)
  · intro fuel path isRoot lib rest h r _ _ _ hl n p hq hn
    rcases hl n p hq (by simpa using hn) with hm | hge
    · exact Or.inl (List.mem_cons_of_mem _ hm)
    · exact Or.inr (by simpa using hge)
  · intro fuel path isRoot lib rest h h1 r _ hnew hrun hf _ hlrun hl n p hq hn
    have e1 : Extends (entered isRoot h lib) h1 := (run_extends t fuel).1 _ _ _ _ hrun
    have e2 := (run_extends t fuel).2 _ _ _ _ _ hlrun
    rcases fresh_entry_cases isRoot h h1 r.h lib h.libStack e1 e2 n p hq hn with
      h1n | ⟨h1n, hen⟩ | ⟨_, _, hpl⟩
    · rcases hl n p hq (by simpa using h1n) with hm | hge
      · exact Or.inl (List.mem_cons_of_mem _ hm)
      · right
        have := e1.len
        simp only [entered_heap_length] at this
        exact Nat.le_trans this (by simpa using hge)
    · right
      simpa using hf n p h1n hen
    · rw [hpl]; exact Or.inl (List.mem_cons_self _ _)
  · intro fuel path isRoot lib rest h h1 msg _ hnew hrun hf n p hq hn
    have e1 : Extends (entered isRoot h lib) h1 := (run_extends t fuel).1 _ _ _ _ hrun
    rcases fresh_entry_cases isRoot h h1 h1 lib h1.libStack e1 (Extends.refl _) n p hq hn with
      h1n | ⟨h1n, hen⟩ | ⟨_, _, hpl⟩
    · rw [h1n] at hq; cases hq
    · right
      simpa using hf n p h1n hen
    · rw [hpl]; exact Or.inl (List.mem_cons_self _ _)

/-! ## The dependency lists -/

theorem curLib_lt {h : harvester} (w : WF h) (c : Ptr) (hc : curLib h = some c) :
    c < h.heap.length :=
  w.stack c (List.mem_of_mem_getLast? hc)

theorem cell_attach_of_ne (h : harvester) (lib q : Ptr) (hq : curLib h ≠ some q) :
    cell (attach h lib) q = cell h q := by
  unfold attach
  split
  · next cur hcur =>
    rw [cell_addDep]
    split
    · next hc => rw [hc.1] at hq; exact absurd hcur hq
    · rfl
  · rfl

theorem cell_attach_top (h : harvester) (lib c : Ptr) (hc : curLib h = some c)
    (hlt : c < h.heap.length) :
    (cell (attach h lib) c).deps = (cell h c).deps ++ [lib] := by
  unfold attach
  rw [hc]
  simp only
  rw [cell_addDep, if_pos ⟨rfl, hlt⟩]

@[simp] theorem curLib_attach (h : harvester) (lib : Ptr) : curLib (attach h lib) = curLib h := by
  simp [curLib]

@[simp] theorem curLib_noteRoot (isRoot : Bool) (h : harvester) (lib : Ptr) :
    curLib (noteRoot isRoot h lib) = curLib h := by
  simp [curLib]

@[simp] theorem curLib_alloc (h : harvester) (recs : List record) :
    curLib (alloc h recs) = curLib h := rfl

@[simp] theorem curLib_logCall (h : harvester) (path : String) :
    curLib (logCall h path) = curLib h := rfl

@[simp] theorem curLib_popped (h1 : harvester) (s : List Ptr) :
    curLib (popped h1 s) = s.getLast? := rfl

theorem loopReady_tail {h h' : harvester} {lib : Ptr} {rest : List Ptr}
    (hr : loopReady h (lib :: rest)) (hlen : h.heap.length ≤ h'.heap.length)
    (hcur : curLib h' = curLib h) : loopReady h' rest := by
  refine ⟨(List.nodup_cons.1 hr.1).2, fun p hp => ?_⟩
  have := hr.2 p (List.mem_cons_of_mem _ hp)
  exact ⟨Nat.lt_of_lt_of_le this.1 hlen, by rw [hcur]; exact this.2⟩

theorem loopReady_range {h : harvester} (w : WF h) (path : String) (recs : List record) :
    loopReady (alloc (logCall h path) recs) (List.range' h.heap.length recs.length) := by
  refine ⟨List.nodup_range' _ _, fun p hp => ⟨range_lt_alloc h path recs p hp, ?_⟩⟩
  intro hc
  have hlt : p < h.heap.length := curLib_lt w p (by simpa using hc)
  rw [List.mem_range'] at hp
  obtain ⟨i, _, rfl⟩ := hp
  exact absurd hlt (Nat.not_lt.2 (Nat.le_add_right _ _))

/-- A run without error appends the addresses of the report's records to the
dependency list of the library on top of the stack, and leaves alone every
other object that existed before (the loop: other than its own records). -/
theorem run_cells (t : Tools) (fuel : Nat) :
    (∀ path isRoot h r, fileRun t fuel path isRoot h r → WF h → r.st = status.nil →
      (∀ q, q < h.heap.length → curLib h ≠ some q → cell r.h q = cell h q) ∧
      (∀ c recs, curLib h = some c → report t path = some recs →
        (cell r.h c).deps = (cell h c).deps ++ List.range' h.heap.length recs.length)) ∧
    (∀ path isRoot ptrs h r, loopRun t fuel path isRoot ptrs h r → WF h →
      loopReady h ptrs → r.st = status.nil →
      (∀ q, q < h.heap.length → curLib h ≠ some q → q ∉ ptrs → cell r.h q = cell h q) ∧
      (∀ c, curLib h = some c → (cell r.h c).deps = (cell h c).deps ++ ptrs)) := by
  refine collectFile_induct t
    (fun path _ h r => WF h → r.st = status.nil →
      (∀ q, q < h.heap.length → curLib h ≠ some q → cell r.h q = cell h q) ∧
      (∀ c recs, curLib h = some c → report t path = some recs →
        (cell r.h c).deps = (cell h c).deps ++ List.range' h.heap.length recs.length))
    (fun _ _ ptrs h r => WF h → loopReady h ptrs → r.st = status.nil →
      (∀ q, q < h.heap.length → curLib h ≠ some q → q ∉ ptrs → cell r.h q = cell h q) ∧
      (∀ c, curLib h = some c → (cell r.h c).deps = (cell h c).deps ++ ptrs))
    ?_ ?_ ?_ ?_ ?_ ?_ ?_ ?_ fuel
  · intro path isRoot h e _ _ hst; cases hst
  · intro path isRoot h out e _ _ _ hst; cases hst
  · intro fuel path isRoot h recs r hrep _ hl w hst
    have hl' := hl (WF_alloc (WF_logCall w path) recs) (loopReady_range w path recs) hst
    refine ⟨fun q hq hcur => ?_, fun c recs' hc hrep' => ?_⟩
    · rw [hl'.1 q (Nat.lt_of_lt_of_le hq (by simp)) (by simpa using hcur) ?_]
      · rw [cell_alloc_lt _ _ _ (by simpa using hq)]; rfl
      · intro hm
        rw [List.mem_range'] at hm
        obtain ⟨i, _, rfl⟩ := hm
        exact absurd hq (Nat.not_lt.2 (Nat.le_add_right _ _))
    · rw [hrep] at hrep'
      cases hrep'
      rw [hl'.2 c (by simpa using hc), cell_alloc_lt _ _ _ (by simpa using curLib_lt w c hc)]
      rfl
  · intro path isRoot h _ _ _
    exact ⟨fun _ _ _ _ => rfl, fun c _ => by simp⟩
  · intro fuel path isRoot lib rest h r _ _ hl w hr hst
    have hl' := hl (WF_attach w lib) (loopReady_tail hr (by simp) (by simp)) hst
    refine ⟨fun q hq hcur hm => ?_, fun c hc => ?_⟩
    · rw [hl'.1 q (by simpa using hq) (by simpa using hcur)
        (fun hm' => hm (List.mem_cons_of_mem _ hm')), cell_attach_of_ne h lib q hcur]
    · rw [hl'.2 c (by simpa using hc), cell_attach_top h lib c hc (curLib_lt w c hc)]
      simp
  · intro fuel path isRoot lib rest h r _ _ _ hl w hr hst
    have hlib := (hr.2 lib (List.mem_cons_self _ _)).1
    have hl' := hl (WF_noteRoot (WF_attach w lib) isRoot lib (by simpa using hlib))
      (loopReady_tail hr (by simp) (by simp)) hst
    refine ⟨fun q hq hcur hm => ?_, fun c hc => ?_⟩
    · rw [hl'.1 q (by simpa using hq) (by simpa using hcur)
        (fun hm' => hm (List.mem_cons_of_mem _ hm')), cell_noteRoot,
        cell_attach_of_ne h lib q hcur]
    · rw [hl'.2 c (by simpa using hc), cell_noteRoot,
        cell_attach_top h lib c hc (curLib_lt w c hc)]
      simp
  · intro fuel path isRoot lib rest h h1 r _ hnew hrun hf hs _ hl w hr hst
    have hlib := hr.2 lib (List.mem_cons_self _ _)
    have we := WF_entered w isRoot lib hlib.1
    have w1 : WF h1 := (run_WF t fuel).1 _ _ _ _ hrun we
    have e1 : Extends (entered isRoot h lib) h1 := (run_extends t fuel).1 _ _ _ _ hrun
    have hlen : h.heap.length ≤ h1.heap.length := by simpa using e1.len
    have hf' := hf we rfl
    have hcur2 : curLib (popped h1 h.libStack) = curLib h := rfl
    have hl' := hl (WF_popped w1 _ lib hs) (loopReady_tail hr hlen hcur2) hst
    have hcell : ∀ q, q < h.heap.length → q ≠ lib → cell h1 q = cell (attach h lib) q := by
      intro q hq hne
      have := hf'.1 q (by simpa using hq) (by simpa using fun e => hne e.symm)
      simpa using this
    refine ⟨fun q hq hcur hm => ?_, fun c hc => ?_⟩
    · rw [hl'.1 q (Nat.lt_of_lt_of_le hq hlen) hcur (fun hm' => hm (List.mem_cons_of_mem _ hm')),
        cell_popped, hcell q hq (fun e => hm (by rw [e]; exact List.mem_cons_self _ _)),
        cell_attach_of_ne h lib q hcur]
    · have hclt := curLib_lt w c hc
      have hne : c ≠ lib := fun e => hlib.2 (by rw [← e]; exact hc)
      rw [hl'.2 c hc, cell_popped, hcell c hclt hne, cell_attach_top h lib c hc hclt]
      simp
  · intro fuel path isRoot lib rest h h1 msg _ _ _ _ _ _ hst
    cases hst

theorem Full_stable (t : Tools) {h h' : harvester} (e : Extends h h') (p : Ptr)
    (hp : p < h.heap.length) (hcell : cell h' p = cell h p) (hf : Full t h p) : Full t h' p := by
  refine ⟨fun q hq => ?_, ?_⟩
  · rw [hcell] at hq
    exact Nat.lt_of_lt_of_le (hf.1 q hq) e.len
  · rw [e.libPath_eq t p hp, hf.2, hcell]
    congr 1
    apply List.map_congr_left
    intro q hq
    simp [recordOf, e.name q (hf.1 q hq), e.path q (hf.1 q hq)]

/-- A call that ends without error has read a report and run its loop. -/
theorem fileRun_inv (t : Tools) (fuel : Nat) (path : String) (isRoot : Bool) (h : harvester)
    (r : Result) (hrun : fileRun t fuel path isRoot h r) (hst : r.st = status.nil) :
    ∃ fuel' recs, fuel = fuel' + 1 ∧ report t path = some recs ∧
      loopRun t fuel' path isRoot (List.range' h.heap.length recs.length)
        (alloc (logCall h path) recs) r := by
  cases fuel with
  | zero => simp [fileRun, collectFile] at hrun
  | succ fuel' =>
    cases hrep : report t path with
    | none =>
      obtain ⟨msg, hm⟩ := collectFile_succ_none t fuel' path isRoot h hrep
      unfold fileRun at hrun
      rw [hm] at hrun
      cases hrun
      cases hst
    | some recs =>
      refine ⟨fuel', recs, rfl, rfl, ?_⟩
      unfold fileRun at hrun
      rw [collectFile_succ t fuel' path isRoot h recs hrep] at hrun
      exact hrun

theorem map_recordOf_range (h : harvester) (path : String) (recs : List record)
    (h' : harvester) (e : Extends (alloc (logCall h path) recs) h') :
    (List.range' h.heap.length recs.length).map (recordOf h') = recs := by
  apply List.ext_getElem
  · simp
  · intro i h1 h2
    have hget : recs[i]? = some recs[i] := List.getElem?_eq_getElem h2
    have hc := cell_alloc_ge (logCall h path) recs i recs[i] hget
    simp only [logCall_heap] at hc
    have hlt : h.heap.length + i < (alloc (logCall h path) recs).heap.length := by
      simp only [alloc_heap_length, logCall_heap]
      exact Nat.add_lt_add_left h2 _
    simp only [List.getElem_map, List.getElem_range', Nat.one_mul, recordOf,
      e.name _ hlt, e.path _ hlt, hc]

/-- After a run without error, every library that the run registered has its
report as its dependency list. -/
theorem run_full (t : Tools) (fuel : Nat) :
    (∀ path isRoot h r, fileRun t fuel path isRoot h r → WF h → r.st = status.nil →
      ∀ n p, mapGet r.h.libs n = some p → mapGet h.libs n = none → Full t r.h p) ∧
    (∀ path isRoot ptrs h r, loopRun t fuel path isRoot ptrs h r → WF h →
      loopReady h ptrs → (∀ p ∈ ptrs, (cell h p).deps = []) → r.st = status.nil →
      ∀ n p, mapGet r.h.libs n = some p → mapGet h.libs n = none → Full t r.h p) := by
  refine collectFile_induct t
    (fun _ _ h r => WF h → r.st = status.nil →
      ∀ n p, mapGet r.h.libs n = some p → mapGet h.libs n = none → Full t r.h p)
    (fun _ _ ptrs h r => WF h →
      loopReady h ptrs → (∀ p ∈ ptrs, (cell h p).deps = []) → r.st = status.nil →
      ∀ n p, mapGet r.h.libs n = some p → mapGet h.libs n = none → Full t r.h p)
    ?_ ?_ ?_ ?_ ?_ ?_ ?_ ?_ fuel
  · intro path isRoot h e _ _ hst; cases hst
  · intro path isRoot h out e _ _ _ hst; cases hst
  · intro fuel path isRoot h recs r _ _ hl w hst n p hq hn
    refine hl (WF_alloc (WF_logCall w path) recs) (loopReady_range w path recs) ?_ hst n p hq
      (by simpa using hn)
    intro q hm
    rw [List.mem_range'] at hm
    obtain ⟨i, hi, rfl⟩ := hm
    have hget : recs[i]? = some recs[i] := List.getElem?_eq_getElem hi
    have hc := cell_alloc_ge (logCall h path) recs i recs[i] hget
    simp only [logCall_heap] at hc
    rw [Nat.one_mul, hc]
  · intro path isRoot h _ _ _ _ n p hq hn
    rw [hn] at hq; cases hq
  · intro fuel path isRoot lib rest h r _ _ hl w hr hd hst n p hq hn
    refine hl (WF_attach w lib) (loopReady_tail hr (by simp) (by simp)) ?_ hst n p hq
      (by simpa using hn)
    intro q hm
    have hq' := hr.2 q (List.mem_cons_of_mem _ hm)
    rw [cell_attach_of_ne h lib q hq'.2]
    exact hd q (List.mem_cons_of_mem _ hm)
  · intro fuel path isRoot lib rest h r _ _ _ hl w hr hd hst n p hq hn
    have hlib := (hr.2 lib (List.mem_cons_self _ _)).1
    refine hl (WF_noteRoot (WF_attach w lib) isRoot lib (by simpa using hlib))
      (loopReady_tail hr (by simp) (by simp)) ?_ hst n p hq (by simpa using hn)
    intro q hm
    have hq' := hr.2 q (List.mem_cons_of_mem _ hm)
    rw [cell_noteRoot, cell_attach_of_ne h lib q hq'.2]
    exact hd q (List.mem_cons_of_mem _ hm)
  · intro fuel path isRoot lib rest h h1 r _ hnew hrun hf hs hlrun hl w hr hd hst n p hq hn
    have hlib := hr.2 lib (List.mem_cons_self _ _)
    have hnodup := List.nodup_cons.1 hr.1
    have we := WF_entered w isRoot lib hlib.1
    have w1 : WF h1 := (run_WF t fuel).1 _ _ _ _ hrun we
    have w2 := WF_popped w1 _ lib hs
    have e1 : Extends (entered isRoot h lib) h1 := (run_extends t fuel).1 _ _ _ _ hrun
    have e2 := (run_extends t fuel).2 _ _ _ _ _ hlrun
    have hlen : h.heap.length ≤ h1.heap.length := by simpa using e1.len
    have hcur2 : curLib (popped h1 h.libStack) = curLib h := rfl
    have hready : loopReady (popped h1 h.libStack) rest := loopReady_tail hr hlen hcur2
    have hc1 := ((run_cells t fuel).1 _ _ _ _ hrun we rfl)
    have hc2 := ((run_cells t fuel).2 _ _ _ _ _ hlrun w2 hready hst).1
    have hcell : ∀ q, q < h.heap.length → q ≠ lib → cell h1 q = cell (attach h lib) q := by
      intro q hq hne
      have := hc1.1 q (by simpa using hq) (by simpa using fun e => hne e.symm)
      simpa using this
    -- a library finished before the rest of the loop stays as it is
    have keep : ∀ q, q < h1.heap.length → (q = lib ∨ h.heap.length ≤ q) → Full t h1 q →
        Full t r.h q := by
      intro q hq hwhere hfull
      have hcq : cell r.h q = cell h1 q := by
        have := hc2 q (by simpa using hq) ?_ ?_
        · simpa using this
        · rw [hcur2]
          rcases hwhere with heq | hge
          · rw [heq]; exact hlib.2
          · intro hc
            exact absurd (curLib_lt w q hc) (Nat.not_lt.2 hge)
        · intro hm
          rcases hwhere with heq | hge
          · rw [heq] at hm; exact hnodup.1 hm
          · exact absurd (hr.2 q (List.mem_cons_of_mem _ hm)).1 (Nat.not_lt.2 hge)
      exact Full_stable t ((extends_popped h1 h.libStack).trans e2) q hq hcq hfull
    rcases fresh_entry_cases isRoot h h1 r.h lib h.libStack e1 e2 n p hq hn with
      h1n | ⟨h1n, hen⟩ | ⟨h1n, _, hpl⟩
    · refine hl w2 hready ?_ hst n p hq (by simpa using h1n)
      intro q hm
      have hq' := hr.2 q (List.mem_cons_of_mem _ hm)
      have hne : q ≠ lib := fun e => hnodup.1 (by rw [← e]; exact hm)
      rw [cell_popped, hcell q hq'.1 hne, cell_attach_of_ne h lib q hq'.2]
      exact hd q (List.mem_cons_of_mem _ hm)
    · refine keep p (w1.libs n p h1n).1 (Or.inr ?_) (hf we rfl n p h1n hen)
      simpa using (run_fresh_ptrs t fuel).1 _ _ _ _ hrun n p h1n hen
    · subst hpl
      refine keep p (Nat.lt_of_lt_of_le hlib.1 hlen) (Or.inl rfl) ?_
      obtain ⟨fuel', recs, _, hrep, hloop⟩ := fileRun_inv t fuel _ _ _ _ hrun rfl
      have e3 : Extends (alloc (logCall (entered isRoot h p) (libPath t h p)) recs) h1 :=
        (run_extends t fuel').2 _ _ _ _ _ hloop
      have hdeps : (cell h1 p).deps = List.range' h.heap.length recs.length := by
        have := hc1.2 p recs (by simp) hrep
        rw [this, cell_entered, cell_attach_of_ne h p p hlib.2, hd p (List.mem_cons_self _ _)]
        simp
      have hpath : libPath t h1 p = libPath t h p :=
        ((extends_entered isRoot h p hnew).trans e1).libPath_eq t p hlib.1
      refine ⟨fun q hq => ?_, ?_⟩
      · rw [hdeps, List.mem_range'] at hq
        obtain ⟨i, hi, rfl⟩ := hq
        have := e3.len
        simp only [alloc_heap_length, logCall_heap, entered_heap_length] at this
        rw [Nat.one_mul]
        exact Nat.lt_of_lt_of_le (Nat.add_lt_add_left hi _) this
      · rw [hpath, hrep, hdeps]
        have := map_recordOf_range (entered isRoot h p) (libPath t h p) recs h1 e3
        simp only [entered_heap_length] at this
        rw [this]
  · intro fuel path isRoot lib rest h h1 msg _ _ _ _ _ _ _ hst
    cases hst

/-! ## Self-reference records are not registered -/

/-- A record of the loop that gets registered is not a self-reference. -/
theorem run_fresh_nonself (t : Tools) (fuel : Nat) :
    (∀ path isRoot h r, fileRun t fuel path isRoot h r → True) ∧
    (∀ path isRoot ptrs h r, loopRun t fuel path isRoot ptrs h r →
      (∀ p ∈ ptrs, p < h.heap.length) →
      ∀ n p, mapGet r.h.libs n = some p → mapGet h.libs n = none → p ∈ ptrs →
        (cell h p).path ≠ path) := by
  refine collectFile_induct t (fun _ _ _ _ => True)
    (fun path _ ptrs h r => (∀ p ∈ ptrs, p < h.heap.length) →
      ∀ n p, mapGet r.h.libs n = some p → mapGet h.libs n = none → p ∈ ptrs →
        (cell h p).path ≠ path)
    ?_ ?_ ?_ ?_ ?_ ?_ ?_ ?_ fuel
  · intros; trivial
  · intros; trivial
  · intros; trivial
  · intro path isRoot h _ n p _ _ hm
    exact absurd hm (List.not_mem_nil p)
  · intro fuel path isRoot lib rest h r _ hlrun hl hlt n p hq hn hm
    rcases (run_fresh_ptrs t fuel).2 _ _ _ _ _ hlrun n p hq (by simpa using hn) with hr | hge
    · simpa using hl (fun p hm => by simpa using hlt p (List.mem_cons_of_mem _ hm)) n p hq
        (by simpa using hn) hr
    · exact absurd (hlt p hm) (Nat.not_lt.2 (by simpa using hge))
  · intro fuel path isRoot lib rest h r _ _ hlrun hl hlt n p hq hn hm
    rcases (run_fresh_ptrs t fuel).2 _ _ _ _ _ hlrun n p hq (by simpa using hn) with hr | hge
    · simpa using hl (fun p hm => by simpa using hlt p (List.mem_cons_of_mem _ hm)) n p hq
        (by simpa using hn) hr
    · exact absurd (hlt p hm) (Nat.not_lt.2 (by simpa using hge))
  · intro fuel path isRoot lib rest h h1 r hself hnew hrun _ _ hlrun hl hlt n p hq hn hm
    have e1 : Extends (entered isRoot h lib) h1 := (run_extends t fuel).1 _ _ _ _ hrun
    have e2 := (run_extends t fuel).2 _ _ _ _ _ hlrun
    have e := (extends_entered isRoot h lib hnew).trans e1
    rcases fresh_entry_cases isRoot h h1 r.h lib h.libStack e1 e2 n p hq hn with
      h1n | ⟨h1n, hen⟩ | ⟨_, _, hpl⟩
    · rcases (run_fresh_ptrs t fuel).2 _ _ _ _ _ hlrun n p hq (by simpa using h1n) with hr | hge
      · have := hl (fun p hm => Nat.lt_of_lt_of_le (hlt p (List.mem_cons_of_mem _ hm)) e.len)
          n p hq (by simpa using h1n) hr
        rw [cell_popped, e.path p (hlt p hm)] at this
        exact this
      · exact absurd (Nat.lt_of_lt_of_le (hlt p hm) e.len) (Nat.not_lt.2 (by simpa using hge))
    · have hge := (run_fresh_ptrs t fuel).1 _ _ _ _ hrun n p h1n hen
      exact absurd (hlt p hm) (Nat.not_lt.2 (by simpa using hge))
    · rw [hpl]; exact hself
  · intro fuel path isRoot lib rest h h1 msg hself hnew hrun _ hlt n p hq hn hm
    have e1 : Extends (entered isRoot h lib) h1 := (run_extends t fuel).1 _ _ _ _ hrun
    rcases fresh_entry_cases isRoot h h1 h1 lib h1.libStack e1 (Extends.refl _) n p hq hn with
      h1n | ⟨h1n, hen⟩ | ⟨_, _, hpl⟩
    · rw [h1n] at hq; cases hq
    · have hge := (run_fresh_ptrs t fuel).1 _ _ _ _ hrun n p h1n hen
      exact absurd (hlt p hm) (Nat.not_lt.2 (by simpa using hge))
    · rw [hpl]; exact hself

/-- After a run without error, every library that the run registered has a
dependency list made of objects allocated during the run, none of which is
both a self-reference of the library and registered. -/
theorem run_noself (t : Tools) (fuel : Nat) :
    (∀ path isRoot h r, fileRun t fuel path isRoot h r → WF h → r.st = status.nil →
      ∀ n p, mapGet r.h.libs n = some p → mapGet h.libs n = none →
        NoSelfIn t r.h p ∧ ∀ q ∈ (cell r.h p).deps, h.heap.length ≤ q) ∧
    (∀ path isRoot ptrs h r, loopRun t fuel path isRoot ptrs h r → WF h →
      loopReady h ptrs → (∀ p ∈ ptrs, (cell h p).deps = []) → r.st = status.nil →
      ∀ n p, mapGet r.h.libs n = some p → mapGet h.libs n = none →
        NoSelfIn t r.h p ∧ ∀ q ∈ (cell r.h p).deps, h.heap.length ≤ q) := by
  refine collectFile_induct t
    (fun _ _ h r => WF h → r.st = status.nil →
      ∀ n p, mapGet r.h.libs n = some p → mapGet h.libs n = none →
        NoSelfIn t r.h p ∧ ∀ q ∈ (cell r.h p).deps, h.heap.length ≤ q)
    (fun _ _ ptrs h r => WF h →
      loopReady h ptrs → (∀ p ∈ ptrs, (cell h p).deps = []) → r.st = status.nil →
      ∀ n p, mapGet r.h.libs n = some p → mapGet h.libs n = none →
        NoSelfIn t r.h p ∧ ∀ q ∈ (cell r.h p).deps, h.heap.length ≤ q)
    ?_ ?_ ?_ ?_ ?_ ?_ ?_ ?_ fuel
  · intro path isRoot h e _ _ hst; cases hst
  · intro path isRoot h out e _ _ _ hst; cases hst
  · intro fuel path isRoot h recs r _ _ hl w hst n p hq hn
    have := hl (WF_alloc (WF_logCall w path) recs) (loopReady_range w path recs) ?_ hst n p hq
      (by simpa using hn)
    · refine ⟨this.1, fun q hqd => Nat.le_trans ?_ (this.2 q hqd)⟩
      simp
    · intro q hm
      rw [List.mem_range'] at hm
      obtain ⟨i, hi, rfl⟩ := hm
      have hget : recs[i]? = some recs[i] := List.getElem?_eq_getElem hi
      have hc := cell_alloc_ge (logCall h path) recs i recs[i] hget
      simp only [logCall_heap] at hc
      rw [Nat.one_mul, hc]
  · intro path isRoot h _ _ _ _ n p hq hn
    rw [hn] at hq; cases hq
  · intro fuel path isRoot lib rest h r _ _ hl w hr hd hst n p hq hn
    have := hl (WF_attach w lib) (loopReady_tail hr (by simp) (by simp)) ?_ hst n p hq
      (by simpa using hn)
    · simpa using this
    · intro q hm
      have hq' := hr.2 q (List.mem_cons_of_mem _ hm)
      rw [cell_attach_of_ne h lib q hq'.2]
      exact hd q (List.mem_cons_of_mem _ hm)
  · intro fuel path isRoot lib rest h r _ _ _ hl w hr hd hst n p hq hn
    have hlib := (hr.2 lib (List.mem_cons_self _ _)).1
    have := hl (WF_noteRoot (WF_attach w lib) isRoot lib (by simpa using hlib))
      (loopReady_tail hr (by simp) (by simp)) ?_ hst n p hq (by simpa using hn)
    · simpa using this
    · intro q hm
      have hq' := hr.2 q (List.mem_cons_of_mem _ hm)
      rw [cell_noteRoot, cell_attach_of_ne h lib q hq'.2]
      exact hd q (List.mem_cons_of_mem _ hm)
  · intro fuel path isRoot lib rest h h1 r _ hnew hrun hf hs hlrun hl w hr hd hst n p hq hn
    have hlib := hr.2 lib (List.mem_cons_self _ _)
    have hnodup := List.nodup_cons.1 hr.1
    have we := WF_entered w isRoot lib hlib.1
    have w1 : WF h1 := (run_WF t fuel).1 _ _ _ _ hrun we
    have w2 := WF_popped w1 _ lib hs
    have e1 : Extends (entered isRoot h lib) h1 := (run_extends t fuel).1 _ _ _ _ hrun
    have e2 := (run_extends t fuel).2 _ _ _ _ _ hlrun
    have e12 := (extends_popped h1 h.libStack).trans e2
    have hlen : h.heap.length ≤ h1.heap.length := by simpa using e1.len
    have hcur2 : curLib (popped h1 h.libStack) = curLib h := rfl
    have hready : loopReady (popped h1 h.libStack) rest := loopReady_tail hr hlen hcur2
    have hc1 := ((run_cells t fuel).1 _ _ _ _ hrun we rfl)
    have hc2 := ((run_cells t fuel).2 _ _ _ _ _ hlrun w2 hready hst).1
    have hcell : ∀ q, q < h.heap.length → q ≠ lib → cell h1 q = cell (attach h lib) q := by
      intro q hq hne
      have := hc1.1 q (by simpa using hq) (by simpa using fun e => hne e.symm)
      simpa using this
    -- a library finished before the rest of the loop keeps its list, and what the
    -- rest of the loop registers lies outside that list
    have keep : ∀ q, q < h1.heap.length → (q = lib ∨ h.heap.length ≤ q) →
        (∀ d ∈ (cell h1 q).deps, h.heap.length ≤ d ∧ d < h1.heap.length) →
        NoSelfIn t h1 q →
        NoSelfIn t r.h q ∧ ∀ d ∈ (cell r.h q).deps, h.heap.length ≤ d := by
      intro q hq hwhere hbounds hns
      have hcq : cell r.h q = cell h1 q := by
        have := hc2 q (by simpa using hq) ?_ ?_
        · simpa using this
        · rw [hcur2]
          rcases hwhere with heq | hge
          · rw [heq]; exact hlib.2
          · intro hc
            exact absurd (curLib_lt w q hc) (Nat.not_lt.2 hge)
        · intro hm
          rcases hwhere with heq | hge
          · rw [heq] at hm; exact hnodup.1 hm
          · exact absurd (hr.2 q (List.mem_cons_of_mem _ hm)).1 (Nat.not_lt.2 hge)
      refine ⟨fun m d hmd hdd => ?_, fun d hdd => ?_⟩
      · rw [hcq] at hdd
        have hb := hbounds d hdd
        rw [e12.path d hb.2, e12.libPath_eq t q hq]
        cases h1m : mapGet h1.libs m with
        | some d' =>
          have := e12.libs m d' h1m
          rw [hmd] at this
          rw [← Option.some.inj this] at h1m
          exact hns m d h1m hdd
        | none =>
          exfalso
          rcases (run_fresh_ptrs t fuel).2 _ _ _ _ _ hlrun m d hmd (by simpa using h1m) with
            hin | hge
          · exact absurd (hr.2 d (List.mem_cons_of_mem _ hin)).1 (Nat.not_lt.2 hb.1)
          · exact absurd hb.2 (Nat.not_lt.2 (by simpa using hge))
      · rw [hcq] at hdd
        exact (hbounds d hdd).1
    rcases fresh_entry_cases isRoot h h1 r.h lib h.libStack e1 e2 n p hq hn with
      h1n | ⟨h1n, hen⟩ | ⟨h1n, _, hpl⟩
    · have := hl w2 hready ?_ hst n p hq (by simpa using h1n)
      · exact ⟨this.1, fun d hd => Nat.le_trans hlen (by simpa using this.2 d hd)⟩
      · intro q hm
        have hq' := hr.2 q (List.mem_cons_of_mem _ hm)
        have hne : q ≠ lib := fun e => hnodup.1 (by rw [← e]; exact hm)
        rw [cell_popped, hcell q hq'.1 hne, cell_attach_of_ne h lib q hq'.2]
        exact hd q (List.mem_cons_of_mem _ hm)
    · have hfull : Full t h1 p := (run_full t fuel).1 _ _ _ _ hrun we rfl n p h1n hen
      have hpf := hf we rfl n p h1n hen
      refine keep p (w1.libs n p h1n).1 (Or.inr ?_) ?_ hpf.1
      · simpa using (run_fresh_ptrs t fuel).1 _ _ _ _ hrun n p h1n hen
      · intro d hdd
        exact ⟨by simpa using hpf.2 d hdd, hfull.1 d hdd⟩
    · subst hpl
      obtain ⟨fuel', recs, _, hrep, hloop⟩ := fileRun_inv t fuel _ _ _ _ hrun rfl
      have e3 : Extends (alloc (logCall (entered isRoot h p) (libPath t h p)) recs) h1 :=
        (run_extends t fuel').2 _ _ _ _ _ hloop
      have hdeps : (cell h1 p).deps = List.range' h.heap.length recs.length := by
        have := hc1.2 p recs (by simp) hrep
        rw [this, cell_entered, cell_attach_of_ne h p p hlib.2, hd p (List.mem_cons_self _ _)]
        simp
      have hpath : libPath t h1 p = libPath t h p :=
        ((extends_entered isRoot h p hnew).trans e1).libPath_eq t p hlib.1
      have hrange : ∀ d ∈ List.range' h.heap.length recs.length,
          d < (alloc (logCall (entered isRoot h p) (libPath t h p)) recs).heap.length := by
        intro d hdd
        have := range_lt_alloc (entered isRoot h p) (libPath t h p) recs d
          (by simpa using hdd)
        exact this
      refine keep p (Nat.lt_of_lt_of_le hlib.1 hlen) (Or.inl rfl) ?_ ?_
      · intro d hdd
        rw [hdeps] at hdd
        refine ⟨?_, Nat.lt_of_lt_of_le (hrange d hdd) e3.len⟩
        rw [List.mem_range'] at hdd
        obtain ⟨i, _, rfl⟩ := hdd
        exact Nat.le_add_right _ _
      · intro m d hmd hdd
        rw [hdeps] at hdd
        rw [hpath, e3.path d (hrange d hdd)]
        cases ham : mapGet (entered isRoot h p).libs m with
        | some d' =>
          exfalso
          have := e1.libs m d' ham
          rw [hmd] at this
          rw [← Option.some.inj this] at ham
          have hlt := (we.libs m d ham).1
          rw [List.mem_range'] at hdd
          obtain ⟨i, _, rfl⟩ := hdd
          simp only [entered_heap_length] at hlt
          exact absurd hlt (Nat.not_lt.2 (Nat.le_add_right _ _))
        | none =>
          exact (run_fresh_nonself t fuel').2 _ _ _ _ _ hloop
            (fun d hd => hrange d (by simpa using hd)) m d hmd
            (by simpa using ham) (by simpa using hdd)
  · intro fuel path isRoot lib rest h h1 msg _ _ _ _ _ _ _ hst
    cases hst

/-! ## Reachability -/

theorem Reach_mono (t : Tools) {h h' : harvester} (e : Extends h h') (w : WF h) (n : String)
    (hr : Reach t h n) : Reach t h' n := by
  induction hr with
  | root recs r hrep hmem hne =>
    exact Reach.root recs r (by rw [e.root]; exact hrep) hmem (by rw [e.root]; exact hne)
  | step a p recs r _ hget hrep hmem hne ih =>
    have hp := (w.libs a p hget).1
    exact Reach.step a p recs r ih (e.libs a p hget)
      (by rw [e.libPath_eq t p hp]; exact hrep) hmem (by rw [e.libPath_eq t p hp]; exact hne)

theorem Sound_of_frame (t : Tools) {h h' : harvester} (e : Extends h h') (w : WF h)
    (hlibs : h'.libs = h.libs) (hs : Sound t h) : Sound t h' :=
  fun n hn => Reach_mono t e w n (hs n (by rw [← hlibs]; exact hn))

/-- Runs register reachable names only. -/
theorem run_sound (t : Tools) (fuel : Nat) :
    (∀ path isRoot h r, fileRun t fuel path isRoot h r → WF h → Sound t h →
      (∀ recs r', report t path = some recs → r' ∈ recs → r'.path ≠ path →
        Reach t h r'.name) → Sound t r.h) ∧
    (∀ path isRoot ptrs h r, loopRun t fuel path isRoot ptrs h r → WF h → Sound t h →
      (∀ p ∈ ptrs, p < h.heap.length ∧
        ((cell h p).path ≠ path → Reach t h (cell h p).name)) → Sound t r.h) := by
  refine collectFile_induct t
    (fun path _ h r => WF h → Sound t h →
      (∀ recs r', report t path = some recs → r' ∈ recs → r'.path ≠ path →
        Reach t h r'.name) → Sound t r.h)
    (fun path _ ptrs h r => WF h → Sound t h →
      (∀ p ∈ ptrs, p < h.heap.length ∧
        ((cell h p).path ≠ path → Reach t h (cell h p).name)) → Sound t r.h)
    ?_ ?_ ?_ ?_ ?_ ?_ ?_ ?_ fuel
  · intro path isRoot h e _ w hs _
    exact Sound_of_frame t (extends_logCall h path) w rfl hs
  · intro path isRoot h out e _ _ w hs _
    exact Sound_of_frame t (extends_logCall h path) w rfl hs
  · intro fuel path isRoot h recs r hrep _ hl w hs hsrc
    have e := (extends_logCall h path).trans (extends_alloc (logCall h path) recs)
    refine hl (WF_alloc (WF_logCall w path) recs) (Sound_of_frame t e w rfl hs) ?_
    intro p hp
    refine ⟨range_lt_alloc h path recs p hp, fun hne => ?_⟩
    obtain ⟨r', hr', hname, hpath⟩ := cell_alloc_range h path recs p hp
    rw [hname]
    exact Reach_mono t e w _ (hsrc recs r' hrep hr' (by rw [← hpath]; exact hne))
  · intro path isRoot h _ hs _; exact hs
  · intro fuel path isRoot lib rest h r _ _ hl w hs hp
    have e := extends_attach h lib
    refine hl (WF_attach w lib) (Sound_of_frame t e w (by simp) hs) ?_
    intro p hm
    have := hp p (List.mem_cons_of_mem _ hm)
    refine ⟨by simpa using this.1, fun hne => ?_⟩
    rw [cell_attach_name]
    exact Reach_mono t e w _ (this.2 (by simpa using hne))
  · intro fuel path isRoot lib rest h r _ _ _ hl w hs hp
    have e := (extends_attach h lib).trans (extends_noteRoot isRoot _ lib)
    have hlib := (hp lib (List.mem_cons_self _ _)).1
    refine hl (WF_noteRoot (WF_attach w lib) isRoot lib (by simpa using hlib))
      (Sound_of_frame t e w (by simp) hs) ?_
    intro p hm
    have := hp p (List.mem_cons_of_mem _ hm)
    refine ⟨by simpa using this.1, fun hne => ?_⟩
    rw [cell_noteRoot, cell_attach_name]
    exact Reach_mono t e w _ (this.2 (by simpa using hne))
  · intro fuel path isRoot lib rest h h1 r hself hnew hrun hf hs1 _ hl w hs hp
    have hlib := hp lib (List.mem_cons_self _ _)
    have e0 := extends_entered isRoot h lib hnew
    have we := WF_entered w isRoot lib hlib.1
    have w1 : WF h1 := (run_WF t fuel).1 _ _ _ _ hrun we
    have e1 : Extends (entered isRoot h lib) h1 := (run_extends t fuel).1 _ _ _ _ hrun
    have hreach : Reach t (entered isRoot h lib) (cell h lib).name :=
      Reach_mono t e0 w _ (hlib.2 hself)
    have hse : Sound t (entered isRoot h lib) := by
      intro n hn
      rw [entered_libs, mem_mapKeys_mapSet] at hn
      rcases hn with hn | hn
      · rw [hn]; exact hreach
      · exact Reach_mono t e0 w n (hs n hn)
    have hsrc : ∀ recs r', report t (libPath t h lib) = some recs → r' ∈ recs →
        r'.path ≠ libPath t h lib → Reach t (entered isRoot h lib) r'.name := by
      intro recs r' hrep hr' hne
      have hpath : libPath t (entered isRoot h lib) lib = libPath t h lib :=
        e0.libPath_eq t lib hlib.1
      exact Reach.step (cell h lib).name lib recs r' hreach
        (by simp [mapGet_mapSet_self]) (by rw [hpath]; exact hrep) hr'
        (by rw [hpath]; exact hne)
    have hs1' : Sound t h1 := hf we hse hsrc
    have e2 := extends_popped h1 h.libStack
    refine hl (WF_popped w1 _ lib hs1) (Sound_of_frame t e2 w1 rfl hs1') ?_
    intro p hm
    have := hp p (List.mem_cons_of_mem _ hm)
    have e := (e0.trans e1).trans e2
    refine ⟨Nat.lt_of_lt_of_le this.1 e.len, fun hne => ?_⟩
    rw [e.name p this.1]
    exact Reach_mono t e w _ (this.2 (by rw [← e.path p this.1]; exact hne))
  · intro fuel path isRoot lib rest h h1 msg hself hnew hrun hf w hs hp
    have hlib := hp lib (List.mem_cons_self _ _)
    have e0 := extends_entered isRoot h lib hnew
    have we := WF_entered w isRoot lib hlib.1
    have hreach : Reach t (entered isRoot h lib) (cell h lib).name :=
      Reach_mono t e0 w _ (hlib.2 hself)
    refine hf we ?_ ?_
    · intro n hn
      rw [entered_libs, mem_mapKeys_mapSet] at hn
      rcases hn with hn | hn
      · rw [hn]; exact hreach
      · exact Reach_mono t e0 w n (hs n hn)
    · intro recs r' hrep hr' hne
      have hpath : libPath t (entered isRoot h lib) lib = libPath t h lib :=
        e0.libPath_eq t lib hlib.1
      exact Reach.step (cell h lib).name lib recs r' hreach
        (by simp [mapGet_mapSet_self]) (by rw [hpath]; exact hrep) hr'
        (by rw [hpath]; exact hne)

/-! ## The inspector's call log -/

theorem libPaths_of_frame (t : Tools) {h h' : harvester} (e : Extends h h') (w : WF h)
    (hlibs : h'.libs = h.libs) : libPaths t h' = libPaths t h := by
  unfold libPaths
  rw [hlibs]
  apply List.map_congr_left
  intro a ha
  obtain ⟨k, v⟩ := a
  have hget := mapGet_of_mem h.libs k v w.libsKeys ha
  exact e.libPath_eq t v (w.libs k v hget).1

theorem libPaths_entered (t : Tools) (isRoot : Bool) {h : harvester} (w : WF h) (lib : Ptr)
    (hlib : lib < h.heap.length) (hnew : mapGet h.libs (cell h lib).name = none) :
    libPaths t (entered isRoot h lib) = libPaths t h ++ [libPath t h lib] := by
  have e := extends_entered isRoot h lib hnew
  unfold libPaths
  rw [entered_libs, mapSet_of_none _ _ _ hnew, List.map_append]
  congr 1
  · apply List.map_congr_left
    intro a ha
    obtain ⟨k, v⟩ := a
    have hget := mapGet_of_mem h.libs k v w.libsKeys ha
    exact e.libPath_eq t v (w.libs k v hget).1
  · simp [e.libPath_eq t lib hlib]

/-- Between runs the call log lists the root and then the registered libraries,
each at the path `libPath` gives it. -/
theorem run_logged (t : Tools) (fuel : Nat) :
    (∀ path isRoot h r, fileRun t fuel path isRoot h r → WF h →
      h.calls ++ [path] = h.root :: libPaths t h → Logged t r.h) ∧
    (∀ path isRoot ptrs h r, loopRun t fuel path isRoot ptrs h r → WF h →
      (∀ p ∈ ptrs, p < h.heap.length) → Logged t h → Logged t r.h) := by
  refine collectFile_induct t
    (fun path _ h r => WF h → h.calls ++ [path] = h.root :: libPaths t h → Logged t r.h)
    (fun _ _ ptrs h r => WF h → (∀ p ∈ ptrs, p < h.heap.length) → Logged t h → Logged t r.h)
    ?_ ?_ ?_ ?_ ?_ ?_ ?_ ?_ fuel
  · intro path isRoot h e _ w hc
    unfold Logged
    rw [libPaths_of_frame t (extends_logCall h path) w rfl]
    exact hc
  · intro path isRoot h out e _ _ w hc
    unfold Logged
    rw [libPaths_of_frame t (extends_logCall h path) w rfl]
    exact hc
  · intro fuel path isRoot h recs r _ _ hl w hc
    refine hl (WF_alloc (WF_logCall w path) recs) (range_lt_alloc h path recs) ?_
    unfold Logged
    rw [libPaths_of_frame t ((extends_logCall h path).trans (extends_alloc _ recs)) w rfl]
    exact hc
  · intro path isRoot h _ _ hc; exact hc
  · intro fuel path isRoot lib rest h r _ _ hl w hp hc
    refine hl (WF_attach w lib)
      (fun p hm => by simpa using hp p (List.mem_cons_of_mem _ hm)) ?_
    unfold Logged
    rw [libPaths_of_frame t (extends_attach h lib) w (by simp)]
    simpa using hc
  · intro fuel path isRoot lib rest h r _ _ _ hl w hp hc
    have hlib := hp lib (List.mem_cons_self _ _)
    refine hl (WF_noteRoot (WF_attach w lib) isRoot lib (by simpa using hlib))
      (fun p hm => by simpa using hp p (List.mem_cons_of_mem _ hm)) ?_
    unfold Logged
    rw [libPaths_of_frame t ((extends_attach h lib).trans (extends_noteRoot isRoot _ lib)) w
      (by simp)]
    simpa using hc
  · intro fuel path isRoot lib rest h h1 r _ hnew hrun hf hs _ hl w hp hc
    have hlib := hp lib (List.mem_cons_self _ _)
    have we := WF_entered w isRoot lib hlib
    have w1 : WF h1 := (run_WF t fuel).1 _ _ _ _ hrun we
    have e1 : Extends (entered isRoot h lib) h1 := (run_extends t fuel).1 _ _ _ _ hrun
    have hlen : h.heap.length ≤ h1.heap.length := by simpa using e1.len
    have h1l : Logged t h1 := by
      refine hf we ?_
      rw [libPaths_entered t isRoot w lib hlib hnew, entered_calls, entered_root, hc]
      rfl
    refine hl (WF_popped w1 _ lib hs)
      (fun p hm => Nat.lt_of_lt_of_le (hp p (List.mem_cons_of_mem _ hm)) hlen) ?_
    unfold Logged
    rw [libPaths_of_frame t (extends_popped h1 h.libStack) w1 rfl]
    exact h1l
  · intro fuel path isRoot lib rest h h1 msg _ hnew hrun hf w hp hc
    have hlib := hp lib (List.mem_cons_self _ _)
    refine hf (WF_entered w isRoot lib hlib) ?_
    rw [libPaths_entered t isRoot w lib hlib hnew, entered_calls, entered_root, hc]
    rfl

/-! ## A successful `collect` on a new harvester -/

theorem collect_inv (t : Tools) (fuel : Nat) (root : String) (r : Result)
    (hrun : collect t fuel (newHarvester root) = some r) (hst : r.st = status.nil) :
    ∃ fuel' recs, fuel = fuel' + 1 ∧ report t root = some recs ∧
      loopRun t fuel' root true (List.range' 0 recs.length) (rootLoopState root recs) r :=
  fileRun_inv t fuel root true (newHarvester root) r hrun hst

theorem collect_extends (t : Tools) (fuel : Nat) (root : String) (r : Result)
    (hrun : collect t fuel (newHarvester root) = some r) : Extends (newHarvester root) r.h :=
  (run_extends t fuel).1 _ _ _ _ hrun

theorem collect_root (t : Tools) (fuel : Nat) (root : String) (r : Result)
    (hrun : collect t fuel (newHarvester root) = some r) : r.h.root = root :=
  (collect_extends t fuel root r hrun).root

theorem collect_WF (t : Tools) (fuel : Nat) (root : String) (r : Result)
    (hrun : collect t fuel (newHarvester root) = some r) : WF r.h :=
  (run_WF t fuel).1 _ _ _ _ hrun (WF_newHarvester root)

theorem collect_closed (t : Tools) (fuel : Nat) (root : String) (r : Result)
    (hrun : collect t fuel (newHarvester root) = some r) (hst : r.st = status.nil) :
    closedAt t r.h root ∧
    ∀ n p, mapGet r.h.libs n = some p → closedAt t r.h (libPath t r.h p) := by
  have := (run_closed t fuel).1 _ _ _ _ hrun (WF_newHarvester root) hst
  exact ⟨this.1, fun n p hp => this.2 n p hp rfl⟩

theorem collect_full (t : Tools) (fuel : Nat) (root : String) (r : Result)
    (hrun : collect t fuel (newHarvester root) = some r) (hst : r.st = status.nil) :
    ∀ n p, mapGet r.h.libs n = some p → Full t r.h p :=
  fun n p hp => (run_full t fuel).1 _ _ _ _ hrun (WF_newHarvester root) hst n p hp rfl

theorem collect_sound (t : Tools) (fuel : Nat) (root : String) (r : Result)
    (hrun : collect t fuel (newHarvester root) = some r) : Sound t r.h := by
  refine (run_sound t fuel).1 _ _ _ _ hrun (WF_newHarvester root) ?_ ?_
  · intro n hn; simp [newHarvester, mapKeys] at hn
  · intro recs r' hrep hr' hne
    exact Reach.root recs r' hrep hr' hne

theorem collect_logged (t : Tools) (fuel : Nat) (root : String) (r : Result)
    (hrun : collect t fuel (newHarvester root) = some r) : Logged t r.h := by
  refine (run_logged t fuel).1 _ _ _ _ hrun (WF_newHarvester root) ?_
  simp [newHarvester, libPaths]

/-- After a successful `collect`, reachable names are registered. -/
theorem collect_complete (t : Tools) (fuel : Nat) (root : String) (r : Result)
    (hrun : collect t fuel (newHarvester root) = some r) (hst : r.st = status.nil)
    (n : String) (hn : Reach t r.h n) : n ∈ mapKeys r.h.libs := by
  have hc := collect_closed t fuel root r hrun hst
  have hroot := collect_root t fuel root r hrun
  induction hn with
  | root recs rec hrep hmem hne =>
    rw [hroot] at hrep hne
    exact hc.1 recs rec hrep hmem hne
  | step a p recs rec _ hget hrep hmem hne _ =>
    exact hc.2 a p hget recs rec hrep hmem hne

/-- The cells of the root's report, in the state the root loop starts from and
in every later state. -/
theorem cell_rootLoopState (root : String) (recs : List record) (i : Nat) (rec : record)
    (hi : recs[i]? = some rec) {h' : harvester} (e : Extends (rootLoopState root recs) h') :
    (cell h' i).name = rec.name ∧ (cell h' i).path = rec.path := by
  have hc := cell_alloc_ge (logCall (newHarvester root) root) recs i rec hi
  have h0 : (logCall (newHarvester root) root).heap.length + i = i := by
    simp [newHarvester]
  rw [h0] at hc
  have hlt : i < (rootLoopState root recs).heap.length := by
    have := (List.getElem?_eq_some_iff.1 hi).1
    simpa [rootLoopState, newHarvester] using this
  have hc' : cell (rootLoopState root recs) i = ⟨rec.name, rec.path, []⟩ := hc
  rw [e.name i hlt, e.path i hlt, hc']
  exact ⟨rfl, rfl⟩

theorem collect_deps (t : Tools) (fuel : Nat) (root : String) (r : Result)
    (hrun : collect t fuel (newHarvester root) = some r) (hst : r.st = status.nil) :
    ∃ recs, report t root = some recs ∧ Extends (rootLoopState root recs) r.h ∧
      r.h.deps = noted r.h root (List.range' 0 recs.length) [] := by
  obtain ⟨fuel', recs, _, hrep, hloop⟩ := collect_inv t fuel root r hrun hst
  have e := (run_extends t fuel').2 _ _ _ _ _ hloop
  have hlt : ∀ p ∈ List.range' 0 recs.length, p < (rootLoopState root recs).heap.length := by
    intro p hp
    have := range_lt_alloc (newHarvester root) root recs p (by simpa [newHarvester] using hp)
    exact this
  refine ⟨recs, hrep, e, ?_⟩
  rw [noted_of_extends e root _ hlt]
  exact (run_deps_root t fuel').2 _ _ _ _ _ hloop rfl hlt hst

theorem mem_range_zero (k p : Nat) : p ∈ List.range' 0 k ↔ p < k := by
  rw [List.mem_range']
  constructor
  · rintro ⟨i, hi, rfl⟩; simpa using hi
  · intro hp; exact ⟨p, hp, by simp⟩

/-- The keys of `deps` after a successful `collect`: the names of the records of
the root's report that are not self-references. -/
theorem collect_deps_keys (t : Tools) (fuel : Nat) (root : String) (r : Result)
    (hrun : collect t fuel (newHarvester root) = some r) (hst : r.st = status.nil) :
    ∃ recs, report t root = some recs ∧
      ∀ n, n ∈ mapKeys r.h.deps ↔ ∃ rec ∈ recs, rec.path ≠ root ∧ rec.name = n := by
  obtain ⟨recs, hrep, e, hdeps⟩ := collect_deps t fuel root r hrun hst
  refine ⟨recs, hrep, fun n => ?_⟩
  rw [hdeps, mem_mapKeys_noted]
  constructor
  · rintro (hm | ⟨p, hp, hne, hname⟩)
    · simp [mapKeys] at hm
    · rw [mem_range_zero] at hp
      have hget : recs[p]? = some recs[p] := List.getElem?_eq_getElem hp
      have hc := cell_rootLoopState root recs p recs[p] hget e
      exact ⟨recs[p], List.getElem_mem hp, by rw [← hc.2]; exact hne, by rw [← hc.1]; exact hname⟩
  · rintro ⟨rec, hmem, hne, hname⟩
    obtain ⟨i, hi, hget⟩ := List.getElem_of_mem hmem
    have hget2 : recs[i]? = some rec := by rw [List.getElem?_eq_getElem hi, hget]
    have hc := cell_rootLoopState root recs i rec hget2 e
    exact Or.inr ⟨i, (mem_range_zero _ _).2 hi, by rw [hc.2]; exact hne, by rw [hc.1]; exact hname⟩

/-! ## More fuel does not change the result -/

theorem collectLoop_mono (t : Tools) (f g : String → harvester → Option Result)
    (hfg : ∀ p h r, f p h = some r → g p h = some r) (path : String) (isRoot : Bool) :
    ∀ ptrs h r, collectLoop t f path isRoot ptrs h = some r →
      collectLoop t g path isRoot ptrs h = some r := by
  intro ptrs
  induction ptrs with
  | nil => intro h r hr; simpa [collectLoop] using hr
  | cons lib rest ih =>
    intro h r hr
    rw [collectLoop] at hr ⊢
    by_cases hself : (cell (attach h lib) lib).path = path
    · rw [if_pos hself] at hr ⊢
      exact ih _ _ hr
    · rw [if_neg hself] at hr ⊢
      by_cases hnew : mapGet (noteRoot isRoot (attach h lib) lib).libs
          (cell (noteRoot isRoot (attach h lib) lib) lib).name = none
      · rw [if_pos hnew] at hr ⊢
        simp only [collectLib] at hr ⊢
        cases hc : f (libPath t (pushLib (register (noteRoot isRoot (attach h lib) lib) lib) lib)
            lib) (pushLib (register (noteRoot isRoot (attach h lib) lib) lib) lib) with
        | none => rw [hc] at hr; simp at hr
        | some c =>
          rw [hc] at hr
          rw [hfg _ _ _ hc]
          obtain ⟨h1, e⟩ := c
          cases e with
          | nil =>
            simp only at hr ⊢
            cases hp : popLib h1 with
            | none => rw [hp] at hr; exact hr
            | some qh =>
              rw [hp] at hr
              obtain ⟨q, h2⟩ := qh
              simp only at hr ⊢
              exact ih _ _ hr
          | err msg => exact hr
          | panic => exact hr
      · rw [if_neg hnew] at hr ⊢
        exact ih _ _ hr

theorem collectFile_fuel_succ (t : Tools) :
    ∀ fuel path isRoot h r, collectFile t fuel path isRoot h = some r →
      collectFile t (fuel + 1) path isRoot h = some r := by
  intro fuel
  induction fuel with
  | zero => intro path isRoot h r hr; simp [collectFile] at hr
  | succ fuel ih =>
    intro path isRoot h r hr
    rw [collectFile] at hr ⊢
    cases hx : t.oToolExec path with
    | error e => rw [hx] at hr; exact hr
    | ok out =>
      rw [hx] at hr
      simp only at hr ⊢
      cases hy : t.oToolParse out with
      | error e => rw [hy] at hr; exact hr
      | ok recs =>
        rw [hy] at hr
        simp only at hr ⊢
        exact collectLoop_mono t _ _ (fun p h1 r1 h => ih p false h1 r1 h) _ _ _ _ _ hr

/-- A result obtained with some fuel is the result with any larger fuel. -/
theorem collect_fuel_mono (t : Tools) (fuel fuel' : Nat) (hle : fuel ≤ fuel') (h : harvester)
    (r : Result) (hrun : collect t fuel h = some r) : collect t fuel' h = some r := by
  induction hle with
  | refl => exact hrun
  | step _ ih => exact collectFile_fuel_succ t _ _ _ _ _ ih

/-! ## The scenarios -/

theorem report_toolsOf (table : List (String × List record)) (dir path : String) :
    report (toolsOf table dir) path = table.lookup path := by
  unfold report toolsOf
  simp only
  cases h : table.lookup path with
  | none => rfl
  | some recs => simp [h]

theorem lookup_mem (table : List (String × List record)) (path : String) (recs : List record)
    (h : table.lookup path = some recs) : (path, recs) ∈ table := by
  induction table with
  | nil => simp at h
  | cons a table ih =>
    obtain ⟨k, v⟩ := a
    rw [List.lookup_cons] at h
    by_cases hk : path = k
    · simp [hk] at h
      simp [hk, h]
    · have : (path == k) = false := by simpa using hk
      rw [this] at h
      exact List.mem_cons_of_mem _ (ih h)

theorem namesWithin_toolsOf (table : List (String × List record)) (dir : String)
    (U : List String) (hU : ∀ e ∈ table, ∀ r ∈ e.2, r.name ∈ U) :
    namesWithin (toolsOf table dir) U := by
  intro path recs r hrep hr
  rw [report_toolsOf] at hrep
  exact hU _ (lookup_mem table path recs hrep) r hr

theorem cyc_run : collect (toolsOf cycTable "/opt/app") 3 (newHarvester "/opt/app/app")
    = some ⟨cycFinal, status.nil⟩ := by
  decide

theorem diamond_run : collect (toolsOf diamondTable "/opt/app") 3 (newHarvester "/opt/app/app")
    = some ⟨diamondFinal, status.nil⟩ := by
  decide

theorem e2e_run : collect (toolsOf e2eTable "/opt/app") 3 (newHarvester "/opt/app/app")
    = some ⟨e2eFinal, status.nil⟩ := by
  decide

/-! ## The claims -/

theorem count_keys_eq_one {h : harvester} (w : WF h) (n : String) (hn : n ∈ mapKeys h.libs) :
    (mapKeys h.libs).count n = 1 :=
  List.count_eq_one_of_mem w.libsKeys hn

theorem unseen_le_length (U : List String) (h : harvester) : unseen U h ≤ U.length := by
  unfold unseen
  exact Nat.le_trans (Finset.card_le_card Finset.sdiff_subset) (List.toFinset_card_le U)

/-- C1: when the reports mention only the names of a finite list `U`, `collect`
returns with any fuel above the length of `U`, cyclic graphs included; and
when it succeeds, for a reachable library `A` whose report declares `B` while
the report of `B` declares `A`, `libs` holds exactly one entry for `A` and
exactly one for `B`. -/
theorem C1_collect_terminates_on_cycles (t : Tools) (U : List String)
    (hU : namesWithin t U) (root : String) (fuel : Nat) (hfuel : U.length < fuel) :
    ∃ r, collect t fuel (newHarvester root) = some r ∧
      (r.st = status.nil → ∀ A B, Reach t r.h A → declares t r.h A B → declares t r.h B A →
        (mapKeys r.h.libs).count A = 1 ∧ (mapKeys r.h.libs).count B = 1) := by
  obtain ⟨r, hrun⟩ := collectFile_returns t U hU fuel root true (newHarvester root)
    (Nat.lt_of_le_of_lt (unseen_le_length U _) hfuel)
  refine ⟨r, hrun, fun hst A B hA hAB _ => ?_⟩
  have w := collect_WF t fuel root r hrun
  have hAin := collect_complete t fuel root r hrun hst A hA
  obtain ⟨p, hp⟩ := (mem_mapKeys_iff _ _).1 hAin
  obtain ⟨recs, rec, hrep, hmem, hname, hne⟩ := hAB p hp
  have hBin : B ∈ mapKeys r.h.libs := by
    rw [← hname]
    exact (collect_closed t fuel root r hrun hst).2 A p hp recs rec hrep hmem hne
  exact ⟨count_keys_eq_one w A hAin, count_keys_eq_one w B hBin⟩

/-- Witness of C1 on the cycle `app → libA → libB → libA`, with four units of
fuel for three names. -/
theorem C1_collect_terminates_on_cycles_witness :
    namesWithin (toolsOf cycTable "/opt/app") ["app", "libA.dylib", "libB.dylib"] ∧
    ["app", "libA.dylib", "libB.dylib"].length < 4 ∧
    ∃ r, collect (toolsOf cycTable "/opt/app") 4 (newHarvester "/opt/app/app") = some r ∧
      (r.st = status.nil → ∀ A B, Reach (toolsOf cycTable "/opt/app") r.h A →
        declares (toolsOf cycTable "/opt/app") r.h A B →
        declares (toolsOf cycTable "/opt/app") r.h B A →
        (mapKeys r.h.libs).count A = 1 ∧ (mapKeys r.h.libs).count B = 1) :=
  ⟨namesWithin_toolsOf cycTable "/opt/app" ["app", "libA.dylib", "libB.dylib"] (by decide),
    by decide,
    C1_collect_terminates_on_cycles (toolsOf cycTable "/opt/app")
      ["app", "libA.dylib", "libB.dylib"]
      (namesWithin_toolsOf cycTable "/opt/app" ["app", "libA.dylib", "libB.dylib"] (by decide))
      "/opt/app/app" 4 (by decide)⟩

/-- C2: when `C` is declared by a record of the root's report that is not a
self-reference and by a record of the report of a registered library `A`, a
successful `collect` leaves exactly one entry for `C` in `libs`, an entry for
`C` in `deps`, and an entry holding the record of `A` for `C` in the
dependency list of `A`. -/
theorem C2_shared_library_single_node (t : Tools) (fuel : Nat) (root : String) (r : Result)
    (hrun : collect t fuel (newHarvester root) = some r) (hst : r.st = status.nil)
    (C A : String) (pA : Ptr) (recsRoot recsA : List record) (rc ra : record)
    (hroot : report t root = some recsRoot) (hrc : rc ∈ recsRoot) (hrcn : rc.name = C)
    (hrcp : rc.path ≠ root)
    (hA : mapGet r.h.libs A = some pA) (hArep : report t (libPath t r.h pA) = some recsA)
    (hra : ra ∈ recsA) (hran : ra.name = C) :
    (mapKeys r.h.libs).count C = 1 ∧ C ∈ mapKeys r.h.deps ∧
      ∃ q ∈ (cell r.h pA).deps, recordOf r.h q = ra ∧ (cell r.h q).name = C := by
  have w := collect_WF t fuel root r hrun
  have hCin : C ∈ mapKeys r.h.libs := by
    rw [← hrcn]
    exact (collect_closed t fuel root r hrun hst).1 recsRoot rc hroot hrc hrcp
  refine ⟨count_keys_eq_one w C hCin, ?_, ?_⟩
  · obtain ⟨recs, hrep, hkeys⟩ := collect_deps_keys t fuel root r hrun hst
    rw [hroot] at hrep
    cases hrep
    exact (hkeys C).2 ⟨rc, hrc, hrcp, hrcn⟩
  · have hfull := collect_full t fuel root r hrun hst A pA hA
    have hmap := hfull.2
    rw [hArep] at hmap
    have hmem : ra ∈ (cell r.h pA).deps.map (recordOf r.h) := by
      rw [← Option.some.inj hmap]; exact hra
    obtain ⟨q, hq, hqr⟩ := List.mem_map.1 hmem
    refine ⟨q, hq, hqr, ?_⟩
    rw [← hran, ← hqr]
    rfl

/-- Witness of C2 on the diamond: `libC.dylib` is declared by the root and by
`libA.dylib`. -/
theorem C2_shared_library_single_node_witness :
    collect (toolsOf diamondTable "/opt/app") 3 (newHarvester "/opt/app/app")
      = some ⟨diamondFinal, status.nil⟩ ∧
    (mapKeys diamondFinal.libs).count "libC.dylib" = 1 ∧
    "libC.dylib" ∈ mapKeys diamondFinal.deps ∧
    ∃ q ∈ (cell diamondFinal 0).deps,
      recordOf diamondFinal q = ⟨"libC.dylib", "/usr/local/lib/libC.dylib"⟩ ∧
      (cell diamondFinal q).name = "libC.dylib" :=
  ⟨diamond_run,
    C2_shared_library_single_node (toolsOf diamondTable "/opt/app") 3 "/opt/app/app"
      ⟨diamondFinal, status.nil⟩ diamond_run rfl "libC.dylib" "libA.dylib" 0
      [⟨"libA.dylib", "/usr/lib/libA.dylib"⟩, ⟨"libC.dylib", "/usr/lib/libC.dylib"⟩]
      [⟨"libC.dylib", "/usr/local/lib/libC.dylib"⟩]
      ⟨"libC.dylib", "/usr/lib/libC.dylib"⟩ ⟨"libC.dylib", "/usr/local/lib/libC.dylib"⟩
      (by decide) (by decide) rfl (by decide) (by decide) (by decide) (by decide) rfl⟩

/-- C3 fails on the code: `addDep` is called on every record before the
self-reference test, so in the end-to-end scenario the dependency list of
`libfoo.dylib` (the object at address 1) holds the address 2 of the record
with which `libfoo.dylib` identifies itself, whose path is the very path at
which `libfoo.dylib` is inspected; the test, which comes next, keeps that
same record out of `libs` and of `deps`, and there are three inspections
only. -/
theorem C3_self_reference_in_dependency_list :
    ∃ r p q, collect (toolsOf e2eTable "/opt/app") 3 (newHarvester "/opt/app/app") = some r ∧
      r.st = status.nil ∧ mapGet r.h.libs "libfoo.dylib" = some p ∧
      q ∈ (cell r.h p).deps ∧ (cell r.h q).path = libPath (toolsOf e2eTable "/opt/app") r.h p ∧
      q ∉ r.h.libs.map Prod.snd ∧ q ∉ r.h.deps.map Prod.snd ∧
      r.h.calls = ["/opt/app/app", "/opt/app/libfoo.dylib", "/opt/app/libbar.dylib"] :=
  ⟨⟨e2eFinal, status.nil⟩, 1, 2, e2e_run, rfl, by decide, by decide, by decide, by decide,
    by decide, by decide⟩

/-- The self-reference test at work: after a successful `collect`, no
self-reference record is stored in `deps` or in `libs`, neither a record of
the root's report whose path is the root, nor an entry of the dependency list
of a library whose path is the path at which that library is inspected; and
the inspector was called on the root and once per entry of `libs` only, so no
call is due to a self-reference record. -/
theorem self_reference_never_registered (t : Tools) (fuel : Nat) (root : String)
    (r : Result) (hrun : collect t fuel (newHarvester root) = some r)
    (hst : r.st = status.nil) :
    ∃ recs, report t root = some recs ∧
      (∀ i rec, recs[i]? = some rec → rec.path = root →
        ∀ m, mapGet r.h.libs m ≠ some i ∧ mapGet r.h.deps m ≠ some i) ∧
      (∀ n p, mapGet r.h.libs n = some p →
        ∀ q ∈ (cell r.h p).deps, (cell r.h q).path = libPath t r.h p →
          ∀ m, mapGet r.h.libs m ≠ some q ∧ mapGet r.h.deps m ≠ some q) ∧
      r.h.calls = root :: r.h.libs.map (fun e => libPath t r.h e.2) := by
  obtain ⟨fuel', recs, _, hrep, hloop⟩ := collect_inv t fuel root r hrun hst
  obtain ⟨recs', hrep', e, hdeps⟩ := collect_deps t fuel root r hrun hst
  rw [hrep] at hrep'
  cases hrep'
  have w0 : WF (rootLoopState root recs) :=
    WF_alloc (WF_logCall (WF_newHarvester root) root) recs
  have hready : loopReady (rootLoopState root recs) (List.range' 0 recs.length) :=
    loopReady_range (WF_newHarvester root) root recs
  have hlen : (rootLoopState root recs).heap.length = recs.length := by
    simp [rootLoopState, newHarvester]
  have hlt : ∀ p ∈ List.range' 0 recs.length, p < (rootLoopState root recs).heap.length :=
    fun p hp => (hready.2 p hp).1
  have hempty : ∀ p ∈ List.range' 0 recs.length, (cell (rootLoopState root recs) p).deps = [] := by
    intro p hp
    have hp' := (mem_range_zero _ _).1 hp
    have hget : recs[p]? = some recs[p] := List.getElem?_eq_getElem hp'
    have hc := cell_alloc_ge (logCall (newHarvester root) root) recs p recs[p] hget
    have h0 : (logCall (newHarvester root) root).heap.length + p = p := by simp [newHarvester]
    rw [h0] at hc
    have hc' : cell (rootLoopState root recs) p = ⟨recs[p].name, recs[p].path, []⟩ := hc
    rw [hc']
  have hdepsval : ∀ m q, mapGet r.h.deps m = some q →
      q < recs.length ∧ (cell r.h q).path ≠ root := by
    intro m q hq
    rw [hdeps] at hq
    rcases mapGet_noted r.h root _ [] m q hq with ⟨hm, _⟩ | ⟨before, after, hsplit, _, hne, _⟩
    · simp [mapGet] at hm
    · refine ⟨(mem_range_zero _ _).1 ?_, hne⟩
      rw [hsplit]; exact List.mem_append_right _ (List.mem_cons_self _ _)
  refine ⟨recs, hrep, fun i rec hget hself m => ⟨fun hm => ?_, fun hm => ?_⟩,
    fun n p hp q hq hself m => ⟨fun hm => ?_, fun hm => ?_⟩, ?_⟩
  · have hi : i < recs.length := (List.getElem?_eq_some_iff.1 hget).1
    have hc := cell_rootLoopState root recs i rec hget (Extends.refl _)
    exact (run_fresh_nonself t fuel').2 _ _ _ _ _ hloop hlt m i hm rfl
      ((mem_range_zero _ _).2 hi) (by rw [hc.2]; exact hself)
  · have hc := cell_rootLoopState root recs i rec hget e
    exact (hdepsval m i hm).2 (by rw [hc.2]; exact hself)
  · exact ((run_noself t fuel').2 _ _ _ _ _ hloop w0 hready hempty hst n p hp rfl).1 m q hm hq
      hself
  · have hge := ((run_noself t fuel').2 _ _ _ _ _ hloop w0 hready hempty hst n p hp rfl).2 q hq
    rw [hlen] at hge
    exact absurd (hdepsval m q hm).1 (Nat.not_lt.2 hge)
  · have hl := collect_logged t fuel root r hrun
    unfold Logged libPaths at hl
    rw [collect_root t fuel root r hrun] at hl
    exact hl

/-- The same on the end-to-end scenario, whose three reports each open with a
self-reference record. -/
theorem self_reference_never_registered_e2e :
    collect (toolsOf e2eTable "/opt/app") 3 (newHarvester "/opt/app/app")
      = some ⟨e2eFinal, status.nil⟩ ∧
    ∃ recs, report (toolsOf e2eTable "/opt/app") "/opt/app/app" = some recs ∧
      (∀ i rec, recs[i]? = some rec → rec.path = "/opt/app/app" →
        ∀ m, mapGet e2eFinal.libs m ≠ some i ∧ mapGet e2eFinal.deps m ≠ some i) ∧
      (∀ n p, mapGet e2eFinal.libs n = some p →
        ∀ q ∈ (cell e2eFinal p).deps,
          (cell e2eFinal q).path = libPath (toolsOf e2eTable "/opt/app") e2eFinal p →
          ∀ m, mapGet e2eFinal.libs m ≠ some q ∧ mapGet e2eFinal.deps m ≠ some q) ∧
      e2eFinal.calls = "/opt/app/app" ::
        e2eFinal.libs.map (fun e => libPath (toolsOf e2eTable "/opt/app") e2eFinal e.2) :=
  ⟨e2e_run, self_reference_never_registered (toolsOf e2eTable "/opt/app") 3 "/opt/app/app"
    ⟨e2eFinal, status.nil⟩ e2e_run rfl⟩

/-- C4 fails on the code: in the end-to-end scenario the dependency list of
`libfoo.dylib` has two entries, `libfoo.dylib` and `libbar.dylib`, not the
single entry `libbar.dylib`; the first is the self-reference record of
`libfoo.dylib`, handed to `addDep` before the self-reference test. -/
theorem C4_libfoo_dependency_list_has_two_entries :
    ∃ r p, collect (toolsOf e2eTable "/opt/app") 3 (newHarvester "/opt/app/app") = some r ∧
      r.st = status.nil ∧ mapGet r.h.libs "libfoo.dylib" = some p ∧
      (cell r.h p).deps.map (fun q => (cell r.h q).name) = ["libfoo.dylib", "libbar.dylib"] ∧
      (cell r.h p).deps.map (fun q => (cell r.h q).name) ≠ ["libbar.dylib"] :=
  ⟨⟨e2eFinal, status.nil⟩, 1, e2e_run, rfl, by decide, by decide, by decide⟩

/-- The end-to-end scenario in full: `collect` succeeds, with any fuel from 3
on, with `libs` = {libfoo.dylib, libbar.dylib}, `deps` = {libfoo.dylib}, and
the dependency list of `libfoo.dylib` holding its own self-reference record
followed by the record of `libbar.dylib`. -/
theorem end_to_end_collect (fuel : Nat) (hfuel : 3 ≤ fuel) :
    ∃ r p, collect (toolsOf e2eTable "/opt/app") fuel (newHarvester "/opt/app/app") = some r ∧
      r.st = status.nil ∧
      mapKeys r.h.libs = ["libfoo.dylib", "libbar.dylib"] ∧
      mapKeys r.h.deps = ["libfoo.dylib"] ∧
      mapGet r.h.libs "libfoo.dylib" = some p ∧
      (cell r.h p).deps.map (recordOf r.h) =
        [⟨"libfoo.dylib", "/opt/app/libfoo.dylib"⟩, ⟨"libbar.dylib", "@rpath/libbar.dylib"⟩] :=
  ⟨⟨e2eFinal, status.nil⟩, 1,
    collect_fuel_mono (toolsOf e2eTable "/opt/app") 3 fuel hfuel _ _ e2e_run, rfl,
    by decide, by decide, by decide, by decide⟩

/-- The same at fuel 3. -/
theorem end_to_end_collect_fuel_three :
    3 ≤ 3 ∧
    ∃ r p, collect (toolsOf e2eTable "/opt/app") 3 (newHarvester "/opt/app/app") = some r ∧
      r.st = status.nil ∧
      mapKeys r.h.libs = ["libfoo.dylib", "libbar.dylib"] ∧
      mapKeys r.h.deps = ["libfoo.dylib"] ∧
      mapGet r.h.libs "libfoo.dylib" = some p ∧
      (cell r.h p).deps.map (recordOf r.h) =
        [⟨"libfoo.dylib", "/opt/app/libfoo.dylib"⟩, ⟨"libbar.dylib", "@rpath/libbar.dylib"⟩] :=
  ⟨Nat.le_refl 3, end_to_end_collect 3 (Nat.le_refl 3)⟩

/-- C5: after a successful `collect`, a name is a key of `libs` exactly when it
is reachable from the root in one or more steps along the records that are not
self-references, the report of a library being the one of the path at which
the record registered under its name is inspected. -/
theorem C5_libs_are_the_reachable_names (t : Tools) (fuel : Nat) (root : String) (r : Result)
    (hrun : collect t fuel (newHarvester root) = some r) (hst : r.st = status.nil) (n : String) :
    n ∈ mapKeys r.h.libs ↔ Reach t r.h n :=
  ⟨fun hn => collect_sound t fuel root r hrun n hn,
    fun hn => collect_complete t fuel root r hrun hst n hn⟩

/-- Witness of C5 on the cycle: `libB.dylib`, two steps from the root, is
registered and reachable. -/
theorem C5_libs_are_the_reachable_names_witness :
    collect (toolsOf cycTable "/opt/app") 3 (newHarvester "/opt/app/app")
      = some ⟨cycFinal, status.nil⟩ ∧
    ("libB.dylib" ∈ mapKeys cycFinal.libs ↔
      Reach (toolsOf cycTable "/opt/app") cycFinal "libB.dylib") :=
  ⟨cyc_run, C5_libs_are_the_reachable_names (toolsOf cycTable "/opt/app") 3 "/opt/app/app"
    ⟨cycFinal, status.nil⟩ cyc_run rfl "libB.dylib"⟩

/-- C6: after a successful `collect`, the keys of `deps` are exactly the names
of the records of the root's own report that are not self-references, and
every key of `deps` is a key of `libs`. -/
theorem C6_root_dependencies (t : Tools) (fuel : Nat) (root : String) (r : Result)
    (hrun : collect t fuel (newHarvester root) = some r) (hst : r.st = status.nil) :
    ∃ recs, report t root = some recs ∧
      (∀ n, n ∈ mapKeys r.h.deps ↔ ∃ rec ∈ recs, rec.path ≠ root ∧ rec.name = n) ∧
      (∀ n, n ∈ mapKeys r.h.deps → n ∈ mapKeys r.h.libs) := by
  obtain ⟨recs, hrep, hkeys⟩ := collect_deps_keys t fuel root r hrun hst
  refine ⟨recs, hrep, hkeys, fun n hn => ?_⟩
  obtain ⟨rec, hmem, hne, hname⟩ := (hkeys n).1 hn
  rw [← hname]
  exact (collect_closed t fuel root r hrun hst).1 recs rec hrep hmem hne

/-- Witness of C6 on the cycle, where `libB.dylib` is declared by `libA.dylib`
only and `deps` holds `libA.dylib` alone. -/
theorem C6_root_dependencies_witness :
    collect (toolsOf cycTable "/opt/app") 3 (newHarvester "/opt/app/app")
      = some ⟨cycFinal, status.nil⟩ ∧
    ∃ recs, report (toolsOf cycTable "/opt/app") "/opt/app/app" = some recs ∧
      (∀ n, n ∈ mapKeys cycFinal.deps ↔ ∃ rec ∈ recs, rec.path ≠ "/opt/app/app" ∧ rec.name = n) ∧
      (∀ n, n ∈ mapKeys cycFinal.deps → n ∈ mapKeys cycFinal.libs) :=
  ⟨cyc_run, C6_root_dependencies (toolsOf cycTable "/opt/app") 3 "/opt/app/app"
    ⟨cycFinal, status.nil⟩ cyc_run rfl⟩

/-- In a strictly increasing enumeration split around `q`, every later index is
in the part after `q`. -/
theorem mem_after_of_range (k q : Nat) (before after : List Nat)
    (hsplit : List.range' 0 k = before ++ q :: after) (j : Nat) (hq : q < j) (hj : j < k) :
    j ∈ after := by
  have hmem : j ∈ before ++ q :: after := by
    rw [← hsplit]; exact (mem_range_zero k j).2 hj
  have hsorted : (before ++ q :: after).Pairwise (· < ·) := by
    rw [← hsplit]; exact List.pairwise_lt_range' 0 k
  rw [List.pairwise_append] at hsorted
  rcases List.mem_append.1 hmem with hb | hb
  · exact absurd (hsorted.2.2 j hb q (List.mem_cons_self _ _)) (Nat.lt_asymm hq)
  · rcases List.mem_cons.1 hb with heq | ha
    · exact absurd heq (Nat.ne_of_gt hq)
    · exact ha

/-- C7, as stated, fails: when the root's report names `libC.dylib` twice,
`libs` keeps the first record (declared path `/usr/lib/libC.dylib`) and `deps`
ends up with the second (declared path `/usr/local/lib/libC.dylib`). -/
theorem C7_deps_holds_a_later_record :
    ∃ r p q, collect (toolsOf dupTable "/opt/app") 2 (newHarvester "/opt/app/app") = some r ∧
      r.st = status.nil ∧ mapGet r.h.libs "libC.dylib" = some p ∧
      mapGet r.h.deps "libC.dylib" = some q ∧
      (cell r.h p).path = "/usr/lib/libC.dylib" ∧
      (cell r.h q).path = "/usr/local/lib/libC.dylib" ∧ p ≠ q :=
  ⟨⟨{ root := "/opt/app/app", deps := [("libC.dylib", 1)], libs := [("libC.dylib", 0)],
      libStack := [],
      heap := [⟨"libC.dylib", "/usr/lib/libC.dylib", []⟩,
               ⟨"libC.dylib", "/usr/local/lib/libC.dylib", []⟩],
      calls := ["/opt/app/app", "/opt/app/libC.dylib"] }, status.nil⟩, 0, 1,
    by decide, rfl, by decide, by decide, by decide, by decide, by decide⟩

/-- C7, amended: name is the sole key. In `libs` the first write wins: no call
of `collectFile`, from any state, replaces the record stored under a
registered name. In `deps` the last write wins: after a successful `collect`
the record stored under a name is the last record of that name in the root's
report that is not a self-reference. Both maps file a record under its own
name. -/
theorem C7_first_write_wins_in_libs (t : Tools) (fuel : Nat) (root : String) (r : Result)
    (hrun : collect t fuel (newHarvester root) = some r) (hst : r.st = status.nil) :
    (∀ fuel' path isRoot h r', collectFile t fuel' path isRoot h = some r' →
      ∀ n p, mapGet h.libs n = some p → mapGet r'.h.libs n = some p) ∧
    (∀ n p, mapGet r.h.libs n = some p → (cell r.h p).name = n) ∧
    ∃ recs, report t root = some recs ∧
      ∀ n q, mapGet r.h.deps n = some q →
        ∃ rec, recs[q]? = some rec ∧ recordOf r.h q = rec ∧ rec.name = n ∧ rec.path ≠ root ∧
          ∀ j rec', q < j → recs[j]? = some rec' → rec'.name = n → rec'.path = root := by
  refine ⟨fun fuel' path isRoot h r' hr' n p hp =>
    ((run_extends t fuel').1 path isRoot h r' hr').libs n p hp,
    fun n p hp => ((collect_WF t fuel root r hrun).libs n p hp).2, ?_⟩
  obtain ⟨recs, hrep, e, hdeps⟩ := collect_deps t fuel root r hrun hst
  refine ⟨recs, hrep, fun n q hq => ?_⟩
  rw [hdeps] at hq
  rcases mapGet_noted r.h root _ [] n q hq with ⟨hm, _⟩ | ⟨before, after, hsplit, hname, hne, hall⟩
  · simp [mapGet] at hm
  · have hqmem : q ∈ List.range' 0 recs.length := by
      rw [hsplit]; exact List.mem_append_right _ (List.mem_cons_self _ _)
    have hqlt : q < recs.length := (mem_range_zero _ _).1 hqmem
    have hget : recs[q]? = some recs[q] := List.getElem?_eq_getElem hqlt
    have hc := cell_rootLoopState root recs q recs[q] hget e
    refine ⟨recs[q], hget, ?_, by rw [← hc.1]; exact hname, by rw [← hc.2]; exact hne, ?_⟩
    · simp [recordOf, hc.1, hc.2]
    · intro j rec' hqj hgetj hnamej
      have hjlt : j < recs.length := (List.getElem?_eq_some_iff.1 hgetj).1
      have hcj := cell_rootLoopState root recs j rec' hgetj e
      have := hall j (mem_after_of_range _ q before after hsplit j hqj hjlt)
        (by rw [hcj.1]; exact hnamej)
      rw [← hcj.2]
      exact this

/-- Witness of the amended C7 on the diamond, where `deps` and `libs` hold two
different records of `libC.dylib`. -/
theorem C7_first_write_wins_in_libs_witness :
    collect (toolsOf diamondTable "/opt/app") 3 (newHarvester "/opt/app/app")
      = some ⟨diamondFinal, status.nil⟩ ∧
    (∀ n p, mapGet diamondFinal.libs n = some p → (cell diamondFinal p).name = n) ∧
    ∃ recs, report (toolsOf diamondTable "/opt/app") "/opt/app/app" = some recs ∧
      ∀ n q, mapGet diamondFinal.deps n = some q →
        ∃ rec, recs[q]? = some rec ∧ recordOf diamondFinal q = rec ∧ rec.name = n ∧
          rec.path ≠ "/opt/app/app" ∧
          ∀ j rec', q < j → recs[j]? = some rec' → rec'.name = n → rec'.path = "/opt/app/app" :=
  ⟨diamond_run,
    (C7_first_write_wins_in_libs (toolsOf diamondTable "/opt/app") 3 "/opt/app/app"
      ⟨diamondFinal, status.nil⟩ diamond_run rfl).2⟩

/-- C8: after a successful `collect`, the dependency list of every library in
`libs` is its own report read in order, one entry per record: the records of
the entries are the records of the report. In particular the entries for
records that are not self-references are those records, in report order and
once per occurrence, whether or not their names were registered before. -/
theorem C8_dependency_list_is_the_report (t : Tools) (fuel : Nat) (root : String) (r : Result)
    (hrun : collect t fuel (newHarvester root) = some r) (hst : r.st = status.nil)
    (n : String) (p : Ptr) (hp : mapGet r.h.libs n = some p) :
    ∃ recs, report t (libPath t r.h p) = some recs ∧
      (cell r.h p).deps.map (recordOf r.h) = recs ∧
      ((cell r.h p).deps.map (recordOf r.h)).filter
          (fun rec => decide (rec.path ≠ libPath t r.h p)) =
        recs.filter (fun rec => decide (rec.path ≠ libPath t r.h p)) ∧
      ∀ rec ∈ recs, rec.path ≠ libPath t r.h p →
        ∃ q ∈ (cell r.h p).deps, recordOf r.h q = rec := by
  have hfull := collect_full t fuel root r hrun hst n p hp
  refine ⟨_, hfull.2, rfl, rfl, fun rec hrec _ => ?_⟩
  obtain ⟨q, hq, hqr⟩ := List.mem_map.1 hrec
  exact ⟨q, hq, hqr⟩

/-- Witness of C8 on the cycle: the report of `libB.dylib` names `libA.dylib`,
registered before `libB.dylib` was inspected. -/
theorem C8_dependency_list_is_the_report_witness :
    collect (toolsOf cycTable "/opt/app") 3 (newHarvester "/opt/app/app")
      = some ⟨cycFinal, status.nil⟩ ∧
    mapGet cycFinal.libs "libB.dylib" = some 3 ∧
    ∃ recs, report (toolsOf cycTable "/opt/app") (libPath (toolsOf cycTable "/opt/app") cycFinal 3)
        = some recs ∧
      (cell cycFinal 3).deps.map (recordOf cycFinal) = recs ∧
      ((cell cycFinal 3).deps.map (recordOf cycFinal)).filter
          (fun rec => decide (rec.path ≠ libPath (toolsOf cycTable "/opt/app") cycFinal 3)) =
        recs.filter
          (fun rec => decide (rec.path ≠ libPath (toolsOf cycTable "/opt/app") cycFinal 3)) ∧
      ∀ rec ∈ recs, rec.path ≠ libPath (toolsOf cycTable "/opt/app") cycFinal 3 →
        ∃ q ∈ (cell cycFinal 3).deps, recordOf cycFinal q = rec :=
  ⟨cyc_run, by decide,
    C8_dependency_list_is_the_report (toolsOf cycTable "/opt/app") 3 "/opt/app/app"
      ⟨cycFinal, status.nil⟩ cyc_run rfl "libB.dylib" 3 (by decide)⟩

/-- C9 fails on the code: when the inspector cannot open `libA.dylib`, declared
by the root, `collect` returns the error with `libA.dylib` (address 0) still on
the visit stack. -/
theorem C9_stack_not_popped_on_failure :
    ∃ r, collect (toolsOf failTable "/opt/app") 2 (newHarvester "/opt/app/app") = some r ∧
      r.st = status.err "cannot inspect /opt/app/libA.dylib" ∧ r.h.libStack = [0] :=
  ⟨⟨{ root := "/opt/app/app", deps := [("libA.dylib", 0)], libs := [("libA.dylib", 0)],
      libStack := [0], heap := [⟨"libA.dylib", "/usr/lib/libA.dylib", []⟩],
      calls := ["/opt/app/app", "/opt/app/libA.dylib"] },
    status.err "cannot inspect /opt/app/libA.dylib"⟩, by decide, rfl, rfl⟩

/-- C10: after a successful `collect` the inspector's log is the root path
followed, in registration order, by one call per entry of `libs`, each at the
declared path of that library resolved against the directory of the root;
hence `1 + |libs|` calls (the keys of `libs` being distinct, one call per
library). -/
theorem C10_inspector_calls (t : Tools) (fuel : Nat) (root : String) (r : Result)
    (hrun : collect t fuel (newHarvester root) = some r) (_hst : r.st = status.nil) :
    r.h.calls = root :: r.h.libs.map (fun e =>
        t.absolutePath (cell r.h e.2).name (cell r.h e.2).path (t.pathDir root)) ∧
      r.h.calls.length = 1 + r.h.libs.length ∧ (mapKeys r.h.libs).Nodup := by
  have hl := collect_logged t fuel root r hrun
  have hroot := collect_root t fuel root r hrun
  unfold Logged libPaths at hl
  simp only [libPath, hroot] at hl
  refine ⟨hl, ?_, (collect_WF t fuel root r hrun).libsKeys⟩
  rw [hl]
  simp [Nat.add_comm]

/-- Witness of C10 on the cycle: three calls for two libraries. -/
theorem C10_inspector_calls_witness :
    collect (toolsOf cycTable "/opt/app") 3 (newHarvester "/opt/app/app")
      = some ⟨cycFinal, status.nil⟩ ∧
    cycFinal.calls = "/opt/app/app" :: cycFinal.libs.map (fun e =>
        (toolsOf cycTable "/opt/app").absolutePath (cell cycFinal e.2).name
          (cell cycFinal e.2).path ((toolsOf cycTable "/opt/app").pathDir "/opt/app/app")) ∧
      cycFinal.calls.length = 1 + cycFinal.libs.length ∧ (mapKeys cycFinal.libs).Nodup :=
  ⟨cyc_run, C10_inspector_calls (toolsOf cycTable "/opt/app") 3 "/opt/app/app"
    ⟨cycFinal, status.nil⟩ cyc_run rfl⟩

/-! ## Failures of the inspector -/

theorem failure_report (t : Tools) (path msg : String) (hf : failure t path msg) :
    report t path = none := by
  unfold report
  rcases hf with hx | ⟨out, hx, hy⟩
  · rw [hx]
  · rw [hx]; simp only; rw [hy]

/-- A run that starts after successful inspections only ends, without error,
after successful inspections only, and otherwise with the failed inspection as
the last call of the log, its error being the one returned. -/
theorem run_calls (t : Tools) (fuel : Nat) :
    (∀ path isRoot h r, fileRun t fuel path isRoot h r → callsOk t h →
      (r.st = status.nil → callsOk t r.h) ∧
      ∀ msg, r.st = status.err msg → ∃ init last, r.h.calls = init ++ [last] ∧
        (∀ p ∈ init, report t p ≠ none) ∧ failure t last msg) ∧
    (∀ path isRoot ptrs h r, loopRun t fuel path isRoot ptrs h r → callsOk t h →
      (r.st = status.nil → callsOk t r.h) ∧
      ∀ msg, r.st = status.err msg → ∃ init last, r.h.calls = init ++ [last] ∧
        (∀ p ∈ init, report t p ≠ none) ∧ failure t last msg) := by
  refine collectFile_induct t
    (fun _ _ h r => callsOk t h →
      (r.st = status.nil → callsOk t r.h) ∧
      ∀ msg, r.st = status.err msg → ∃ init last, r.h.calls = init ++ [last] ∧
        (∀ p ∈ init, report t p ≠ none) ∧ failure t last msg)
    (fun _ _ _ h r => callsOk t h →
      (r.st = status.nil → callsOk t r.h) ∧
      ∀ msg, r.st = status.err msg → ∃ init last, r.h.calls = init ++ [last] ∧
        (∀ p ∈ init, report t p ≠ none) ∧ failure t last msg)
    ?_ ?_ ?_ ?_ ?_ ?_ ?_ ?_ fuel
  · intro path isRoot h e hx hok
    refine ⟨fun hst => (by cases hst), fun msg hm => ?_⟩
    cases hm
    exact ⟨h.calls, path, rfl, hok, Or.inl hx⟩
  · intro path isRoot h out e hx hy hok
    refine ⟨fun hst => (by cases hst), fun msg hm => ?_⟩
    cases hm
    exact ⟨h.calls, path, rfl, hok, Or.inr ⟨out, hx, hy⟩⟩
  · intro fuel path isRoot h recs r hrep _ hl hok
    apply hl
    intro p hp
    simp only [alloc_calls, logCall_calls, List.mem_append, List.mem_singleton] at hp
    rcases hp with hp | hp
    · exact hok p hp
    · rw [hp, hrep]; simp
  · intro path isRoot h hok
    exact ⟨fun _ => hok, fun msg hm => by cases hm⟩
  · intro fuel path isRoot lib rest h r _ _ hl hok
    exact hl (fun p hp => hok p (by simpa using hp))
  · intro fuel path isRoot lib rest h r _ _ _ hl hok
    exact hl (fun p hp => hok p (by simpa using hp))
  · intro fuel path isRoot lib rest h h1 r _ _ _ hf _ _ hl hok
    have h1ok := (hf (fun p hp => hok p (by simpa using hp))).1 rfl
    exact hl (fun p hp => h1ok p (by simpa using hp))
  · intro fuel path isRoot lib rest h h1 msg _ _ _ hf hok
    exact hf (fun p hp => hok p (by simpa using hp))

/-- Runs keep the keys of `deps` among the keys of `libs`. -/
theorem run_depsInLibs (t : Tools) (fuel : Nat) :
    (∀ path isRoot h r, fileRun t fuel path isRoot h r → depsInLibs h → depsInLibs r.h) ∧
    (∀ path isRoot ptrs h r, loopRun t fuel path isRoot ptrs h r → depsInLibs h →
      depsInLibs r.h) := by
  refine collectFile_induct t (fun _ _ h r => depsInLibs h → depsInLibs r.h)
    (fun _ _ _ h r => depsInLibs h → depsInLibs r.h) ?_ ?_ ?_ ?_ ?_ ?_ ?_ ?_ fuel
  · intro path isRoot h e _ hd; exact hd
  · intro path isRoot h out e _ _ hd; exact hd
  · intro fuel path isRoot h recs r _ _ hl hd; exact hl hd
  · intro path isRoot h hd; exact hd
  · intro fuel path isRoot lib rest h r _ _ hl hd
    exact hl (fun n hn => by simpa using hd n (by simpa using hn))
  · intro fuel path isRoot lib rest h r _ hseen _ hl hd
    apply hl
    intro n hn
    simp only [noteRoot_libs, attach_libs]
    cases isRoot with
    | false => exact hd n (by simpa using hn)
    | true =>
      rw [noteRoot_true_deps, mem_mapKeys_mapSet] at hn
      rcases hn with hn | hn
      · rw [hn, cell_attach_name]
        by_contra hc
        exact hseen ((mapGet_eq_none_iff _ _).2 hc)
      · exact hd n (by simpa using hn)
  · intro fuel path isRoot lib rest h h1 r _ hnew hrun hf _ _ hl hd
    apply hl
    have : depsInLibs (entered isRoot h lib) := by
      intro n hn
      rw [entered_libs, mem_mapKeys_mapSet]
      cases isRoot with
      | false => exact Or.inr (hd n (by simpa [entered] using hn))
      | true =>
        simp only [entered, pushLib_deps, register_deps, noteRoot_true_deps,
          mem_mapKeys_mapSet, attach_deps, cell_attach_name] at hn
        rcases hn with hn | hn
        · exact Or.inl hn
        · exact Or.inr (hd n hn)
    exact hf this
  · intro fuel path isRoot lib rest h h1 msg _ hnew hrun hf hd
    apply hf
    intro n hn
    rw [entered_libs, mem_mapKeys_mapSet]
    cases isRoot with
    | false => exact Or.inr (hd n (by simpa [entered] using hn))
    | true =>
      simp only [entered, pushLib_deps, register_deps, noteRoot_true_deps,
        mem_mapKeys_mapSet, attach_deps, cell_attach_name] at hn
      rcases hn with hn | hn
      · exact Or.inl hn
      · exact Or.inr (hd n hn)

theorem fail_run : collect (toolsOf failTable "/opt/app") 2 (newHarvester "/opt/app/app")
    = some ⟨failFinal, status.err "cannot inspect /opt/app/libA.dylib"⟩ := by
  decide

/-- C11: `collect` returns an error exactly when an inspection made during the
traversal fails (the inspector or the parser); it never panics; the failed
inspection is the last call of the log, every call before it succeeded, and
its error is the one returned; the log is the root followed by one call per
entry of `libs`, so that no library is registered after the failed call, and
every key of `deps` is a key of `libs`; and a loop whose nested call fails
returns the state and error of that call as they are, whatever records
remain. -/
theorem C11_first_failure_aborts (t : Tools) (fuel : Nat) (root : String) (r : Result)
    (hrun : collect t fuel (newHarvester root) = some r) :
    (r.st ≠ status.nil ↔ ∃ p ∈ r.h.calls, report t p = none) ∧
    r.st ≠ status.panic ∧
    (∀ msg, r.st = status.err msg → ∃ init last, r.h.calls = init ++ [last] ∧
      (∀ p ∈ init, report t p ≠ none) ∧ failure t last msg) ∧
    r.h.calls = root :: r.h.libs.map (fun e => libPath t r.h e.2) ∧
    (∀ n, n ∈ mapKeys r.h.deps → n ∈ mapKeys r.h.libs) ∧
    (∀ (file : String → harvester → Option Result) path isRoot lib rest h h1 msg,
      (cell h lib).path ≠ path → mapGet h.libs (cell h lib).name = none →
      file (libPath t h lib) (entered isRoot h lib) = some ⟨h1, status.err msg⟩ →
      collectLoop t file path isRoot (lib :: rest) h = some ⟨h1, status.err msg⟩) := by
  have hok0 : callsOk t (newHarvester root) := by
    intro p hp; simp [newHarvester] at hp
  have hc := (run_calls t fuel).1 _ _ _ _ hrun hok0
  have hnp := ((stack_balance t fuel).1 _ _ _ _ hrun).1
  refine ⟨⟨fun hne => ?_, fun ⟨p, hp, hrep⟩ hnil => ?_⟩, hnp, hc.2, ?_, ?_, ?_⟩
  · cases hst : r.st with
    | nil => exact absurd hst hne
    | panic => exact absurd hst hnp
    | err msg =>
      obtain ⟨init, last, hcalls, _, hfail⟩ := hc.2 msg hst
      exact ⟨last, by rw [hcalls]; simp, failure_report t last msg hfail⟩
  · exact hc.1 hnil p hp hrep
  · have hl := collect_logged t fuel root r hrun
    unfold Logged libPaths at hl
    rw [collect_root t fuel root r hrun] at hl
    exact hl
  · refine (run_depsInLibs t fuel).1 _ _ _ _ hrun ?_
    intro n hn; simp [newHarvester, mapKeys] at hn
  · intro file path isRoot lib rest h h1 msg hself hnew hcall
    exact collectLoop_abort t file path isRoot lib rest h hself hnew h1 msg hcall

/-- Witness of C11 on the root whose library `libA.dylib` cannot be opened. -/
theorem C11_first_failure_aborts_witness :
    collect (toolsOf failTable "/opt/app") 2 (newHarvester "/opt/app/app")
      = some ⟨failFinal, status.err "cannot inspect /opt/app/libA.dylib"⟩ ∧
    (∃ p ∈ failFinal.calls, report (toolsOf failTable "/opt/app") p = none) ∧
    failFinal.calls = "/opt/app/app" ::
      failFinal.libs.map (fun e => libPath (toolsOf failTable "/opt/app") failFinal e.2) :=
  ⟨fail_run,
    (C11_first_failure_aborts (toolsOf failTable "/opt/app") 2 "/opt/app/app"
      ⟨failFinal, status.err "cannot inspect /opt/app/libA.dylib"⟩ fail_run).1.1 (by decide),
    (C11_first_failure_aborts (toolsOf failTable "/opt/app") 2 "/opt/app/app"
      ⟨failFinal, status.err "cannot inspect /opt/app/libA.dylib"⟩ fail_run).2.2.2.1⟩

/-! ## Inside the loop -/

/-- A loop that ends without error has passed, after any initial part of its
records, through a state from which the remaining records lead to its result. -/
theorem collectLoop_split (t : Tools) (file : String → harvester → Option Result)
    (path : String) (isRoot : Bool) (post : List Ptr) :
    ∀ pre h r, collectLoop t file path isRoot (pre ++ post) h = some r → r.st = status.nil →
      ∃ hm, collectLoop t file path isRoot pre h = some ⟨hm, status.nil⟩ ∧
        collectLoop t file path isRoot post hm = some r := by
  intro pre
  induction pre with
  | nil => intro h r hr _; exact ⟨h, rfl, hr⟩
  | cons lib rest ih =>
    intro h r hr hst
    rw [List.cons_append, collectLoop] at hr
    rw [collectLoop]
    by_cases hself : (cell (attach h lib) lib).path = path
    · rw [if_pos hself] at hr ⊢
      exact ih _ _ hr hst
    · rw [if_neg hself] at hr ⊢
      by_cases hnew : mapGet (noteRoot isRoot (attach h lib) lib).libs
          (cell (noteRoot isRoot (attach h lib) lib) lib).name = none
      · rw [if_pos hnew] at hr ⊢
        cases hc : collectLib t file lib (register (noteRoot isRoot (attach h lib) lib) lib) with
        | none => rw [hc] at hr; simp at hr
        | some c =>
          obtain ⟨h1, e⟩ := c
          rw [hc] at hr
          cases e with
          | nil => exact ih _ _ hr hst
          | err msg =>
            simp only [Option.some.injEq] at hr
            rw [← hr] at hst
            cases hst
          | panic =>
            simp only [Option.some.injEq] at hr
            rw [← hr] at hst
            cases hst
      · rw [if_neg hnew] at hr ⊢
        exact ih _ _ hr hst

/-- `collectLib` never panics, and when it returns without error the visit
stack is as it found it. -/
theorem collectLib_balance (t : Tools) (fuel : Nat) (lib : Ptr) (h : harvester) (r : Result)
    (hr : collectLib t (fun p h1 => collectFile t fuel p false h1) lib h = some r) :
    r.st ≠ status.panic ∧ (r.st = status.nil → r.h.libStack = h.libStack) := by
  simp only [collectLib] at hr
  cases hc : collectFile t fuel (libPath t (pushLib h lib) lib) false (pushLib h lib) with
  | none => rw [hc] at hr; simp at hr
  | some c =>
    obtain ⟨h1, e⟩ := c
    rw [hc] at hr
    have hb := (stack_balance t fuel).1 _ _ _ _ hc
    cases e with
    | nil =>
      have hs : h1.libStack = h.libStack ++ [lib] := by simpa using hb.2 rfl
      simp only [popLib_of_stack h1 _ _ hs, Option.some.injEq] at hr
      rw [← hr]
      exact ⟨by simp, fun _ => rfl⟩
    | err msg =>
      simp only [Option.some.injEq] at hr
      rw [← hr]
      exact ⟨by simp, fun hst => by cases hst⟩
    | panic => exact absurd rfl hb.1

/-- C20: a call of `collectFile` or of `collectLib` never panics (so `popLib` is
never run on an empty stack) and, when it returns without error, leaves the
visit stack as it was on entry; during the inspection of a library `lib`, at
every point between two iterations of the loop, `lib` is on top of the stack;
and a successful `collect` ends with an empty stack. -/
theorem C20_stack_balance (t : Tools) (fuel : Nat) :
    (∀ path isRoot h r, collectFile t fuel path isRoot h = some r →
      r.st ≠ status.panic ∧ (r.st = status.nil → r.h.libStack = h.libStack)) ∧
    (∀ lib h r, collectLib t (fun p h1 => collectFile t fuel p false h1) lib h = some r →
      r.st ≠ status.panic ∧ (r.st = status.nil → r.h.libStack = h.libStack)) ∧
    (∀ lib h path recs pre post r,
      loopRun t fuel path false (pre ++ post) (alloc (logCall (pushLib h lib) path) recs) r →
      r.st = status.nil →
      ∃ hm, loopRun t fuel path false pre (alloc (logCall (pushLib h lib) path) recs)
          ⟨hm, status.nil⟩ ∧
        loopRun t fuel path false post hm r ∧ curLib hm = some lib) ∧
    (∀ root r, collect t fuel (newHarvester root) = some r → r.st = status.nil →
      r.h.libStack = []) := by
  refine ⟨fun path isRoot h r hr => (stack_balance t fuel).1 path isRoot h r hr,
    fun lib h r hr => collectLib_balance t fuel lib h r hr, ?_, ?_⟩
  · intro lib h path recs pre post r hr hst
    obtain ⟨hm, hpre, hpost⟩ := collectLoop_split t _ path false post pre _ r hr hst
    refine ⟨hm, hpre, hpost, ?_⟩
    have hs := ((stack_balance t fuel).2 _ _ _ _ _ hpre).2 rfl
    have hs' : hm.libStack = h.libStack ++ [lib] := by simpa using hs
    simp [curLib, hs']
  · intro root r hr hst
    have := ((stack_balance t fuel).1 _ _ _ _ hr).2 hst
    simpa [newHarvester] using this

/-! ## Copying -/

theorem writeFile_same (f : Files) (p : String) (b : Bytes) : writeFile f p b p = some b := by
  simp [writeFile]

theorem writeFile_other (f : Files) (p q : String) (b : Bytes) (hne : q ≠ p) :
    writeFile f p b q = f q := by
  simp [writeFile, hne]

theorem copyFile_noop (s : Sys) (src dst : String) (d : Disk) (hn : s.flagNoop = true) :
    copyFile s src dst d = (⟨d.files, d.copies ++ [(src, dst)]⟩, status.nil) := by
  simp [copyFile, hn]

/-- What a call of `copyFile` that succeeds outside a dry run has done. -/
theorem copyFile_ok (s : Sys) (src dst : String) (d d1 : Disk) (hn : s.flagNoop = false)
    (hc : copyFile s src dst d = (d1, status.nil)) :
    (d.files src).isSome ∧ s.osCreate dst = none ∧ d1.copies = d.copies ++ [(src, dst)] ∧
      d1.files = writeFile d.files dst (if src = dst then [] else (d.files src).getD []) := by
  unfold copyFile at hc
  simp only [hn, Bool.false_eq_true, if_false] at hc
  cases hsrc : d.files src with
  | none => rw [hsrc] at hc; simp at hc
  | some b =>
    rw [hsrc] at hc
    simp only at hc
    cases hcr : s.osCreate dst with
    | some e => rw [hcr] at hc; simp at hc
    | none =>
      rw [hcr] at hc
      simp only [Prod.mk.injEq, and_true] at hc
      subst hc
      refine ⟨rfl, rfl, rfl, ?_⟩
      funext q
      by_cases hq : q = dst
      · subst hq
        by_cases hsd : src = q
        · subst hsd; simp [writeFile]
        · simp [writeFile, hsd, hsrc]
      · simp [writeFile, hq]

theorem copyFile_copies (s : Sys) (src dst : String) (d : Disk) :
    (copyFile s src dst d).1.copies = d.copies ++ [(src, dst)] := by
  unfold copyFile
  split
  · rfl
  · split
    · rfl
    · split <;> rfl

theorem copyFile_files_mono (s : Sys) (src dst : String) (d : Disk) (p : String)
    (hp : (d.files p).isSome) : ((copyFile s src dst d).1.files p).isSome := by
  unfold copyFile
  split
  · exact hp
  · split
    · exact hp
    · split
      · exact hp
      · by_cases hq : p = dst
        · simp [writeFile, hq]
        · simp [writeFile, hq, hp]

section copyLoop

variable (t : Tools) (s : Sys) (h : harvester) (lib : Ptr) (rest : List Ptr) (d : Disk)

theorem copyLoop_exec (hexec : isExec s h lib = true) :
    copyLoop t s h (lib :: rest) d = copyLoop t s h rest d := by
  rw [copyLoop, if_pos hexec]

theorem copyLoop_exists (hexec : isExec s h lib = false)
    (hex : (d.files (destLibPath t s h lib)).isSome) (hforce : s.flagForce = false) :
    copyLoop t s h (lib :: rest) d =
      (d, status.err ("-force flag not set and destination file already exists: "
        ++ destLibPath t s h lib)) := by
  rw [copyLoop]
  simp [hexec, hex, hforce]

theorem copyLoop_copy (hexec : isExec s h lib = false)
    (hfree : ¬ ((d.files (destLibPath t s h lib)).isSome ∧ s.flagForce = false)) (d1 : Disk)
    (hc : copyFile s (cell h lib).path (destLibPath t s h lib) d = (d1, status.nil)) :
    copyLoop t s h (lib :: rest) d = copyLoop t s h rest d1 := by
  rw [copyLoop]
  simp only [hexec, Bool.false_eq_true, if_false, if_neg hfree, hc]

end copyLoop

/-- The loop of `copy` after an initial part that went through without error. -/
theorem copyLoop_append (t : Tools) (s : Sys) (h : harvester) (post : List Ptr) :
    ∀ pre d d1, copyLoop t s h pre d = (d1, status.nil) →
      copyLoop t s h (pre ++ post) d = copyLoop t s h post d1 := by
  intro pre
  induction pre with
  | nil =>
    intro d d1 hd
    simp only [copyLoop, Prod.mk.injEq, and_true] at hd
    subst hd; rfl
  | cons lib rest ih =>
    intro d d1 hd
    rw [List.cons_append]
    rw [copyLoop] at hd ⊢
    by_cases hexec : isExec s h lib = true
    · rw [if_pos hexec] at hd ⊢
      exact ih d d1 hd
    · rw [if_neg hexec] at hd ⊢
      by_cases hex : (d.files (destLibPath t s h lib)).isSome ∧ s.flagForce = false
      · rw [if_pos hex] at hd
        simp at hd
      · rw [if_neg hex] at hd ⊢
        cases hc : copyFile s (cell h lib).path (destLibPath t s h lib) d with
        | mk d2 e =>
          rw [hc] at hd
          cases e with
          | nil => exact ih d2 d1 hd
          | err msg => simp at hd
          | panic => simp at hd

/-- In a dry run the loop of `copy` leaves every file as it is. -/
theorem copyLoop_noop (t : Tools) (s : Sys) (h : harvester) (hn : s.flagNoop = true) :
    ∀ ptrs d, (copyLoop t s h ptrs d).1.files = d.files := by
  intro ptrs
  induction ptrs with
  | nil => intro d; rfl
  | cons lib rest ih =>
    intro d
    rw [copyLoop]
    split
    · exact ih d
    · split
      · rfl
      · rw [copyFile_noop s _ _ d hn]
        simp only
        rw [ih]

/-- A file that exists stays in existence through the loop of `copy`. -/
theorem copyLoop_files_mono (t : Tools) (s : Sys) (h : harvester) (p : String) :
    ∀ ptrs d, (d.files p).isSome → ((copyLoop t s h ptrs d).1.files p).isSome := by
  intro ptrs
  induction ptrs with
  | nil => intro d hp; exact hp
  | cons lib rest ih =>
    intro d hp
    rw [copyLoop]
    split
    · exact ih d hp
    · split
      · exact hp
      · have hm := copyFile_files_mono s (cell h lib).path (destLibPath t s h lib) d p hp
        cases hc : copyFile s (cell h lib).path (destLibPath t s h lib) d with
        | mk d2 e =>
          rw [hc] at hm
          cases e with
          | nil => exact ih d2 hm
          | err msg => exact hm
          | panic => exact hm

/-- The log of copies only grows through the loop of `copy`. -/
theorem copyLoop_copies_mono (t : Tools) (s : Sys) (h : harvester) (x : String × String) :
    ∀ ptrs d, x ∈ d.copies → x ∈ (copyLoop t s h ptrs d).1.copies := by
  intro ptrs
  induction ptrs with
  | nil => intro d hp; exact hp
  | cons lib rest ih =>
    intro d hp
    rw [copyLoop]
    split
    · exact ih d hp
    · split
      · exact hp
      · have hm : x ∈ (copyFile s (cell h lib).path (destLibPath t s h lib) d).1.copies := by
          rw [copyFile_copies]; exact List.mem_append_left _ hp
        cases hc : copyFile s (cell h lib).path (destLibPath t s h lib) d with
        | mk d2 e =>
          rw [hc] at hm
          cases e with
          | nil => exact ih d2 hm
          | err msg => exact hm
          | panic => exact hm

/-- After a run of the loop of `copy` that succeeds outside a dry run, every
library of the run that is not an executable path has been copied: the call is
in the log and the destination file exists. -/
theorem copyLoop_placed (t : Tools) (s : Sys) (h : harvester) (hn : s.flagNoop = false) :
    ∀ ptrs d d1, copyLoop t s h ptrs d = (d1, status.nil) →
      ∀ lib ∈ ptrs, isExec s h lib = false →
        (d1.files (destLibPath t s h lib)).isSome ∧
        ((cell h lib).path, destLibPath t s h lib) ∈ d1.copies := by
  intro ptrs
  induction ptrs with
  | nil => intro d d1 _ lib hl; exact absurd hl (List.not_mem_nil lib)
  | cons a rest ih =>
    intro d d1 hd lib hl hexec
    rw [copyLoop] at hd
    by_cases ha : isExec s h a = true
    · rw [if_pos ha] at hd
      rcases List.mem_cons.1 hl with heq | hin
      · rw [heq, ha] at hexec; cases hexec
      · exact ih d d1 hd lib hin hexec
    · rw [if_neg ha] at hd
      by_cases hex : (d.files (destLibPath t s h a)).isSome ∧ s.flagForce = false
      · rw [if_pos hex] at hd; simp at hd
      · rw [if_neg hex] at hd
        cases hc : copyFile s (cell h a).path (destLibPath t s h a) d with
        | mk d2 e =>
          rw [hc] at hd
          cases e with
          | err msg => simp at hd
          | panic => simp at hd
          | nil =>
            simp only at hd
            rcases List.mem_cons.1 hl with heq | hin
            · subst heq
              obtain ⟨_, _, hcopies, hfiles⟩ := copyFile_ok s _ _ d d2 hn hc
              have h1 : (d2.files (destLibPath t s h lib)).isSome := by
                rw [hfiles, writeFile_same]; rfl
              have h2 : ((cell h lib).path, destLibPath t s h lib) ∈ d2.copies := by
                rw [hcopies]; simp
              have hf := copyLoop_files_mono t s h _ rest d2 h1
              have hl := copyLoop_copies_mono t s h _ rest d2 h2
              rw [hd] at hf hl
              exact ⟨hf, hl⟩
            · exact ih d2 d1 hd lib hin hexec

/-- C12: with `force` unset, when `copy` has gone through the libraries `pre`
without error and reaches a library that is not an executable path and whose
destination exists, it returns the error naming that destination together
with the file system and the copy log exactly as the earlier copies left
them: nothing is copied for this library or for those after it, and nothing
is cleaned up. -/
theorem C12_destination_exists_aborts (t : Tools) (s : Sys) (h : harvester)
    (pre post : List (String × Ptr)) (n : String) (lib : Ptr) (d : Disk)
    (hforce : s.flagForce = false) (hexec : isExec s h lib = false)
    (hpre : (copy t s h pre d).2 = status.nil)
    (hexists : ((copy t s h pre d).1.files (destLibPath t s h lib)).isSome) :
    copy t s h (pre ++ (n, lib) :: post) d =
      ((copy t s h pre d).1,
        status.err ("-force flag not set and destination file already exists: "
          ++ destLibPath t s h lib)) := by
  unfold copy at hpre hexists ⊢
  have hp : copyLoop t s h (pre.map Prod.snd) d
      = ((copyLoop t s h (pre.map Prod.snd) d).1, status.nil) := Prod.ext rfl hpre
  rw [List.map_append, List.map_cons, copyLoop_append t s h _ _ d _ hp]
  exact copyLoop_exists t s h lib _ _ hexec hexists hforce

/-- Witness of C12 in the end-to-end scenario: `libfoo.dylib` is copied, then
the destination of `libbar.dylib` is found to exist. -/
theorem C12_destination_exists_aborts_witness :
    (plainSys "" false false).flagForce = false ∧
    isExec (plainSys "" false false) e2eFinal 3 = false ∧
    (copy (toolsOf e2eTable "/opt/app") (plainSys "" false false) e2eFinal
      [("libfoo.dylib", 1)] ⟨e2eFiles, []⟩).2 = status.nil ∧
    copy (toolsOf e2eTable "/opt/app") (plainSys "" false false) e2eFinal
        ([("libfoo.dylib", 1)] ++ ("libbar.dylib", 3) :: []) ⟨e2eFiles, []⟩ =
      ((copy (toolsOf e2eTable "/opt/app") (plainSys "" false false) e2eFinal
          [("libfoo.dylib", 1)] ⟨e2eFiles, []⟩).1,
        status.err ("-force flag not set and destination file already exists: "
          ++ destLibPath (toolsOf e2eTable "/opt/app") (plainSys "" false false) e2eFinal 3)) :=
  ⟨rfl, by decide, by decide,
    C12_destination_exists_aborts (toolsOf e2eTable "/opt/app") (plainSys "" false false)
      e2eFinal [("libfoo.dylib", 1)] [] "libbar.dylib" 3 ⟨e2eFiles, []⟩ rfl (by decide)
      (by decide) (by decide)⟩

/-- With `force` unset, a run of the loop of `copy` over libraries whose
destinations all exist, one of which at least is not an executable path,
fails at the first such library without touching anything. -/
theorem copyLoop_all_exist (t : Tools) (s : Sys) (h : harvester) (hforce : s.flagForce = false)
    (d : Disk) :
    ∀ ptrs, (∀ lib ∈ ptrs, isExec s h lib = false → (d.files (destLibPath t s h lib)).isSome) →
      (∃ lib ∈ ptrs, isExec s h lib = false) →
      ∃ lib ∈ ptrs, copyLoop t s h ptrs d =
        (d, status.err ("-force flag not set and destination file already exists: "
          ++ destLibPath t s h lib)) := by
  intro ptrs
  induction ptrs with
  | nil => rintro _ ⟨lib, hl, _⟩; exact absurd hl (List.not_mem_nil lib)
  | cons a rest ih =>
    intro hall hsome
    by_cases ha : isExec s h a = true
    · have hsome' : ∃ lib ∈ rest, isExec s h lib = false := by
        obtain ⟨lib, hl, he⟩ := hsome
        rcases List.mem_cons.1 hl with heq | hin
        · rw [heq, ha] at he; cases he
        · exact ⟨lib, hin, he⟩
      obtain ⟨lib, hl, hc⟩ := ih (fun lib hl => hall lib (List.mem_cons_of_mem _ hl)) hsome'
      exact ⟨lib, List.mem_cons_of_mem _ hl, by rw [copyLoop_exec t s h a rest d ha]; exact hc⟩
    · have ha' : isExec s h a = false := by simpa using ha
      exact ⟨a, List.mem_cons_self _ _,
        copyLoop_exists t s h a rest d ha' (hall a (List.mem_cons_self _ _) ha') hforce⟩

/-- C13: with `force` unset and outside a dry run, after a run of `copy` over a
library set with at least one library that is not an executable path has
succeeded, a second run on the resulting file system, in whatever order,
fails with the destination-exists error for one of the libraries, makes no
copy and leaves the file system as it is. -/
theorem C13_second_run_fails (t : Tools) (s : Sys) (h : harvester)
    (order1 order2 : List (String × Ptr)) (d : Disk)
    (hforce : s.flagForce = false) (hnoop : s.flagNoop = false)
    (hp1 : order1.Perm h.libs) (hp2 : order2.Perm h.libs)
    (hsome : ∃ e ∈ h.libs, isExec s h e.2 = false)
    (hrun : (copy t s h order1 d).2 = status.nil) :
    ∃ e ∈ h.libs, copy t s h order2 ⟨(copy t s h order1 d).1.files, []⟩ =
      (⟨(copy t s h order1 d).1.files, []⟩,
        status.err ("-force flag not set and destination file already exists: "
          ++ destLibPath t s h e.2)) := by
  unfold copy at hrun ⊢
  have hp : copyLoop t s h (order1.map Prod.snd) d
      = ((copyLoop t s h (order1.map Prod.snd) d).1, status.nil) := Prod.ext rfl hrun
  have hplaced := copyLoop_placed t s h hnoop _ d _ hp
  have hmem : ∀ lib, lib ∈ order2.map Prod.snd → lib ∈ order1.map Prod.snd := by
    intro lib hl
    exact ((hp2.trans hp1.symm).map Prod.snd).mem_iff.1 hl
  obtain ⟨lib, hl, hc⟩ := copyLoop_all_exist t s h hforce
    ⟨(copyLoop t s h (order1.map Prod.snd) d).1.files, []⟩ (order2.map Prod.snd)
    (fun lib hl he => (hplaced lib (hmem lib hl) he).1)
    (by
      obtain ⟨e, he, hx⟩ := hsome
      exact ⟨e.2, List.mem_map.2 ⟨e, hp2.mem_iff.2 he, rfl⟩, hx⟩)
  obtain ⟨e, he, hsnd⟩ := List.mem_map.1 hl
  exact ⟨e, hp2.mem_iff.1 he, by rw [hsnd]; exact hc⟩

/-- Witness of C13 on the diamond: `libA.dylib` and `libC.dylib` are copied,
and a second run in the opposite order fails. -/
theorem C13_second_run_fails_witness :
    (copy (toolsOf diamondTable "/opt/app") (plainSys "" false false) diamondFinal
      diamondFinal.libs ⟨diamondFiles, []⟩).2 = status.nil ∧
    ∃ e ∈ diamondFinal.libs,
      copy (toolsOf diamondTable "/opt/app") (plainSys "" false false) diamondFinal
          [("libC.dylib", 2), ("libA.dylib", 0)]
          ⟨(copy (toolsOf diamondTable "/opt/app") (plainSys "" false false) diamondFinal
            diamondFinal.libs ⟨diamondFiles, []⟩).1.files, []⟩ =
        (⟨(copy (toolsOf diamondTable "/opt/app") (plainSys "" false false) diamondFinal
            diamondFinal.libs ⟨diamondFiles, []⟩).1.files, []⟩,
          status.err ("-force flag not set and destination file already exists: "
            ++ destLibPath (toolsOf diamondTable "/opt/app") (plainSys "" false false)
              diamondFinal e.2)) :=
  ⟨by decide,
    C13_second_run_fails (toolsOf diamondTable "/opt/app") (plainSys "" false false)
      diamondFinal diamondFinal.libs [("libC.dylib", 2), ("libA.dylib", 0)] ⟨diamondFiles, []⟩
      rfl rfl (List.Perm.refl _) (List.Perm.swap _ _ _) ⟨("libA.dylib", 0), by decide, by decide⟩
      (by decide)⟩

theorem bundled_run : collect (toolsOf bundledTable "/opt/app") 2 (newHarvester "/opt/app/app")
    = some ⟨bundledFinal, status.nil⟩ := by
  decide

/-- C14 fails on the code: a library that already lies at its destination
(`/opt/app/libfoo.dylib`, three bytes, declared by that path, destination
directory the one of the root) is copied onto itself when `force` is set, and
`copy` succeeds leaving the file empty. -/
theorem C14_copy_onto_itself_truncates :
    collect (toolsOf bundledTable "/opt/app") 2 (newHarvester "/opt/app/app")
      = some ⟨bundledFinal, status.nil⟩ ∧
    isExec (plainSys "" true false) bundledFinal 0 = false ∧
    bundledFiles (cell bundledFinal 0).path = some [1, 2, 3] ∧
    (copy (toolsOf bundledTable "/opt/app") (plainSys "" true false) bundledFinal
      bundledFinal.libs ⟨bundledFiles, []⟩).2 = status.nil ∧
    (copy (toolsOf bundledTable "/opt/app") (plainSys "" true false) bundledFinal
      bundledFinal.libs ⟨bundledFiles, []⟩).1.files
        (destLibPath (toolsOf bundledTable "/opt/app") (plainSys "" true false) bundledFinal 0)
      = some [] :=
  ⟨bundled_run, by decide, by decide, by decide, by decide⟩

/-- C16: in a dry run `copy` leaves the file system as it is, for every library
set, either value of `force`, and whether or not it returns an error. -/
theorem C16_dry_run_changes_nothing (t : Tools) (s : Sys) (h : harvester)
    (order : List (String × Ptr)) (d : Disk) (hnoop : s.flagNoop = true) :
    (copy t s h order d).1.files = d.files :=
  copyLoop_noop t s h hnoop _ d

/-- Witness of C16 on the diamond. -/
theorem C16_dry_run_changes_nothing_witness :
    (plainSys "" false true).flagNoop = true ∧
    (copy (toolsOf diamondTable "/opt/app") (plainSys "" false true) diamondFinal
      diamondFinal.libs ⟨diamondFiles, []⟩).1.files = diamondFiles :=
  ⟨rfl, C16_dry_run_changes_nothing (toolsOf diamondTable "/opt/app") (plainSys "" false true)
    diamondFinal diamondFinal.libs ⟨diamondFiles, []⟩ rfl⟩

/-! ## Copying twice -/

theorem copyFile_eval (s : Sys) (src dst : String) (d : Disk) (b : Bytes)
    (hn : s.flagNoop = false) (hsrc : d.files src = some b) (hcr : s.osCreate dst = none) :
    copyFile s src dst d =
      (⟨writeFile d.files dst (if src = dst then [] else b), d.copies ++ [(src, dst)]⟩,
        status.nil) := by
  have hc : (copyFile s src dst d).2 = status.nil := by
    simp [copyFile, hn, hsrc, hcr]
  have hp : copyFile s src dst d = ((copyFile s src dst d).1, status.nil) := Prod.ext rfl hc
  obtain ⟨_, _, hcopies, hfiles⟩ := copyFile_ok s src dst d _ hn hp
  rw [hp]
  congr 1
  cases hd : (copyFile s src dst d).1 with
  | mk f c =>
    rw [hd] at hcopies hfiles
    simp only at hcopies hfiles
    rw [hcopies, hfiles, hsrc]
    rfl

/-- Copying a settled library leaves the file system as it is. -/
theorem copyFile_settled (t : Tools) (s : Sys) (h : harvester) (f : Files) (a : Ptr)
    (c : List (String × String)) (hn : s.flagNoop = false) (hs : settled t s h f a) :
    copyFile s (cell h a).path (destLibPath t s h a) ⟨f, c⟩ =
      (⟨f, c ++ [((cell h a).path, destLibPath t s h a)]⟩, status.nil) := by
  obtain ⟨hsrc, hcr, hdst⟩ := hs
  obtain ⟨b, hb⟩ := Option.isSome_iff_exists.1 hsrc
  rw [copyFile_eval s _ _ ⟨f, c⟩ b hn hb hcr]
  congr 2
  funext q
  by_cases hq : q = destLibPath t s h a
  · rw [hq, writeFile_same, hdst, hb]
    rfl
  · rw [writeFile_other _ _ _ _ hq]

/-- With `force` set, the loop of `copy` over settled libraries succeeds and
leaves the file system as it is. -/
theorem copyLoop_settled (t : Tools) (s : Sys) (h : harvester) (f : Files)
    (hforce : s.flagForce = true) (hn : s.flagNoop = false) :
    ∀ ptrs, (∀ a ∈ ptrs, isExec s h a = false → settled t s h f a) →
      ∀ c, ∃ c', copyLoop t s h ptrs ⟨f, c⟩ = (⟨f, c'⟩, status.nil) := by
  intro ptrs
  induction ptrs with
  | nil => intro _ c; exact ⟨c, rfl⟩
  | cons a rest ih =>
    intro hall c
    have ih' := ih (fun b hb => hall b (List.mem_cons_of_mem _ hb))
    by_cases ha : isExec s h a = true
    · rw [copyLoop_exec t s h a rest _ ha]
      exact ih' c
    · have ha' : isExec s h a = false := by simpa using ha
      have hfree : ¬ (((⟨f, c⟩ : Disk).files (destLibPath t s h a)).isSome ∧
          s.flagForce = false) := by
        rw [hforce]; simp
      rw [copyLoop_copy t s h a rest ⟨f, c⟩ ha' hfree _
        (copyFile_settled t s h f a c hn (hall a (List.mem_cons_self _ _) ha'))]
      exact ih' _

/-- In a dry run with `force` set, the loop of `copy` succeeds. -/
theorem copyLoop_noop_ok (t : Tools) (s : Sys) (h : harvester)
    (hforce : s.flagForce = true) (hn : s.flagNoop = true) :
    ∀ ptrs d, (copyLoop t s h ptrs d).2 = status.nil := by
  intro ptrs
  induction ptrs with
  | nil => intro d; rfl
  | cons a rest ih =>
    intro d
    rw [copyLoop]
    split
    · exact ih d
    · split
      · next hex => rw [hforce] at hex; simp at hex
      · rw [copyFile_noop s _ _ d hn]
        exact ih _

/-- A settled library stays settled through the copies of libraries that do not
clash with it. -/
theorem settled_preserved (t : Tools) (s : Sys) (h : harvester) (a : Ptr)
    (hn : s.flagNoop = false) :
    ∀ ptrs d d1, copyLoop t s h ptrs d = (d1, status.nil) → settled t s h d.files a →
      (∀ b ∈ ptrs, (destLibPath t s h b = destLibPath t s h a ∨
        destLibPath t s h b = (cell h a).path) → b = a) →
      settled t s h d1.files a := by
  intro ptrs
  induction ptrs with
  | nil =>
    intro d d1 hd hs _
    simp only [copyLoop, Prod.mk.injEq, and_true] at hd
    rw [← hd]; exact hs
  | cons b rest ih =>
    intro d d1 hd hs hclash
    have hclash' := fun c hc => hclash c (List.mem_cons_of_mem _ hc)
    rw [copyLoop] at hd
    by_cases hb : isExec s h b = true
    · rw [if_pos hb] at hd
      exact ih d d1 hd hs hclash'
    · rw [if_neg hb] at hd
      by_cases hex : (d.files (destLibPath t s h b)).isSome ∧ s.flagForce = false
      · rw [if_pos hex] at hd; simp at hd
      · rw [if_neg hex] at hd
        cases hc : copyFile s (cell h b).path (destLibPath t s h b) d with
        | mk d2 e =>
          rw [hc] at hd
          cases e with
          | err msg => simp at hd
          | panic => simp at hd
          | nil =>
            simp only at hd
            refine ih d2 d1 hd ?_ hclash'
            obtain ⟨_, _, _, hfiles⟩ := copyFile_ok s _ _ d d2 hn hc
            by_cases hba : b = a
            · subst hba
              have := copyFile_settled t s h d.files b d.copies hn hs
              rw [hc] at this
              simp only [Prod.mk.injEq, and_true] at this
              rw [this]
              exact hs
            · have h1 : destLibPath t s h a ≠ destLibPath t s h b :=
                fun e => hba (hclash b (List.mem_cons_self _ _) (Or.inl e.symm))
              have h2 : (cell h a).path ≠ destLibPath t s h b :=
                fun e => hba (hclash b (List.mem_cons_self _ _) (Or.inr e.symm))
              obtain ⟨hsrc, hcr, hdst⟩ := hs
              refine ⟨?_, hcr, ?_⟩
              · rw [hfiles, writeFile_other _ _ _ _ h2]; exact hsrc
              · rw [hfiles, writeFile_other _ _ _ _ h1, writeFile_other _ _ _ _ h2]; exact hdst

/-- After a run of the loop of `copy` that succeeds outside a dry run over
libraries that do not clash, every library of the run that is not an
executable path is settled. -/
theorem copyLoop_settles (t : Tools) (s : Sys) (h : harvester) (hn : s.flagNoop = false) :
    ∀ ptrs d d1, copyLoop t s h ptrs d = (d1, status.nil) → noClash t s h ptrs →
      ∀ a ∈ ptrs, isExec s h a = false → settled t s h d1.files a := by
  intro ptrs
  induction ptrs with
  | nil => intro d d1 _ _ a ha; exact absurd ha (List.not_mem_nil a)
  | cons b rest ih =>
    intro d d1 hd hcl a ha hexec
    have hcl' : noClash t s h rest :=
      fun x hx y hy => hcl x (List.mem_cons_of_mem _ hx) y (List.mem_cons_of_mem _ hy)
    have hd0 := hd
    rw [copyLoop] at hd
    by_cases hb : isExec s h b = true
    · rw [if_pos hb] at hd
      rcases List.mem_cons.1 ha with heq | hin
      · rw [heq, hb] at hexec; cases hexec
      · exact ih d d1 hd hcl' a hin hexec
    · rw [if_neg hb] at hd
      by_cases hex : (d.files (destLibPath t s h b)).isSome ∧ s.flagForce = false
      · rw [if_pos hex] at hd; simp at hd
      · rw [if_neg hex] at hd
        cases hc : copyFile s (cell h b).path (destLibPath t s h b) d with
        | mk d2 e =>
          rw [hc] at hd
          cases e with
          | err msg => simp at hd
          | panic => simp at hd
          | nil =>
            simp only at hd
            by_cases hab : a = b
            · subst hab
              obtain ⟨hsrc, hcr, _, hfiles⟩ := copyFile_ok s _ _ d d2 hn hc
              obtain ⟨x, hx⟩ := Option.isSome_iff_exists.1 hsrc
              have hs2 : settled t s h d2.files a := by
                refine ⟨?_, hcr, ?_⟩
                · rw [hfiles]
                  by_cases hp : (cell h a).path = destLibPath t s h a
                  · rw [hp, writeFile_same]; rfl
                  · rw [writeFile_other _ _ _ _ hp]; exact hsrc
                · rw [hfiles, writeFile_same]
                  by_cases hp : (cell h a).path = destLibPath t s h a
                  · simp [hp]
                  · rw [writeFile_other _ _ _ _ hp]
              exact settled_preserved t s h a hn rest d2 d1 hd hs2
                (fun c hc hcc => hcl a (List.mem_cons_self _ _) c (List.mem_cons_of_mem _ hc) hcc)
            · rcases List.mem_cons.1 ha with heq | hin
              · exact absurd heq hab
              · exact ih d2 d1 hd hcl' a hin hexec

/-- Libraries filed under their names, which are the base filenames of their
declared paths and of their destinations, do not clash. -/
theorem noClash_of_base (t : Tools) (s : Sys) (h : harvester) (w : WF h) (base : String → String)
    (hbase : ∀ e ∈ h.libs, base (cell h e.2).path = e.1 ∧ base (destLibPath t s h e.2) = e.1)
    (order : List (String × Ptr)) (hp : order.Perm h.libs) :
    noClash t s h (order.map Prod.snd) := by
  intro a ha b hb hc
  obtain ⟨ea, hea, rfl⟩ := List.mem_map.1 ha
  obtain ⟨eb, heb, rfl⟩ := List.mem_map.1 hb
  have hea' := hp.mem_iff.1 hea
  have heb' := hp.mem_iff.1 heb
  have hkey : eb.1 = ea.1 := by
    rcases hc with hc | hc
    · rw [← (hbase eb heb').2, ← (hbase ea hea').2, hc]
    · rw [← (hbase eb heb').2, ← (hbase ea hea').1, hc]
  have hga := mapGet_of_mem h.libs ea.1 ea.2 w.libsKeys hea'
  have hgb := mapGet_of_mem h.libs eb.1 eb.2 w.libsKeys heb'
  rw [hkey, hga] at hgb
  exact (Option.some.inj hgb).symm

/-- C15: with `force` set, for a library set filed under names that are the
base filenames of the declared paths (and of the destinations), if a run of
`copy` succeeds then a second run on the resulting file system, in whatever
order, succeeds too and leaves every file, the destinations included, with
the bytes it had after the first run. -/
theorem C15_force_copy_idempotent (t : Tools) (s : Sys) (h : harvester) (w : WF h)
    (base : String → String) (order1 order2 : List (String × Ptr)) (d : Disk)
    (hforce : s.flagForce = true)
    (hp1 : order1.Perm h.libs) (hp2 : order2.Perm h.libs)
    (hbase : ∀ e ∈ h.libs, base (cell h e.2).path = e.1 ∧ base (destLibPath t s h e.2) = e.1)
    (hrun : (copy t s h order1 d).2 = status.nil) :
    (copy t s h order2 ⟨(copy t s h order1 d).1.files, []⟩).2 = status.nil ∧
    (copy t s h order2 ⟨(copy t s h order1 d).1.files, []⟩).1.files =
      (copy t s h order1 d).1.files := by
  unfold copy at hrun ⊢
  cases hn : s.flagNoop with
  | true =>
    exact ⟨copyLoop_noop_ok t s h hforce hn _ _, copyLoop_noop t s h hn _ _⟩
  | false =>
    have hp : copyLoop t s h (order1.map Prod.snd) d
        = ((copyLoop t s h (order1.map Prod.snd) d).1, status.nil) := Prod.ext rfl hrun
    have hset := copyLoop_settles t s h hn _ d _ hp (noClash_of_base t s h w base hbase order1 hp1)
    have hmem : ∀ lib, lib ∈ order2.map Prod.snd → lib ∈ order1.map Prod.snd := by
      intro lib hl
      exact ((hp2.trans hp1.symm).map Prod.snd).mem_iff.1 hl
    obtain ⟨c', hc'⟩ := copyLoop_settled t s h (copyLoop t s h (order1.map Prod.snd) d).1.files
      hforce hn (order2.map Prod.snd) (fun a ha he => hset a (hmem a ha) he) []
    rw [hc']
    exact ⟨rfl, rfl⟩

/-! ## Rewriting the references -/

theorem fixList_ok (s : Sys) (h : harvester) (target : String) :
    ∀ deps log log1, fixList s h target deps log = (log1, status.nil) →
      log1 = log ++ rewritesOf s h target deps := by
  intro deps
  induction deps with
  | nil =>
    intro log log1 hf
    simp only [fixList, Prod.mk.injEq, and_true] at hf
    simp [rewritesOf, hf]
  | cons dep rest ih =>
    intro log log1 hf
    rw [fixList] at hf
    by_cases hd : isExec s h dep = true
    · rw [if_pos hd] at hf
      rw [ih log log1 hf]
      simp [rewritesOf, hd]
    · rw [if_neg hd] at hf
      have hd' : isExec s h dep = false := by simpa using hd
      cases hi : s.installNameChange target (cell h dep).name (cell h dep).path with
      | some e => rw [hi] at hf; simp at hf
      | none =>
        rw [hi] at hf
        rw [ih _ log1 hf]
        simp [rewritesOf, hd']

theorem fixLibs_ok (t : Tools) (s : Sys) (h : harvester) :
    ∀ ptrs log log1, fixLibs t s h ptrs log = (log1, status.nil) →
      log1 = log ++ ptrs.flatMap
        (fun lib => rewritesOf s h (destLibPath t s h lib) (cell h lib).deps) := by
  intro ptrs
  induction ptrs with
  | nil =>
    intro log log1 hf
    simp only [fixLibs, Prod.mk.injEq, and_true] at hf
    simp [hf]
  | cons lib rest ih =>
    intro log log1 hf
    rw [fixLibs] at hf
    cases hc : fixList s h (destLibPath t s h lib) (cell h lib).deps log with
    | mk log2 e =>
      rw [hc] at hf
      cases e with
      | err msg => simp at hf
      | panic => simp at hf
      | nil =>
        simp only at hf
        rw [ih log2 log1 hf, fixList_ok s h _ _ log log2 hc]
        simp

theorem fixReferences_ok (t : Tools) (s : Sys) (h : harvester)
    (od ol : List (String × Ptr)) (log : List (String × Ptr))
    (hf : fixReferences t s h od ol = (log, status.nil)) :
    log = expectedRewrites t s h od ol := by
  unfold fixReferences at hf
  cases hc : fixList s h h.root (od.map Prod.snd) [] with
  | mk log1 e =>
    rw [hc] at hf
    cases e with
    | err msg => simp at hf
    | panic => simp at hf
    | nil =>
      simp only at hf
      rw [fixLibs_ok t s h _ log1 log hf, fixList_ok s h _ _ [] log1 hc]
      simp [expectedRewrites]

theorem expectedRewrites_perm (t : Tools) (s : Sys) (h : harvester)
    (od ol od' ol' : List (String × Ptr)) (hod : od.Perm od') (hol : ol.Perm ol') :
    (expectedRewrites t s h od ol).Perm (expectedRewrites t s h od' ol') := by
  unfold expectedRewrites rewritesOf
  exact List.Perm.append (((hod.map Prod.snd).filter _).map _)
    (List.Perm.flatMap_right _ (hol.map Prod.snd))

/-- C17: when `fixReferences` succeeds, the rewrite calls it has made are, in
the order of the run, one against the root for each entry of `deps` that is
not an executable path, then, for each library of `libs`, one against the
destination of the library for each entry of its dependency list that is not
an executable path; up to the order in which the maps are visited these are
the calls computed from `deps` and `libs` themselves, and there is no other
call. -/
theorem C17_rewrite_calls (t : Tools) (s : Sys) (h : harvester)
    (orderDeps orderLibs : List (String × Ptr)) (log : List (String × Ptr))
    (hod : orderDeps.Perm h.deps) (hol : orderLibs.Perm h.libs)
    (hfix : fixReferences t s h orderDeps orderLibs = (log, status.nil)) :
    log = expectedRewrites t s h orderDeps orderLibs ∧
    log.Perm (expectedRewrites t s h h.deps h.libs) ∧
    ∀ target dep, (target, dep) ∈ log ↔
      isExec s h dep = false ∧
      ((target = h.root ∧ ∃ n, (n, dep) ∈ h.deps) ∨
       ∃ e ∈ h.libs, target = destLibPath t s h e.2 ∧ dep ∈ (cell h e.2).deps) := by
  have hlog := fixReferences_ok t s h orderDeps orderLibs log hfix
  have hperm : log.Perm (expectedRewrites t s h h.deps h.libs) := by
    rw [hlog]; exact expectedRewrites_perm t s h _ _ _ _ hod hol
  refine ⟨hlog, hperm, fun target dep => ?_⟩
  rw [hperm.mem_iff]
  simp only [expectedRewrites, rewritesOf, List.mem_append, List.mem_map, List.mem_filter,
    List.mem_flatMap, Prod.mk.injEq, Bool.not_eq_true', Prod.exists]
  constructor
  · rintro (⟨d, ⟨⟨n, p, hmem, hpd⟩, hex⟩, ht, hdd⟩ | ⟨L, ⟨n, p, hmem, hpL⟩, d, ⟨hd, hex⟩, ht, hdd⟩)
    · subst hpd hdd
      exact ⟨hex, Or.inl ⟨ht.symm, n, hmem⟩⟩
    · subst hpL hdd
      exact ⟨hex, Or.inr ⟨n, p, hmem, ht.symm, hd⟩⟩
  · rintro ⟨hex, ⟨ht, n, hmem⟩ | ⟨n, L, hmem, ht, hd⟩⟩
    · exact Or.inl ⟨dep, ⟨⟨n, dep, hmem, rfl⟩, hex⟩, ht.symm, rfl⟩
    · exact Or.inr ⟨L, ⟨n, L, hmem, rfl⟩, dep, ⟨hd, hex⟩, ht.symm, rfl⟩

/-- Witness of C17 on the diamond. -/
theorem C17_rewrite_calls_witness :
    fixReferences (toolsOf diamondTable "/opt/app") (plainSys "" true false) diamondFinal
        diamondFinal.deps diamondFinal.libs =
      ([("/opt/app/app", 0), ("/opt/app/app", 1), ("/opt/app/libA.dylib", 2)], status.nil) ∧
    [("/opt/app/app", 0), ("/opt/app/app", 1), ("/opt/app/libA.dylib", 2)] =
      expectedRewrites (toolsOf diamondTable "/opt/app") (plainSys "" true false) diamondFinal
        diamondFinal.deps diamondFinal.libs :=
  ⟨by decide,
    (C17_rewrite_calls (toolsOf diamondTable "/opt/app") (plainSys "" true false) diamondFinal
      diamondFinal.deps diamondFinal.libs
      [("/opt/app/app", 0), ("/opt/app/app", 1), ("/opt/app/libA.dylib", 2)]
      (List.Perm.refl _) (List.Perm.refl _) (by decide)).1⟩

/-- Witness of C15 on the diamond, the second run in the opposite order. -/
theorem C15_force_copy_idempotent_witness :
    (copy (toolsOf diamondTable "/opt/app") (plainSys "" true false) diamondFinal
      diamondFinal.libs ⟨diamondFiles, []⟩).2 = status.nil ∧
    (copy (toolsOf diamondTable "/opt/app") (plainSys "" true false) diamondFinal
      [("libC.dylib", 2), ("libA.dylib", 0)]
      ⟨(copy (toolsOf diamondTable "/opt/app") (plainSys "" true false) diamondFinal
        diamondFinal.libs ⟨diamondFiles, []⟩).1.files, []⟩).2 = status.nil ∧
    (copy (toolsOf diamondTable "/opt/app") (plainSys "" true false) diamondFinal
      [("libC.dylib", 2), ("libA.dylib", 0)]
      ⟨(copy (toolsOf diamondTable "/opt/app") (plainSys "" true false) diamondFinal
        diamondFinal.libs ⟨diamondFiles, []⟩).1.files, []⟩).1.files =
      (copy (toolsOf diamondTable "/opt/app") (plainSys "" true false) diamondFinal
        diamondFinal.libs ⟨diamondFiles, []⟩).1.files :=
  ⟨by decide,
    C15_force_copy_idempotent (toolsOf diamondTable "/opt/app") (plainSys "" true false)
      diamondFinal
      (collect_WF (toolsOf diamondTable "/opt/app") 3 "/opt/app/app"
        ⟨diamondFinal, status.nil⟩ diamond_run)
      baseName diamondFinal.libs [("libC.dylib", 2), ("libA.dylib", 0)] ⟨diamondFiles, []⟩
      rfl (List.Perm.refl _) (List.Perm.swap _ _ _) (by decide) (by decide)⟩

theorem fixList_succeeds (s : Sys) (h : harvester) (target : String)
    (hok : ∀ a b c, s.installNameChange a b c = none) :
    ∀ deps log, (fixList s h target deps log).2 = status.nil := by
  intro deps
  induction deps with
  | nil => intro log; rfl
  | cons dep rest ih =>
    intro log
    rw [fixList]
    split
    · exact ih log
    · rw [hok]
      exact ih _

theorem fixLibs_succeeds (t : Tools) (s : Sys) (h : harvester)
    (hok : ∀ a b c, s.installNameChange a b c = none) :
    ∀ ptrs log, (fixLibs t s h ptrs log).2 = status.nil := by
  intro ptrs
  induction ptrs with
  | nil => intro log; rfl
  | cons lib rest ih =>
    intro log
    rw [fixLibs]
    have hs := fixList_succeeds s h (destLibPath t s h lib) hok (cell h lib).deps log
    cases hc : fixList s h (destLibPath t s h lib) (cell h lib).deps log with
    | mk log2 e =>
      rw [hc] at hs
      simp only at hs
      subst hs
      exact ih log2

theorem fixReferences_succeeds (t : Tools) (s : Sys) (h : harvester)
    (hok : ∀ a b c, s.installNameChange a b c = none) (od ol : List (String × Ptr)) :
    (fixReferences t s h od ol).2 = status.nil := by
  unfold fixReferences
  have hs := fixList_succeeds s h h.root hok (od.map Prod.snd) []
  cases hc : fixList s h h.root (od.map Prod.snd) [] with
  | mk log1 e =>
    rw [hc] at hs
    simp only at hs
    subst hs
    exact fixLibs_succeeds t s h hok _ _

/-- Without the flag on the self-reference records: in the end-to-end scenario,
self-reference records not being executable paths, `fixReferences` after `collect` makes four rewrite
calls: against `app` for `libfoo.dylib`, against the destination of
`libfoo.dylib` for its own self-reference record (address 2) and for
`libbar.dylib`, and against the destination of `libbar.dylib` for its own
self-reference record (address 4). -/
theorem e2e_four_rewrite_calls_unflagged :
    collect (toolsOf e2eTable "/opt/app") 3 (newHarvester "/opt/app/app")
      = some ⟨e2eFinal, status.nil⟩ ∧
    fixReferences (toolsOf e2eTable "/opt/app") (plainSys "" true false) e2eFinal
        e2eFinal.deps e2eFinal.libs =
      ([("/opt/app/app", 1), ("/opt/app/libfoo.dylib", 2), ("/opt/app/libfoo.dylib", 3),
        ("/opt/app/libbar.dylib", 4)], status.nil) ∧
    (fixReferences (toolsOf e2eTable "/opt/app") (plainSys "" true false) e2eFinal
        e2eFinal.deps e2eFinal.libs).1.length ≠ 2 :=
  ⟨e2e_run, by decide, by decide⟩

/-- The rewrite calls of the end-to-end scenario in general: the rewrite
command succeeding and the records of `libfoo.dylib` and `libbar.dylib` as
dependencies not being executable paths, `fixReferences` after `collect`
calls the rewrite command against `app` for `libfoo.dylib`, against the
destination of `libfoo.dylib` for `libbar.dylib`, and in addition against the
destination of each library for the self-reference record in that library's
own dependency list, unless that record is an executable path; in whatever
order `libs` is visited. -/
theorem e2e_rewrites (s : Sys) (order : List (String × Ptr))
    (hperm : order.Perm e2eFinal.libs)
    (hok : ∀ a b c, s.installNameChange a b c = none)
    (hfoo : isExec s e2eFinal 1 = false) (hbar : isExec s e2eFinal 3 = false) :
    collect (toolsOf e2eTable "/opt/app") 3 (newHarvester "/opt/app/app")
      = some ⟨e2eFinal, status.nil⟩ ∧
    (fixReferences (toolsOf e2eTable "/opt/app") s e2eFinal e2eFinal.deps order).2
      = status.nil ∧
    (fixReferences (toolsOf e2eTable "/opt/app") s e2eFinal e2eFinal.deps order).1.Perm
      ([("/opt/app/app", 1)] ++
        (if isExec s e2eFinal 2 then []
          else [(destLibPath (toolsOf e2eTable "/opt/app") s e2eFinal 1, 2)]) ++
        [(destLibPath (toolsOf e2eTable "/opt/app") s e2eFinal 1, 3)] ++
        (if isExec s e2eFinal 4 then []
          else [(destLibPath (toolsOf e2eTable "/opt/app") s e2eFinal 3, 4)])) := by
  have hst := fixReferences_succeeds (toolsOf e2eTable "/opt/app") s e2eFinal hok
    e2eFinal.deps order
  refine ⟨e2e_run, hst, ?_⟩
  have hlog := fixReferences_ok (toolsOf e2eTable "/opt/app") s e2eFinal e2eFinal.deps order _
    (Prod.ext rfl hst)
  refine (List.Perm.of_eq hlog).trans ?_
  refine (expectedRewrites_perm _ s e2eFinal _ _ _ _ (List.Perm.refl _) hperm).trans ?_
  have hd : e2eFinal.deps.map Prod.snd = [1] := rfl
  have hl : e2eFinal.libs.map Prod.snd = [1, 3] := rfl
  have hc1 : (cell e2eFinal 1).deps = [2, 3] := rfl
  have hc3 : (cell e2eFinal 3).deps = [4] := rfl
  have hr : e2eFinal.root = "/opt/app/app" := rfl
  unfold expectedRewrites rewritesOf
  rw [hd, hl, hr]
  simp only [List.flatMap_cons, List.flatMap_nil, hc1, hc3, List.filter_cons, List.filter_nil,
    hfoo, hbar, Bool.not_false, if_true, List.map_cons, List.map_nil, List.append_nil]
  cases isExec s e2eFinal 2 <;> cases isExec s e2eFinal 4 <;> simp

/-- The same where no record is an executable path: four calls. -/
theorem e2e_rewrites_unflagged :
    e2eFinal.libs.Perm e2eFinal.libs ∧
    (fixReferences (toolsOf e2eTable "/opt/app") (plainSys "" true false) e2eFinal
      e2eFinal.deps e2eFinal.libs).1.Perm
      ([("/opt/app/app", 1)] ++
        (if isExec (plainSys "" true false) e2eFinal 2 then []
          else [(destLibPath (toolsOf e2eTable "/opt/app") (plainSys "" true false)
            e2eFinal 1, 2)]) ++
        [(destLibPath (toolsOf e2eTable "/opt/app") (plainSys "" true false) e2eFinal 1, 3)] ++
        (if isExec (plainSys "" true false) e2eFinal 4 then []
          else [(destLibPath (toolsOf e2eTable "/opt/app") (plainSys "" true false)
            e2eFinal 3, 4)])) :=
  ⟨List.Perm.refl _,
    (e2e_rewrites (plainSys "" true false) e2eFinal.libs (List.Perm.refl _)
      (fun _ _ _ => rfl) (by decide) (by decide)).2.2⟩

/-! ## Rewriting after copying -/

theorem fixList_mem (s : Sys) (h : harvester) (target : String) (x : String × Ptr) :
    ∀ deps log, x ∈ (fixList s h target deps log).1 →
      x ∈ log ∨ (x.1 = target ∧ x.2 ∈ deps ∧ isExec s h x.2 = false) := by
  intro deps
  induction deps with
  | nil => intro log hx; exact Or.inl hx
  | cons dep rest ih =>
    intro log hx
    rw [fixList] at hx
    by_cases hd : isExec s h dep = true
    · rw [if_pos hd] at hx
      rcases ih log hx with hl | ⟨h1, h2, h3⟩
      · exact Or.inl hl
      · exact Or.inr ⟨h1, List.mem_cons_of_mem _ h2, h3⟩
    · rw [if_neg hd] at hx
      have hd' : isExec s h dep = false := by simpa using hd
      have hnew : ∀ y, y ∈ log ++ [(target, dep)] →
          y ∈ log ∨ (y.1 = target ∧ y.2 ∈ dep :: rest ∧ isExec s h y.2 = false) := by
        intro y hy
        rcases List.mem_append.1 hy with hl | hl
        · exact Or.inl hl
        · rw [List.mem_singleton] at hl
          rw [hl]
          exact Or.inr ⟨rfl, List.mem_cons_self _ _, hd'⟩
      cases hi : s.installNameChange target (cell h dep).name (cell h dep).path with
      | some e =>
        rw [hi] at hx
        exact hnew x hx
      | none =>
        rw [hi] at hx
        rcases ih _ hx with hl | ⟨h1, h2, h3⟩
        · exact hnew x hl
        · exact Or.inr ⟨h1, List.mem_cons_of_mem _ h2, h3⟩

theorem fixLibs_mem (t : Tools) (s : Sys) (h : harvester) (x : String × Ptr) :
    ∀ ptrs log, x ∈ (fixLibs t s h ptrs log).1 →
      x ∈ log ∨ ∃ lib ∈ ptrs, x.1 = destLibPath t s h lib ∧ x.2 ∈ (cell h lib).deps ∧
        isExec s h x.2 = false := by
  intro ptrs
  induction ptrs with
  | nil => intro log hx; exact Or.inl hx
  | cons lib rest ih =>
    intro log hx
    rw [fixLibs] at hx
    have hm := fixList_mem s h (destLibPath t s h lib) x (cell h lib).deps log
    cases hc : fixList s h (destLibPath t s h lib) (cell h lib).deps log with
    | mk log2 e =>
      rw [hc] at hx hm
      have hx2 : x ∈ log2 ∨ ∃ l ∈ rest, x.1 = destLibPath t s h l ∧ x.2 ∈ (cell h l).deps ∧
          isExec s h x.2 = false := by
        cases e with
        | nil => exact ih log2 hx
        | err msg => exact Or.inl hx
        | panic => exact Or.inl hx
      rcases hx2 with hl | ⟨l, hl, hr⟩
      · rcases hm hl with hl' | hr
        · exact Or.inl hl'
        · exact Or.inr ⟨lib, List.mem_cons_self _ _, hr⟩
      · exact Or.inr ⟨l, List.mem_cons_of_mem _ hl, hr⟩

/-- Every rewrite call of `fixReferences` is a call of the first loop, against
the root for an entry of `deps`, or a call of the second loop, against the
destination of a library for an entry of its dependency list. -/
theorem fixReferences_mem (t : Tools) (s : Sys) (h : harvester)
    (od ol : List (String × Ptr)) (x : String × Ptr)
    (hx : x ∈ (fixReferences t s h od ol).1) :
    (x.1 = h.root ∧ x.2 ∈ od.map Prod.snd ∧ isExec s h x.2 = false) ∨
    ∃ lib ∈ ol.map Prod.snd, x.1 = destLibPath t s h lib ∧ x.2 ∈ (cell h lib).deps ∧
      isExec s h x.2 = false := by
  unfold fixReferences at hx
  have hm := fixList_mem s h h.root x (od.map Prod.snd) []
  cases hc : fixList s h h.root (od.map Prod.snd) [] with
  | mk log1 e =>
    rw [hc] at hx hm
    have hx2 : x ∈ log1 ∨ ∃ lib ∈ ol.map Prod.snd, x.1 = destLibPath t s h lib ∧
        x.2 ∈ (cell h lib).deps ∧ isExec s h x.2 = false := by
      cases e with
      | nil => exact fixLibs_mem t s h x _ log1 hx
      | err msg => exact Or.inl hx
      | panic => exact Or.inl hx
    rcases hx2 with hl | hr
    · rcases hm hl with hl' | hr
      · exact absurd hl' (List.not_mem_nil x)
      · exact Or.inl hr
    · exact Or.inr hr

theorem framework_run :
    collect (toolsOf frameworkTable "/opt/app") 3 (newHarvester "/opt/app/app")
      = some ⟨frameworkFinal, status.nil⟩ := by
  decide

/-- C19 fails on the code: `libx.dylib`, reached through the executable-path
token, is skipped by `copy`, yet `fixReferences` rewrites its destination
`/opt/bundle/libx.dylib` for its dependency `liby.dylib`; after the successful
copy there is no file at that path and no copy with that destination. -/
theorem C19_rewrite_target_not_copied :
    collect (toolsOf frameworkTable "/opt/app") 3 (newHarvester "/opt/app/app")
      = some ⟨frameworkFinal, status.nil⟩ ∧
    (copy (toolsOf frameworkTable "/opt/app") (plainSys "/opt/bundle" false false)
      frameworkFinal frameworkFinal.libs ⟨frameworkFiles, []⟩).2 = status.nil ∧
    fixReferences (toolsOf frameworkTable "/opt/app") (plainSys "/opt/bundle" false false)
      frameworkFinal frameworkFinal.deps frameworkFinal.libs
      = ([("/opt/bundle/libx.dylib", 1)], status.nil) ∧
    (copy (toolsOf frameworkTable "/opt/app") (plainSys "/opt/bundle" false false)
      frameworkFinal frameworkFinal.libs ⟨frameworkFiles, []⟩).1.files "/opt/bundle/libx.dylib"
      = none ∧
    (copy (toolsOf frameworkTable "/opt/app") (plainSys "/opt/bundle" false false)
      frameworkFinal frameworkFinal.libs ⟨frameworkFiles, []⟩).1.copies
      = [("/usr/lib/liby.dylib", "/opt/bundle/liby.dylib")] :=
  ⟨framework_run, by decide, by decide, by decide, by decide⟩

/-- Where the rewrite targets are copied: every rewrite call of
`fixReferences` is against the root, for an entry of `deps`, or against the
destination of a library of `libs`, for an entry of its dependency list that
is not an executable path; and when that library is not an executable path
itself, a successful `copy` outside a dry run, over the same libraries and
destination directory, has put a file at that destination by a copy from the
declared path of the library. -/
theorem rewrite_targets_are_copied (t : Tools) (s : Sys) (h : harvester)
    (orderCopy orderDeps orderLibs : List (String × Ptr)) (d : Disk)
    (hnoop : s.flagNoop = false)
    (hpc : orderCopy.Perm h.libs) (hpl : orderLibs.Perm h.libs)
    (hcopy : (copy t s h orderCopy d).2 = status.nil)
    (x : String × Ptr) (hx : x ∈ (fixReferences t s h orderDeps orderLibs).1) :
    (x.1 = h.root ∧ x.2 ∈ orderDeps.map Prod.snd ∧ isExec s h x.2 = false) ∨
    ∃ e ∈ h.libs, x.1 = destLibPath t s h e.2 ∧ x.2 ∈ (cell h e.2).deps ∧
      isExec s h x.2 = false ∧
      (isExec s h e.2 = false →
        ((copy t s h orderCopy d).1.files x.1).isSome ∧
        ((cell h e.2).path, x.1) ∈ (copy t s h orderCopy d).1.copies) := by
  rcases fixReferences_mem t s h orderDeps orderLibs x hx with hroot | ⟨lib, hl, h1, h2, h3⟩
  · exact Or.inl hroot
  · obtain ⟨e, he, hsnd⟩ := List.mem_map.1 hl
    subst hsnd
    refine Or.inr ⟨e, hpl.mem_iff.1 he, h1, h2, h3, fun hexec => ?_⟩
    unfold copy at hcopy ⊢
    have hp : copyLoop t s h (orderCopy.map Prod.snd) d
        = ((copyLoop t s h (orderCopy.map Prod.snd) d).1, status.nil) := Prod.ext rfl hcopy
    have hmem : e.2 ∈ orderCopy.map Prod.snd :=
      List.mem_map.2 ⟨e, (hpc.trans hpl.symm).mem_iff.2 he, rfl⟩
    rw [h1]
    exact copyLoop_placed t s h hnoop _ d _ hp e.2 hmem hexec

/-- The same on the diamond: the call against the copied
`libA.dylib` for `libC.dylib`. -/
theorem rewrite_targets_are_copied_diamond :
    (copy (toolsOf diamondTable "/opt/app") (plainSys "" false false) diamondFinal
      diamondFinal.libs ⟨diamondFiles, []⟩).2 = status.nil ∧
    (("/opt/app/libA.dylib", 2) : String × Ptr) ∈
      (fixReferences (toolsOf diamondTable "/opt/app") (plainSys "" false false) diamondFinal
        diamondFinal.deps diamondFinal.libs).1 ∧
    ((("/opt/app/libA.dylib", 2) : String × Ptr).1 = diamondFinal.root ∧
        (("/opt/app/libA.dylib", 2) : String × Ptr).2 ∈ diamondFinal.deps.map Prod.snd ∧
        isExec (plainSys "" false false) diamondFinal 2 = false ∨
      ∃ e ∈ diamondFinal.libs,
        (("/opt/app/libA.dylib", 2) : String × Ptr).1 =
          destLibPath (toolsOf diamondTable "/opt/app") (plainSys "" false false)
            diamondFinal e.2 ∧
        (("/opt/app/libA.dylib", 2) : String × Ptr).2 ∈ (cell diamondFinal e.2).deps ∧
        isExec (plainSys "" false false) diamondFinal 2 = false ∧
        (isExec (plainSys "" false false) diamondFinal e.2 = false →
          ((copy (toolsOf diamondTable "/opt/app") (plainSys "" false false) diamondFinal
            diamondFinal.libs ⟨diamondFiles, []⟩).1.files "/opt/app/libA.dylib").isSome ∧
          ((cell diamondFinal e.2).path, "/opt/app/libA.dylib") ∈
            (copy (toolsOf diamondTable "/opt/app") (plainSys "" false false) diamondFinal
              diamondFinal.libs ⟨diamondFiles, []⟩).1.copies)) :=
  ⟨by decide, by decide,
    rewrite_targets_are_copied (toolsOf diamondTable "/opt/app")
      (plainSys "" false false) diamondFinal diamondFinal.libs diamondFinal.deps
      diamondFinal.libs ⟨diamondFiles, []⟩ rfl (List.Perm.refl _) (List.Perm.refl _)
      (by decide) ("/opt/app/libA.dylib", 2) (by decide)⟩

/-! ## The end-to-end rewrite with flagged self-identification records -/

theorem perm_pair {α : Type} (a b : α) (l : List α) (h : l.Perm [a, b]) :
    l = [a, b] ∨ l = [b, a] := by
  have hlen := h.length_eq
  match l, h, hlen with
  | [u, v], h, _ =>
    have hu : u = a ∨ u = b := by simpa using h.mem_iff.1 (List.mem_cons_self u [v])
    rcases hu with hu | hu
    · subst hu
      have hv : v = b := List.singleton_perm_singleton.1 ((List.perm_cons u).1 h)
      exact Or.inl (by rw [hv])
    · subst hu
      have h2 : [u, v].Perm [u, a] := h.trans (List.Perm.swap _ _ _)
      have hv : v = a := List.singleton_perm_singleton.1 ((List.perm_cons u).1 h2)
      exact Or.inr (by rw [hv])

/-- C18: in the end-to-end scenario, the rewrite command succeeding, the records
by which `libfoo.dylib` and `libbar.dylib` identify themselves being flagged
as executable references and their records as dependencies not being so,
`fixReferences` after `collect` makes exactly two rewrite calls, in whatever
order `libs` is visited: against `app` for `libfoo.dylib`, then against the
destination of `libfoo.dylib` for `libbar.dylib`. -/
theorem C18_two_rewrite_calls (s : Sys) (order : List (String × Ptr))
    (hperm : order.Perm e2eFinal.libs)
    (hok : ∀ a b c, s.installNameChange a b c = none)
    (hfoo : isExec s e2eFinal 1 = false) (hbar : isExec s e2eFinal 3 = false)
    (hselfFoo : isExec s e2eFinal 2 = true) (hselfBar : isExec s e2eFinal 4 = true) :
    collect (toolsOf e2eTable "/opt/app") 3 (newHarvester "/opt/app/app")
      = some ⟨e2eFinal, status.nil⟩ ∧
    fixReferences (toolsOf e2eTable "/opt/app") s e2eFinal e2eFinal.deps order
      = ([("/opt/app/app", 1), (destLibPath (toolsOf e2eTable "/opt/app") s e2eFinal 1, 3)],
          status.nil) ∧
    (fixReferences (toolsOf e2eTable "/opt/app") s e2eFinal e2eFinal.deps order).1.length
      = 2 := by
  have hst := fixReferences_succeeds (toolsOf e2eTable "/opt/app") s e2eFinal hok
    e2eFinal.deps order
  have hlog := fixReferences_ok (toolsOf e2eTable "/opt/app") s e2eFinal e2eFinal.deps order _
    (Prod.ext rfl hst)
  have hd : e2eFinal.deps.map Prod.snd = [1] := rfl
  have hc1 : (cell e2eFinal 1).deps = [2, 3] := rfl
  have hc3 : (cell e2eFinal 3).deps = [4] := rfl
  have hr : e2eFinal.root = "/opt/app/app" := rfl
  have hl : e2eFinal.libs = [("libfoo.dylib", 1), ("libbar.dylib", 3)] := rfl
  rw [hl] at hperm
  have hval : (fixReferences (toolsOf e2eTable "/opt/app") s e2eFinal e2eFinal.deps order).1
      = [("/opt/app/app", 1),
          (destLibPath (toolsOf e2eTable "/opt/app") s e2eFinal 1, 3)] := by
    refine hlog.trans ?_
    unfold expectedRewrites rewritesOf
    rw [hd, hr]
    rcases perm_pair _ _ order hperm with ho | ho
    · rw [ho]
      simp [hc1, hc3, hfoo, hbar, hselfFoo, hselfBar]
    · rw [ho]
      simp [hc1, hc3, hfoo, hbar, hselfFoo, hselfBar]
  exact ⟨e2e_run, Prod.ext hval hst, by rw [hval]; rfl⟩

/-- Witness of C18 with the flag set on the self-identification records, the
libraries visited in the order `libbar.dylib`, `libfoo.dylib`. -/
theorem C18_two_rewrite_calls_witness :
    isExec (flagSys "/opt/app" "" true false) e2eFinal 2 = true ∧
    isExec (flagSys "/opt/app" "" true false) e2eFinal 4 = true ∧
    fixReferences (toolsOf e2eTable "/opt/app") (flagSys "/opt/app" "" true false) e2eFinal
        e2eFinal.deps [("libbar.dylib", 3), ("libfoo.dylib", 1)]
      = ([("/opt/app/app", 1),
          (destLibPath (toolsOf e2eTable "/opt/app") (flagSys "/opt/app" "" true false)
            e2eFinal 1, 3)], status.nil) :=
  ⟨by decide, by decide,
    (C18_two_rewrite_calls (flagSys "/opt/app" "" true false)
      [("libbar.dylib", 3), ("libfoo.dylib", 1)] (List.Perm.swap _ _ _)
      (fun _ _ _ => rfl) (by decide) (by decide) (by decide) (by decide)).2.1⟩
